import Mathlib

/-!
Verification of the XET reference implementation (content-defined chunking,
Merkle aggregation, xorb and shard containers, upload session).

Bytes are modelled as `List Nat` (each element a byte value); machine
integers are `Nat` with explicit reductions mod 2^64 / 2^32 / 2^24 where the
source wraps.  BLAKE3 keyed hashing, the LZ4 codec, SHA-256, the
`GEARHASH_TABLE` contents and the 32-byte key/tag constants live outside the
reference source (external libraries / the missing `constants` module), so
they are taken as parameters; every theorem is quantified over them.
-/

set_option maxHeartbeats 1000000
set_option maxRecDepth 8000

namespace Xet

abbrev Bytes := List Nat

/-- Little-endian value of a byte list (struct.unpack of an LE integer). -/
def leVal (l : Bytes) : Nat := l.foldr (fun b acc => b + 256 * acc) 0

/-! Constants from the spec (the missing `constants` module).  Modelled from
the spec: `MIN_CHUNK_SIZE=8192`, `MAX_CHUNK_SIZE=131072`,
`MASK=0xFFFF000000000000`, `MAX_XORB_SIZE=64*2^20`, `MAX_XORB_CHUNKS=8192`,
`MIN_CHILDREN=2`, `MAX_CHILDREN=9`, `MEAN_BRANCHING_FACTOR=4`,
`FILE_FLAG_WITH_VERIFICATION=1`, `FILE_FLAG_WITH_METADATA_EXT=2`,
`CHUNK_FLAG_GLOBAL_DEDUP_ELIGIBLE=0x80000000`, compression mode bytes 0/1/2. -/

def MIN_CHUNK_SIZE : Nat := 8192
def MAX_CHUNK_SIZE : Nat := 131072
def MASK : Nat := 0xFFFF000000000000
def MAX_XORB_SIZE : Nat := 64 * 2 ^ 20
def MAX_XORB_CHUNKS : Nat := 8192
def MIN_CHILDREN : Nat := 2
def MAX_CHILDREN : Nat := 9
def MEAN_BRANCHING_FACTOR : Nat := 4
def FILE_FLAG_WITH_VERIFICATION : Nat := 1
def FILE_FLAG_WITH_METADATA_EXT : Nat := 2
def CHUNK_FLAG_GLOBAL_DEDUP_ELIGIBLE : Nat := 0x80000000
def COMPRESSION_NONE : Nat := 0
def COMPRESSION_LZ4 : Nat := 1
def COMPRESSION_BYTE_GROUPING_4_LZ4 : Nat := 2

/-! ## Hash core (hashing.py)

`blake3_keyed_hash` is the external BLAKE3 library; it appears as a parameter
`kh : Bytes → Bytes → Bytes` (key, data ↦ 32-byte digest) below, and the
fixed 32-byte keys (`DATA_KEY`, `INTERNAL_NODE_KEY`, ...) as `Bytes`
parameters. -/

/-- `hash_to_string`: hex digit character, lowercase. -/
def hexChar (n : Nat) : Char := if n < 10 then Char.ofNat (48 + n) else Char.ofNat (87 + n)

/-- 16 lowercase hex digits of a u64 (Python `f"{u64:016x}"`). -/
def hex16 (v : Nat) : String := String.mk (((List.range 16).reverse).map (fun k => hexChar (v / 16 ^ k % 16)))

/-- `hash_to_string`: the 32-byte hash read as four little-endian u64s, each
printed as 16 hex digits. -/
def hashToString (h : Bytes) : String :=
  String.join ((List.range 4).map (fun i => hex16 (leVal ((h.drop (8 * i)).take 8))))

/-- ASCII/UTF-8 bytes of a string (the buffers built here are pure ASCII). -/
def strBytes (s : String) : Bytes := s.data.map Char.toNat

/-- Last 8 bytes of a hash as a little-endian u64 (`struct.unpack("<Q", h[24:32])`). -/
def lastU64 (h : Bytes) : Nat := leVal ((h.drop 24).take 8)

/-- The `for i in range(MIN_CHILDREN-1, end)` search inside `_next_merge_cut`. -/
def nextMergeCutLoop (entries : List (Bytes × Nat)) (endIdx : Nat) (i : Nat) : Nat :=
  if _h : i < endIdx then
    if lastU64 (entries.getD i ([], 0)).1 % MEAN_BRANCHING_FACTOR = 0 then i + 1
    else nextMergeCutLoop entries endIdx (i + 1)
  else endIdx
termination_by endIdx - i

/-- `_next_merge_cut` from hashing.py. -/
def nextMergeCut (entries : List (Bytes × Nat)) : Nat :=
  if entries.length ≤ 2 then entries.length
  else nextMergeCutLoop entries (min MAX_CHILDREN entries.length) (MIN_CHILDREN - 1)

/-- `_merge_hash_sequence` from hashing.py: ASCII buffer of lines
`"{hash_to_string(h)} : {size}\n"`, keyed-hashed with `INTERNAL_NODE_KEY`. -/
def mergeHashSequence (kh : Bytes → Bytes → Bytes) (internalNodeKey : Bytes)
    (entries : List (Bytes × Nat)) : Bytes × Nat :=
  let buffer := entries.foldl (fun s e => s ++ hashToString e.1 ++ " : " ++ Nat.repr e.2 ++ "\n") ""
  let totalSize := entries.foldl (fun t e => t + e.2) 0
  (kh internalNodeKey (strBytes buffer), totalSize)

theorem nextMergeCut_pos (entries : List (Bytes × Nat)) (h : entries ≠ []) :
    1 ≤ nextMergeCut entries := by
  unfold nextMergeCut
  split
  · simpa [Nat.one_le_iff_ne_zero] using h
  · rename_i hlen
    have hlen3 : 3 ≤ entries.length := by omega
    have hend : 3 ≤ min MAX_CHILDREN entries.length := by
      simp [MAX_CHILDREN]; omega
    generalize hE : min MAX_CHILDREN entries.length = E at hend
    have : ∀ j i, E - i = j → 1 ≤ i → 1 ≤ nextMergeCutLoop entries E i := by
      intro j
      induction j with
      | zero => intro i hj hi; unfold nextMergeCutLoop; split <;> omega
      | succ k ih =>
        intro i hj hi
        unfold nextMergeCutLoop
        split
        · split
          · omega
          · exact ih (i + 1) (by omega) (by omega)
        · omega
    exact this (E - (MIN_CHILDREN - 1)) (MIN_CHILDREN - 1) rfl (by simp [MIN_CHILDREN])

theorem nextMergeCut_le (entries : List (Bytes × Nat)) :
    nextMergeCut entries ≤ entries.length := by
  unfold nextMergeCut
  split
  · omega
  · rename_i hlen
    have hE : min MAX_CHILDREN entries.length ≤ entries.length := Nat.min_le_right _ _
    generalize hEq : min MAX_CHILDREN entries.length = E at hE
    have : ∀ j i, E - i = j → nextMergeCutLoop entries E i ≤ E := by
      intro j
      induction j with
      | zero => intro i hj; unfold nextMergeCutLoop; split <;> [split; skip] <;> omega
      | succ k ih =>
        intro i hj
        unfold nextMergeCutLoop
        split
        · split
          · omega
          · exact ih (i + 1) (by omega)
        · omega
    exact le_trans (this (E - (MIN_CHILDREN - 1)) (MIN_CHILDREN - 1) rfl) hE

theorem nextMergeCut_two_le (entries : List (Bytes × Nat)) (h : 2 ≤ entries.length) :
    2 ≤ nextMergeCut entries := by
  unfold nextMergeCut
  split
  · omega
  · rename_i hlen
    have hlen3 : 3 ≤ entries.length := by omega
    have hend : 3 ≤ min MAX_CHILDREN entries.length := by
      simp [MAX_CHILDREN]; omega
    generalize hE : min MAX_CHILDREN entries.length = E at hend
    have : ∀ j i, E - i = j → 1 ≤ i → 2 ≤ nextMergeCutLoop entries E i := by
      intro j
      induction j with
      | zero => intro i hj hi; unfold nextMergeCutLoop; split <;> omega
      | succ k ih =>
        intro i hj hi
        unfold nextMergeCutLoop
        split
        · split
          · omega
          · exact ih (i + 1) (by omega) (by omega)
        · omega
    exact this (E - (MIN_CHILDREN - 1)) (MIN_CHILDREN - 1) rfl (by simp [MIN_CHILDREN])

/-- The inner `while read_idx < len(hv)` loop of `compute_merkle_root`:
take the next cut from the front, merge it, continue on the rest. -/
def mergePassGo (kh : Bytes → Bytes → Bytes) (internalNodeKey : Bytes)
    (hv : List (Bytes × Nat)) : List (Bytes × Nat) :=
  if h : hv = [] then []
  else
    mergeHashSequence kh internalNodeKey (hv.take (nextMergeCut hv)) ::
      mergePassGo kh internalNodeKey (hv.drop (nextMergeCut hv))
termination_by hv.length
decreasing_by
  have h1 : 1 ≤ nextMergeCut hv := nextMergeCut_pos hv h
  have h2 : 0 < hv.length := List.length_pos.mpr h
  have h3 : (hv.drop (nextMergeCut hv)).length = hv.length - nextMergeCut hv :=
    List.length_drop _ _
  omega

theorem mergePassGo_shrinks (kh : Bytes → Bytes → Bytes) (key : Bytes) :
    ∀ n (hv : List (Bytes × Nat)), hv.length ≤ n → hv ≠ [] →
      2 * (mergePassGo kh key hv).length ≤ hv.length + 1 := by
  intro n
  induction n with
  | zero => intro hv hle hne; simp at hle; simp [hle] at hne
  | succ k ih =>
    intro hv hle hne
    unfold mergePassGo
    simp only [hne, dite_false]
    rcases Nat.lt_or_ge hv.length 2 with hlt | hge
    · have hcut : nextMergeCut hv = hv.length := by
        unfold nextMergeCut; rw [if_pos (by omega)]
      have hdr : hv.drop (nextMergeCut hv) = [] := by
        rw [hcut]; simp
      rw [hdr]
      unfold mergePassGo
      simp
      have : 0 < hv.length := List.length_pos.mpr hne
      omega
    · have hcut2 : 2 ≤ nextMergeCut hv := nextMergeCut_two_le hv hge
      have hcutle : nextMergeCut hv ≤ hv.length := nextMergeCut_le hv
      by_cases hrest : hv.drop (nextMergeCut hv) = []
      · rw [hrest]
        unfold mergePassGo
        simp
        omega
      · have hlen : (hv.drop (nextMergeCut hv)).length ≤ k := by
          simp [List.length_drop]
          have : 0 < hv.length := List.length_pos.mpr hne
          omega
        have := ih (hv.drop (nextMergeCut hv)) hlen hrest
        simp only [List.length_cons]
        simp [List.length_drop] at this
        omega

/-- The outer `while len(hv) > 1` loop of `compute_merkle_root`. -/
def merkleLoop (kh : Bytes → Bytes → Bytes) (internalNodeKey : Bytes)
    (hv : List (Bytes × Nat)) : List (Bytes × Nat) :=
  if h : hv.length > 1 then merkleLoop kh internalNodeKey (mergePassGo kh internalNodeKey hv)
  else hv
termination_by hv.length
decreasing_by
  have hne : hv ≠ [] := by intro hc; simp [hc] at h
  have := mergePassGo_shrinks kh internalNodeKey hv.length hv (le_refl _) hne
  omega

/-- `compute_merkle_root` from hashing.py. -/
def computeMerkleRoot (kh : Bytes → Bytes → Bytes) (internalNodeKey : Bytes)
    (entries : List (Bytes × Nat)) : Bytes :=
  if entries.length = 0 then List.replicate 32 0
  else ((merkleLoop kh internalNodeKey entries).headD ([], 0)).1

/-! ### The reference coalescing procedure, written from the spec's words
(for the refinement claim about `compute_merkle_root`). -/

/-- Spec wording: within a run of length ≥ 3, the cut is `i+1` for the
smallest `i` in `[MIN_CHILDREN-1, min(MAX_CHILDREN, length))` whose entry's
last 8 hash bytes (little-endian u64) are divisible by
`MEAN_BRANCHING_FACTOR`, else `min(MAX_CHILDREN, length)`; a run of length
at most 2 forms a single group. -/
def specMergeCut (entries : List (Bytes × Nat)) : Nat :=
  if entries.length ≤ 2 then entries.length
  else
    match (List.range' (MIN_CHILDREN - 1) (min MAX_CHILDREN entries.length - (MIN_CHILDREN - 1))).find?
        (fun i => lastU64 (entries.getD i ([], 0)).1 % MEAN_BRANCHING_FACTOR == 0) with
    | some i => i + 1
    | none => min MAX_CHILDREN entries.length

theorem nextMergeCutLoop_eq_find (entries : List (Bytes × Nat)) (E : Nat) :
    ∀ j i, E - i = j →
      nextMergeCutLoop entries E i =
        match (List.range' i (E - i)).find?
            (fun k => lastU64 (entries.getD k ([], 0)).1 % MEAN_BRANCHING_FACTOR == 0) with
        | some k => k + 1
        | none => E := by
  intro j
  induction j with
  | zero =>
    intro i hj
    unfold nextMergeCutLoop
    rw [hj, List.range'_zero]
    have : ¬ i < E := by omega
    simp [this, List.find?]
  | succ m ih =>
    intro i hj
    have hi : i < E := by omega
    have hr : E - i = (E - (i + 1)) + 1 := by omega
    unfold nextMergeCutLoop
    rw [dif_pos hi, hr, List.range'_succ, List.find?_cons]
    cases hb : (lastU64 (entries.getD i ([], 0)).1 % MEAN_BRANCHING_FACTOR == 0) with
    | true =>
      have hp : lastU64 (entries.getD i ([], 0)).1 % MEAN_BRANCHING_FACTOR = 0 := by
        simpa using hb
      rw [if_pos hp]
    | false =>
      have hp : ¬ lastU64 (entries.getD i ([], 0)).1 % MEAN_BRANCHING_FACTOR = 0 := by
        simpa using hb
      rw [if_neg hp, ih (i + 1) (by omega)]

theorem specMergeCut_eq (entries : List (Bytes × Nat)) :
    specMergeCut entries = nextMergeCut entries := by
  unfold specMergeCut nextMergeCut
  split
  · rfl
  · rw [nextMergeCutLoop_eq_find entries (min MAX_CHILDREN entries.length)
      (min MAX_CHILDREN entries.length - (MIN_CHILDREN - 1)) (MIN_CHILDREN - 1) rfl]

/-- Spec wording: scan left to right, splitting the remaining run into
groups at the cut points. -/
def specGroups (hv : List (Bytes × Nat)) : List (List (Bytes × Nat)) :=
  if h : hv = [] then []
  else hv.take (specMergeCut hv) :: specGroups (hv.drop (specMergeCut hv))
termination_by hv.length
decreasing_by
  rw [specMergeCut_eq]
  have h1 : 1 ≤ nextMergeCut hv := nextMergeCut_pos hv h
  have h2 : 0 < hv.length := List.length_pos.mpr h
  have h3 : (hv.drop (nextMergeCut hv)).length = hv.length - nextMergeCut hv :=
    List.length_drop _ _
  omega

/-- Spec wording: a group is replaced by
`(keyed_hash(INTERNAL_NODE_KEY, buffer of lines "Hi : Si\n"), sum of sizes)`. -/
def specMergeGroup (kh : Bytes → Bytes → Bytes) (internalNodeKey : Bytes)
    (group : List (Bytes × Nat)) : Bytes × Nat :=
  (kh internalNodeKey
      (strBytes (String.join (group.map (fun e => hashToString e.1 ++ " : " ++ Nat.repr e.2 ++ "\n")))),
    (group.map Prod.snd).sum)

/-- Spec wording: one coalescing pass over the remaining entries. -/
def specPass (kh : Bytes → Bytes → Bytes) (internalNodeKey : Bytes)
    (hv : List (Bytes × Nat)) : List (Bytes × Nat) :=
  (specGroups hv).map (specMergeGroup kh internalNodeKey)

theorem strBytes_append (a b : String) : strBytes (a ++ b) = strBytes a ++ strBytes b := by
  simp [strBytes, String.data_append]

theorem strBytes_mergeBuf :
    ∀ (g : List (Bytes × Nat)) (acc : String),
      strBytes (g.foldl (fun s e => s ++ hashToString e.1 ++ " : " ++ Nat.repr e.2 ++ "\n") acc) =
        strBytes acc ++
          (g.map (fun e => strBytes (hashToString e.1 ++ " : " ++ Nat.repr e.2 ++ "\n"))).flatten := by
  intro g
  induction g with
  | nil => intro acc; simp
  | cons a l ih =>
    intro acc
    simp only [List.foldl_cons, List.map_cons, List.flatten_cons]
    rw [ih]
    simp [strBytes_append, List.append_assoc]

theorem strBytes_join (l : List String) :
    strBytes (String.join l) = (l.map strBytes).flatten := by
  have key : ∀ (l : List String) (acc : String),
      strBytes (l.foldl (fun a b => a ++ b) acc) = strBytes acc ++ (l.map strBytes).flatten := by
    intro l
    induction l with
    | nil => intro acc; simp
    | cons a t ih =>
      intro acc
      simp only [List.foldl_cons, List.map_cons, List.flatten_cons]
      rw [ih, strBytes_append, List.append_assoc]
  have hj : String.join l = l.foldl (fun a b => a ++ b) "" := rfl
  rw [hj, key]
  simp [strBytes]

theorem specMergeGroup_eq (kh : Bytes → Bytes → Bytes) (key : Bytes)
    (g : List (Bytes × Nat)) :
    specMergeGroup kh key g = mergeHashSequence kh key g := by
  unfold specMergeGroup mergeHashSequence
  dsimp only
  rw [Prod.mk.injEq]
  constructor
  · congr 1
    rw [strBytes_join, strBytes_mergeBuf]
    have h0 : strBytes "" = [] := rfl
    rw [h0, List.nil_append, List.map_map]
    rfl
  · have hsum : ∀ (g : List (Bytes × Nat)) (acc : Nat),
        g.foldl (fun t e => t + e.2) acc = acc + (g.map Prod.snd).sum := by
      intro g
      induction g with
      | nil => intro acc; simp
      | cons a t ih => intro acc; simp [ih, Nat.add_assoc]
    simp [hsum]

theorem specPass_eq (kh : Bytes → Bytes → Bytes) (key : Bytes) :
    ∀ (hv : List (Bytes × Nat)), specPass kh key hv = mergePassGo kh key hv := by
  have main : ∀ n (hv : List (Bytes × Nat)), hv.length ≤ n →
      specPass kh key hv = mergePassGo kh key hv := by
    intro n
    induction n with
    | zero =>
      intro hv hle
      have : hv = [] := by cases hv <;> simp_all
      subst this
      unfold specPass specGroups mergePassGo
      simp
    | succ k ih =>
      intro hv hle
      by_cases hl : hv = []
      · subst hl
        unfold specPass specGroups mergePassGo
        simp
      · unfold specPass specGroups mergePassGo
        simp only [hl, dite_false, List.map_cons]
        rw [specMergeCut_eq, specMergeGroup_eq]
        congr 1
        have hlen : (hv.drop (nextMergeCut hv)).length ≤ k := by
          have h1 : 1 ≤ nextMergeCut hv := nextMergeCut_pos hv hl
          have h2 : 0 < hv.length := List.length_pos.mpr hl
          simp [List.length_drop]
          omega
        exact ih (hv.drop (nextMergeCut hv)) hlen
  intro hv
  exact main hv.length hv (le_refl _)

/-- Spec wording: repeat the pass until one entry remains. -/
def specCoalesceLoop (kh : Bytes → Bytes → Bytes) (internalNodeKey : Bytes)
    (hv : List (Bytes × Nat)) : List (Bytes × Nat) :=
  if h : hv.length > 1 then specCoalesceLoop kh internalNodeKey (specPass kh internalNodeKey hv)
  else hv
termination_by hv.length
decreasing_by
  have hne : hv ≠ [] := by intro hc; simp [hc] at h
  have hs := mergePassGo_shrinks kh internalNodeKey hv.length hv (le_refl _) hne
  rw [specPass_eq]
  omega

/-- The full reference coalescing procedure as worded in the spec. -/
def specMerkleRoot (kh : Bytes → Bytes → Bytes) (internalNodeKey : Bytes)
    (entries : List (Bytes × Nat)) : Bytes :=
  if entries.length = 0 then List.replicate 32 0
  else ((specCoalesceLoop kh internalNodeKey entries).headD ([], 0)).1

theorem specCoalesceLoop_eq (kh : Bytes → Bytes → Bytes) (key : Bytes) :
    ∀ (hv : List (Bytes × Nat)), specCoalesceLoop kh key hv = merkleLoop kh key hv := by
  have main : ∀ n (hv : List (Bytes × Nat)), hv.length ≤ n →
      specCoalesceLoop kh key hv = merkleLoop kh key hv := by
    intro n
    induction n with
    | zero =>
      intro hv hle
      have : hv = [] := by cases hv <;> simp_all
      subst this
      unfold specCoalesceLoop merkleLoop
      simp
    | succ k ih =>
      intro hv hle
      unfold specCoalesceLoop merkleLoop
      by_cases hlen : hv.length > 1
      · simp only [hlen, dite_true]
        rw [specPass_eq]
        have hne : hv ≠ [] := by intro hc; simp [hc] at hlen
        have hs := mergePassGo_shrinks kh key hv.length hv (le_refl _) hne
        exact ih (mergePassGo kh key hv) (by omega)
      · simp [hlen]
  intro hv
  exact main hv.length hv (le_refl _)

/-- C1: `compute_merkle_root` equals the reference coalescing procedure
described by the spec: groups of 2..9 cut at the first index (from the
second entry on) whose hash's trailing u64 is divisible by
`MEAN_BRANCHING_FACTOR`, each group replaced by the keyed hash of the
`"Hi : Si\n"` line buffer together with the summed size, repeated until a
single entry remains; the empty input yields 32 zero bytes. -/
theorem computeMerkleRoot_eq_specMerkleRoot (kh : Bytes → Bytes → Bytes)
    (internalNodeKey : Bytes) (entries : List (Bytes × Nat)) :
    computeMerkleRoot kh internalNodeKey entries = specMerkleRoot kh internalNodeKey entries := by
  unfold computeMerkleRoot specMerkleRoot
  rw [specCoalesceLoop_eq]

/-! ## Chunker (chunking.py)

`GEARHASH_TABLE` lives in the missing `constants` module; the spec only says
it is a fixed 256-entry u64 table, so it appears as a parameter
`table : Nat → Nat` and every chunker theorem is quantified over it. -/

/-- A chunk of data with its offset and size (`Chunk` in chunking.py). -/
structure Chunk where
  data : Bytes
  offset : Nat
  size : Nat
deriving DecidableEq, Repr

/-- State of the `for i in range(len(data))` loop of `chunk_data`. -/
structure ChunkerState where
  h : Nat
  startOffset : Nat
  chunks : List Chunk
deriving DecidableEq, Repr

/-- One iteration of the `chunk_data` loop, at position `i` with byte `b`
(the Python loop reads `b = data[i]`; here the fold walks `data.enum`). -/
def chunkStep (table : Nat → Nat) (data : Bytes) (s : ChunkerState) (p : Nat × Nat) :
    ChunkerState :=
  let i := p.1
  let b := p.2
  let h := (s.h * 2 + table b) % 2 ^ 64
  let chunkSize := i - s.startOffset + 1
  if chunkSize < MIN_CHUNK_SIZE then { s with h := h }
  else if chunkSize ≥ MAX_CHUNK_SIZE then
    { h := 0, startOffset := i + 1,
      chunks := s.chunks ++
        [{ data := (data.take (i + 1)).drop s.startOffset, offset := s.startOffset,
           size := chunkSize }] }
  else if h &&& MASK = 0 then
    { h := 0, startOffset := i + 1,
      chunks := s.chunks ++
        [{ data := (data.take (i + 1)).drop s.startOffset, offset := s.startOffset,
           size := chunkSize }] }
  else { s with h := h }

def chunkerInit : ChunkerState := { h := 0, startOffset := 0, chunks := [] }

/-- The full `for` loop of `chunk_data`. -/
def chunkerLoop (table : Nat → Nat) (data : Bytes) : ChunkerState :=
  data.enum.foldl (chunkStep table data) chunkerInit

/-- `chunk_data` from chunking.py. -/
def chunkData (table : Nat → Nat) (data : Bytes) : List Chunk :=
  if data.length = 0 then []
  else
    let s := chunkerLoop table data
    if s.startOffset < data.length then
      s.chunks ++
        [{ data := data.drop s.startOffset, offset := s.startOffset,
           size := data.length - s.startOffset }]
    else s.chunks

/-- Loop invariant for `chunk_data` after the first `k` positions. -/
def ChunkerInv (data : Bytes) (k : Nat) (s : ChunkerState) : Prop :=
  s.startOffset ≤ k ∧
  (s.chunks.map Chunk.data).flatten = data.take s.startOffset ∧
  (∀ c ∈ s.chunks, MIN_CHUNK_SIZE ≤ c.size ∧ c.size ≤ MAX_CHUNK_SIZE ∧
    c.data.length = c.size) ∧
  k - s.startOffset ≤ MAX_CHUNK_SIZE - 1

theorem chunkStep_inv (table : Nat → Nat) (data : Bytes) (k b : Nat) (s : ChunkerState)
    (hk : k < data.length) (hinv : ChunkerInv data k s) :
    ChunkerInv data (k + 1) (chunkStep table data s (k, b)) := by
  obtain ⟨h1, h2, h3, h4⟩ := hinv
  have hMIN : MIN_CHUNK_SIZE = 8192 := rfl
  have hMAX : MAX_CHUNK_SIZE = 131072 := rfl
  unfold chunkStep
  dsimp only
  set hsh := (s.h * 2 + table b) % 2 ^ 64 with hhsh
  by_cases hlt : k - s.startOffset + 1 < MIN_CHUNK_SIZE
  · rw [if_pos hlt]
    exact ⟨by dsimp only; omega, h2, h3, by dsimp only; omega⟩
  · rw [if_neg hlt]
    have hslice : ((data.take (k + 1)).drop s.startOffset).length = k - s.startOffset + 1 := by
      simp only [List.length_drop, List.length_take]
      omega
    have hemit : MIN_CHUNK_SIZE ≤ k - s.startOffset + 1 →
        k - s.startOffset + 1 ≤ MAX_CHUNK_SIZE →
        ChunkerInv data (k + 1)
          { h := 0, startOffset := k + 1,
            chunks := s.chunks ++
              [{ data := (data.take (k + 1)).drop s.startOffset, offset := s.startOffset,
                 size := k - s.startOffset + 1 }] } := by
      intro hc1 hc2
      refine ⟨?_, ?_, ?_, ?_⟩
      · dsimp only
        omega
      · dsimp only
        simp only [List.map_append, List.flatten_append, h2, List.map_cons, List.map_nil,
          List.flatten_cons, List.flatten_nil, List.append_nil]
        have ht : data.take s.startOffset = (data.take (k + 1)).take s.startOffset := by
          rw [List.take_take]
          congr 1
          omega
        rw [ht, List.take_append_drop]
      · dsimp only
        intro c hmem0
        rcases List.mem_append.mp hmem0 with hmem | hmem
        · exact h3 c hmem
        · simp at hmem
          subst hmem
          exact ⟨by dsimp only; omega, by dsimp only; omega, by dsimp only; exact hslice⟩
      · dsimp only
        omega
    by_cases hge : k - s.startOffset + 1 ≥ MAX_CHUNK_SIZE
    · rw [if_pos hge]
      exact hemit (by omega) (by omega)
    · rw [if_neg hge]
      by_cases hmask : hsh &&& MASK = 0
      · rw [if_pos hmask]
        exact hemit (by omega) (by omega)
      · rw [if_neg hmask]
        exact ⟨by dsimp only; omega, h2, h3, by dsimp only; omega⟩

theorem chunker_foldl_inv (table : Nat → Nat) (data : Bytes) :
    ∀ (rem : Bytes) (k : Nat) (s : ChunkerState),
      k + rem.length ≤ data.length → ChunkerInv data k s →
      ChunkerInv data (k + rem.length) ((List.enumFrom k rem).foldl (chunkStep table data) s) := by
  intro rem
  induction rem with
  | nil =>
    intro k s hle hinv
    simpa using hinv
  | cons b rest ih =>
    intro k s hle hinv
    have hk : k < data.length := by
      simp only [List.length_cons] at hle
      omega
    have henum : List.enumFrom k (b :: rest) = (k, b) :: List.enumFrom (k + 1) rest := rfl
    rw [henum, List.foldl_cons]
    have h2 := ih (k + 1) (chunkStep table data s (k, b))
      (by simp only [List.length_cons] at hle; omega)
      (chunkStep_inv table data k b s hk hinv)
    simp only [List.length_cons]
    have harith : k + (rest.length + 1) = (k + 1) + rest.length := by omega
    rw [harith]
    exact h2

theorem chunkerLoop_inv (table : Nat → Nat) (data : Bytes) :
    ChunkerInv data data.length (chunkerLoop table data) := by
  have hinit : ChunkerInv data 0 chunkerInit := by
    refine ⟨le_refl _, ?_, ?_, ?_⟩ <;> simp [chunkerInit, MAX_CHUNK_SIZE]
  have h := chunker_foldl_inv table data data 0 chunkerInit (by omega) hinit
  simpa [chunkerLoop, List.enum] using h

/-- C2: the chunks of `chunk_data` concatenate back to the input, every
chunk except the last has size in `[MIN_CHUNK_SIZE, MAX_CHUNK_SIZE]`, and
the empty input yields an empty chunk list. -/
theorem chunkData_spec (table : Nat → Nat) (d : Bytes) :
    ((chunkData table d).map Chunk.data).flatten = d ∧
    (∀ c ∈ (chunkData table d).dropLast,
      MIN_CHUNK_SIZE ≤ c.size ∧ c.size ≤ MAX_CHUNK_SIZE) ∧
    chunkData table [] = [] := by
  obtain ⟨h1, h2, h3, _h4⟩ := chunkerLoop_inv table d
  refine ⟨?_, ?_, rfl⟩
  · by_cases hlen : d.length = 0
    · have : d = [] := List.length_eq_zero.mp hlen
      subst this
      rfl
    · unfold chunkData
      rw [if_neg hlen]
      dsimp only
      by_cases hlt : (chunkerLoop table d).startOffset < d.length
      · rw [if_pos hlt]
        simp only [List.map_append, List.flatten_append, h2, List.map_cons, List.map_nil,
          List.flatten_cons, List.flatten_nil, List.append_nil]
        exact List.take_append_drop _ _
      · rw [if_neg hlt]
        have : (chunkerLoop table d).startOffset = d.length := by omega
        rw [h2, this, List.take_length]
  · intro c hc
    by_cases hlen : d.length = 0
    · have : d = [] := List.length_eq_zero.mp hlen
      subst this
      simp [chunkData] at hc
    · unfold chunkData at hc
      rw [if_neg hlen] at hc
      dsimp only at hc
      by_cases hlt : (chunkerLoop table d).startOffset < d.length
      · rw [if_pos hlt, List.dropLast_concat] at hc
        exact ⟨(h3 c hc).1, (h3 c hc).2.1⟩
      · rw [if_neg hlt] at hc
        have hc2 : c ∈ (chunkerLoop table d).chunks :=
          (List.dropLast_sublist _).subset hc
        exact ⟨(h3 c hc2).1, (h3 c hc2).2.1⟩

/-- Every chunk produced by `chunk_data` has `1 ≤ size ≤ MAX_CHUNK_SIZE` and
carries data of exactly `size` bytes (used by the session model). -/
theorem chunkData_all_sizes (table : Nat → Nat) (d : Bytes) :
    ∀ c ∈ chunkData table d,
      1 ≤ c.size ∧ c.size ≤ MAX_CHUNK_SIZE ∧ c.data.length = c.size := by
  obtain ⟨h1, h2, h3, h4⟩ := chunkerLoop_inv table d
  intro c hc
  by_cases hlen : d.length = 0
  · have : d = [] := List.length_eq_zero.mp hlen
    subst this
    simp [chunkData] at hc
  · unfold chunkData at hc
    rw [if_neg hlen] at hc
    dsimp only at hc
    by_cases hlt : (chunkerLoop table d).startOffset < d.length
    · rw [if_pos hlt] at hc
      rcases List.mem_append.mp hc with hmem | hmem
      · have := h3 c hmem
        have hMIN : MIN_CHUNK_SIZE = 8192 := rfl
        exact ⟨by omega, this.2.1, this.2.2⟩
      · simp at hmem
        subst hmem
        refine ⟨by dsimp only; omega, by dsimp only; have : MAX_CHUNK_SIZE = 131072 := rfl; omega, ?_⟩
        dsimp only
        simp [List.length_drop]
    · rw [if_neg hlt] at hc
      have := h3 c hc
      have hMIN : MIN_CHUNK_SIZE = 8192 := rfl
      exact ⟨by omega, this.2.1, this.2.2⟩

/-- C9 (amended): when bytes remain after the last declared boundary, the
final chunk has size between 1 and `MAX_CHUNK_SIZE - 1` (the 8 KiB minimum
may be violated only there; every non-final chunk is at least
`MIN_CHUNK_SIZE`). -/
theorem chunkData_trailing_chunk (table : Nat → Nat) (d : Bytes)
    (h1 : d ≠ []) (h2 : (chunkerLoop table d).startOffset < d.length) :
    (chunkData table d).getLast? =
      some { data := d.drop (chunkerLoop table d).startOffset,
             offset := (chunkerLoop table d).startOffset,
             size := d.length - (chunkerLoop table d).startOffset } ∧
    1 ≤ d.length - (chunkerLoop table d).startOffset ∧
    d.length - (chunkerLoop table d).startOffset ≤ MAX_CHUNK_SIZE - 1 ∧
    ∀ c ∈ (chunkData table d).dropLast, MIN_CHUNK_SIZE ≤ c.size := by
  obtain ⟨hi1, hi2, hi3, hi4⟩ := chunkerLoop_inv table d
  have hlen : ¬ d.length = 0 := by
    intro hc
    exact h1 (List.length_eq_zero.mp hc)
  have hMAX : MAX_CHUNK_SIZE = 131072 := rfl
  unfold chunkData
  rw [if_neg hlen]
  dsimp only
  rw [if_pos h2]
  refine ⟨List.getLast?_concat _, by omega, by omega, ?_⟩
  rw [List.dropLast_concat]
  intro c hc
  exact (hi3 c hc).1

theorem chunkData_trailing_chunk_witness :
    ([5] : Bytes) ≠ [] ∧ (chunkerLoop (fun _ => 0) [5]).startOffset < ([5] : Bytes).length ∧
    1 ≤ ([5] : Bytes).length - (chunkerLoop (fun _ => 0) [5]).startOffset :=
  ⟨by decide, by decide,
    (chunkData_trailing_chunk (fun _ => 0) [5] (by decide) (by decide)).2.1⟩

/-! Counterexample data for the original final-chunk bound: a table and an
input for which a boundary is declared at 8192 and the remaining 8193 bytes
form the trailing chunk. -/

def cexTable : Nat → Nat := fun b => if b = 1 then 0 else 2 ^ 63

def cexData : Bytes := List.replicate 8192 1 ++ List.replicate 8193 0

theorem cex_run1 : ∀ (m k : Nat) (s : ChunkerState), s.h = 0 →
    (∀ j, k ≤ j → j < k + m → j - s.startOffset + 1 < MIN_CHUNK_SIZE) →
    (List.enumFrom k (List.replicate m 1)).foldl (chunkStep cexTable cexData) s = s := by
  intro m
  induction m with
  | zero => intro k s _ _; rfl
  | succ n ih =>
    intro k s hh hsz
    rw [List.replicate_succ]
    have henum : List.enumFrom k (1 :: List.replicate n 1) =
        (k, 1) :: List.enumFrom (k + 1) (List.replicate n 1) := rfl
    rw [henum, List.foldl_cons]
    have hstep : chunkStep cexTable cexData s (k, 1) = s := by
      unfold chunkStep
      dsimp only
      rw [if_pos (hsz k (le_refl _) (by omega))]
      have : (s.h * 2 + cexTable 1) % 2 ^ 64 = s.h := by
        rw [hh]
        decide
      rw [this]
    rw [hstep]
    exact ih (k + 1) s hh (fun j hj1 hj2 => hsz j (by omega) (by omega))

theorem cex_run2 : ∀ (m k : Nat) (s : ChunkerState), (s.h = 0 ∨ s.h = 2 ^ 63) →
    (∀ j, k ≤ j → j < k + m → j - s.startOffset + 1 < MAX_CHUNK_SIZE) →
    ∃ hfin, (List.enumFrom k (List.replicate m 0)).foldl (chunkStep cexTable cexData) s =
      { h := hfin, startOffset := s.startOffset, chunks := s.chunks } ∧
      (hfin = 0 ∨ hfin = 2 ^ 63) := by
  intro m
  induction m with
  | zero =>
    intro k s hh _
    exact ⟨s.h, by cases s; rfl, hh⟩
  | succ n ih =>
    intro k s hh hsz
    rw [List.replicate_succ]
    have henum : List.enumFrom k (0 :: List.replicate n 0) =
        (k, 0) :: List.enumFrom (k + 1) (List.replicate n 0) := rfl
    rw [henum, List.foldl_cons]
    have hnew : (s.h * 2 + cexTable 0) % 2 ^ 64 = 2 ^ 63 := by
      rcases hh with hh | hh <;> rw [hh] <;> decide
    have hstep : chunkStep cexTable cexData s (k, 0) = { s with h := 2 ^ 63 } := by
      unfold chunkStep
      dsimp only
      rw [hnew]
      by_cases hlt : k - s.startOffset + 1 < MIN_CHUNK_SIZE
      · rw [if_pos hlt]
      · rw [if_neg hlt]
        have hge : ¬ k - s.startOffset + 1 ≥ MAX_CHUNK_SIZE := by
          have := hsz k (le_refl _) (by omega)
          omega
        rw [if_neg hge]
        have hmask : ¬ (2 ^ 63 &&& MASK = 0) := by decide
        rw [if_neg hmask]
    rw [hstep]
    exact ih (k + 1) { s with h := 2 ^ 63 } (Or.inr rfl)
      (fun j hj1 hj2 => hsz j (by omega) (by omega))

theorem cex_chunkData :
    (chunkData cexTable cexData).map Chunk.size = [8192, 8193] := by
  have hsplit : cexData = (List.replicate 8191 1 ++ [1]) ++ List.replicate 8193 0 := by
    unfold cexData
    have h1 : (8192 : Nat) = 8191 + 1 := by norm_num
    rw [h1, List.replicate_succ']
  have hlen : cexData.length = 16385 := by
    unfold cexData
    rw [List.length_append, List.length_replicate, List.length_replicate]
  have hloop : ∃ hf, chunkerLoop cexTable cexData =
      { h := hf, startOffset := 8192,
        chunks := [{ data := List.replicate 8192 1, offset := 0, size := 8192 }] } := by
    unfold chunkerLoop
    unfold List.enum
    conv in List.enumFrom 0 cexData => rw [hsplit]
    rw [List.enumFrom_append, List.enumFrom_append, List.foldl_append, List.foldl_append]
    rw [List.length_replicate, List.length_append, List.length_replicate]
    have hadd : (8191 : Nat) + ([(1 : Nat)]).length = 8192 := by norm_num
    rw [hadd]
    have hr1 : (List.enumFrom 0 (List.replicate 8191 1)).foldl
        (chunkStep cexTable cexData) chunkerInit = chunkerInit := by
      apply cex_run1
      · rfl
      · intro j hj1 hj2
        have : MIN_CHUNK_SIZE = 8192 := rfl
        unfold chunkerInit
        dsimp only
        omega
    rw [hr1]
    have hstep : (List.enumFrom 8191 [1]).foldl (chunkStep cexTable cexData) chunkerInit =
        { h := 0, startOffset := 8192,
          chunks := [{ data := List.replicate 8192 1, offset := 0, size := 8192 }] } := by
      have h1 : List.enumFrom 8191 [(1 : Nat)] = [(8191, 1)] := rfl
      rw [h1]
      simp only [List.foldl_cons, List.foldl_nil]
      unfold chunkStep chunkerInit
      dsimp only
      rw [if_neg (by norm_num [MIN_CHUNK_SIZE])]
      rw [if_neg (by norm_num [MAX_CHUNK_SIZE])]
      rw [if_pos (by decide)]
      have hdata : (cexData.take 8192).drop 0 = List.replicate 8192 1 := by
        rw [List.drop_zero]
        unfold cexData
        rw [List.take_append_of_le_length (by rw [List.length_replicate])]
        rw [List.take_replicate]
        norm_num
      rw [hdata]
      have h2 : (8191 : Nat) + 1 = 8192 := by norm_num
      rw [h2, List.nil_append]
    rw [hstep]
    have hr2 := cex_run2 8193 8192
      { h := 0, startOffset := 8192,
        chunks := [{ data := List.replicate 8192 1, offset := 0, size := 8192 }] }
      (Or.inl rfl)
      (by intro j hj1 hj2
          have : MAX_CHUNK_SIZE = 131072 := rfl
          dsimp only
          omega)
    obtain ⟨hfin, heq, _hcase⟩ := hr2
    dsimp only at heq
    exact ⟨hfin, heq⟩
  have hfinal : cexData.drop 8192 = List.replicate 8193 0 := by
    unfold cexData
    have h0 := List.drop_left (List.replicate 8192 (1 : Nat)) (List.replicate 8193 (0 : Nat))
    rw [List.length_replicate] at h0
    exact h0
  obtain ⟨hf, hl⟩ := hloop
  unfold chunkData
  rw [if_neg (by rw [hlen]; omega)]
  dsimp only
  rw [hl]
  rw [if_pos (by dsimp only; rw [hlen]; omega)]
  simp only [List.map_append, List.map_cons, List.map_nil]
  rw [hlen]
  norm_num

/-- C9 counterexample: on `cexData` the chunker declares one boundary at
8192 and the trailing chunk has 8193 bytes, exceeding the claimed bound
`MIN_CHUNK_SIZE - 1 = 8191`. -/
theorem chunkData_trailing_chunk_cex :
    (chunkData cexTable cexData).map Chunk.size = [8192, 8193] ∧
    ¬ (8193 ≤ MIN_CHUNK_SIZE - 1) :=
  ⟨cex_chunkData, by decide⟩

/-! ### Streaming chunker (`chunk_stream`) -/

/-- State of the `chunk_stream` generator. -/
structure StreamState where
  h : Nat
  currentChunk : Bytes
  globalOffset : Nat
  chunkStart : Nat
  out : List Chunk
deriving DecidableEq, Repr

/-- One byte of the `for b in buffer` loop of `chunk_stream`. -/
def streamStep (table : Nat → Nat) (s : StreamState) (b : Nat) : StreamState :=
  let h := (s.h * 2 + table b) % 2 ^ 64
  let cur := s.currentChunk ++ [b]
  let chunkSize := cur.length
  if chunkSize < MIN_CHUNK_SIZE then
    { h := h, currentChunk := cur, globalOffset := s.globalOffset + 1,
      chunkStart := s.chunkStart, out := s.out }
  else if chunkSize ≥ MAX_CHUNK_SIZE then
    { h := 0, currentChunk := [], globalOffset := s.globalOffset + 1,
      chunkStart := s.globalOffset + 1,
      out := s.out ++ [{ data := cur, offset := s.chunkStart, size := chunkSize }] }
  else if h &&& MASK = 0 then
    { h := 0, currentChunk := [], globalOffset := s.globalOffset + 1,
      chunkStart := s.globalOffset + 1,
      out := s.out ++ [{ data := cur, offset := s.chunkStart, size := chunkSize }] }
  else
    { h := h, currentChunk := cur, globalOffset := s.globalOffset + 1,
      chunkStart := s.chunkStart, out := s.out }

def streamInit : StreamState :=
  { h := 0, currentChunk := [], globalOffset := 0, chunkStart := 0, out := [] }

/-- The `while True: buffer = stream.read(...)` loop of `chunk_stream`
(the stream is modelled by the list of buffers its reads return, and the
loop breaks at the first empty read). -/
def chunkStreamLoop (table : Nat → Nat) (s : StreamState) : List Bytes → StreamState
  | [] => s
  | buf :: rest =>
    if buf = [] then s
    else chunkStreamLoop table (buf.foldl (streamStep table) s) rest

/-- `chunk_stream` from chunking.py: all chunks yielded, including the final
partial chunk. -/
def chunkStream (table : Nat → Nat) (buffers : List Bytes) : List Chunk :=
  let s := chunkStreamLoop table streamInit buffers
  if s.currentChunk ≠ [] then
    s.out ++ [{ data := s.currentChunk, offset := s.chunkStart, size := s.currentChunk.length }]
  else s.out

theorem chunkStreamLoop_eq_foldl (table : Nat → Nat) :
    ∀ (bufs : List Bytes) (s : StreamState), (∀ b ∈ bufs, b ≠ []) →
      chunkStreamLoop table s bufs = bufs.flatten.foldl (streamStep table) s := by
  intro bufs
  induction bufs with
  | nil => intro s _; rfl
  | cons buf rest ih =>
    intro s hne
    unfold chunkStreamLoop
    rw [if_neg (hne buf (by simp))]
    rw [List.flatten_cons, List.foldl_append]
    exact ih _ (fun b hb => hne b (by simp [hb]))

/-- Correspondence between the streaming state after `k` bytes and the
in-memory chunker state after `k` positions. -/
def StreamRel (data : Bytes) (k : Nat) (ss : StreamState) (cs : ChunkerState) : Prop :=
  ss.h = cs.h ∧ ss.out = cs.chunks ∧ ss.chunkStart = cs.startOffset ∧
  ss.globalOffset = k ∧ ss.currentChunk = (data.take k).drop cs.startOffset ∧
  cs.startOffset ≤ k ∧ k ≤ data.length

theorem streamStep_rel (table : Nat → Nat) (data : Bytes) (k : Nat)
    (ss : StreamState) (cs : ChunkerState) (b : Nat)
    (hb : data[k]? = some b) (hrel : StreamRel data k ss cs) :
    StreamRel data (k + 1) (streamStep table ss b) (chunkStep table data cs (k, b)) := by
  obtain ⟨r1, r2, r3, r4, r5, r6, r7⟩ := hrel
  have hk : k < data.length := by
    by_contra hk
    rw [List.getElem?_eq_none (by omega)] at hb
    exact Option.noConfusion hb
  have htake : data.take (k + 1) = data.take k ++ [b] := by
    rw [List.take_succ, hb]
    rfl
  have htklen : (data.take k).length = k := by
    rw [List.length_take]
    omega
  have hcur : ss.currentChunk ++ [b] = (data.take (k + 1)).drop cs.startOffset := by
    rw [r5, htake, List.drop_append_of_le_length (by omega)]
  have hcurlen : (ss.currentChunk ++ [b]).length = k - cs.startOffset + 1 := by
    rw [List.length_append, r5, List.length_drop, List.length_take]
    simp
    omega
  have hemptyslice : (data.take (k + 1)).drop (k + 1) = [] := by
    apply List.drop_eq_nil_of_le
    rw [List.length_take]
    omega
  unfold streamStep chunkStep
  dsimp only
  rw [hcurlen, r1, r4, r3]
  by_cases c1 : k - cs.startOffset + 1 < MIN_CHUNK_SIZE
  · rw [if_pos c1, if_pos c1]
    exact ⟨rfl, r2, rfl, rfl, by dsimp only; rw [hcur], by dsimp only; omega, by omega⟩
  · rw [if_neg c1, if_neg c1]
    by_cases c2 : k - cs.startOffset + 1 ≥ MAX_CHUNK_SIZE
    · rw [if_pos c2, if_pos c2]
      refine ⟨rfl, ?_, rfl, rfl, ?_, by dsimp only; omega, by omega⟩
      · dsimp only
        rw [r2, hcur]
      · dsimp only
        rw [hemptyslice]
    · rw [if_neg c2, if_neg c2]
      by_cases c3 : (cs.h * 2 + table b) % 2 ^ 64 &&& MASK = 0
      · rw [if_pos c3, if_pos c3]
        refine ⟨rfl, ?_, rfl, rfl, ?_, by dsimp only; omega, by omega⟩
        · dsimp only
          rw [r2, hcur]
        · dsimp only
          rw [hemptyslice]
      · rw [if_neg c3, if_neg c3]
        exact ⟨rfl, r2, rfl, rfl, by dsimp only; rw [hcur], by dsimp only; omega, by omega⟩

theorem stream_chunk_rel (table : Nat → Nat) (data : Bytes) :
    ∀ (rem : Bytes) (k : Nat) (ss : StreamState) (cs : ChunkerState),
      rem = data.drop k → k ≤ data.length → StreamRel data k ss cs →
      StreamRel data data.length (rem.foldl (streamStep table) ss)
        ((List.enumFrom k rem).foldl (chunkStep table data) cs) := by
  intro rem
  induction rem with
  | nil =>
    intro k ss cs hrem hk hrel
    have : data.length ≤ k := by
      have := congrArg List.length hrem
      simp [List.length_drop] at this
      omega
    have hkk : k = data.length := by omega
    subst hkk
    exact hrel
  | cons b rest ih =>
    intro k ss cs hrem hk hrel
    have hb : data[k]? = some b := by
      have h0 : (data.drop k)[0]? = some b := by rw [← hrem]; simp
      rw [List.getElem?_drop] at h0
      simpa using h0
    have hrest : rest = data.drop (k + 1) := by
      have ht : (data.drop k).tail = data.drop (k + 1) := by
        rw [List.tail_drop]
      rw [← hrem] at ht
      simpa using ht
    have hk1 : k + 1 ≤ data.length := by
      by_contra hc
      rw [List.getElem?_eq_none (by omega)] at hb
      exact Option.noConfusion hb
    have henum : List.enumFrom k (b :: rest) = (k, b) :: List.enumFrom (k + 1) rest := rfl
    rw [henum, List.foldl_cons, List.foldl_cons]
    exact ih (k + 1) _ _ hrest hk1 (streamStep_rel table data k ss cs b hb hrel)

/-- C7: delivered in any sequence of non-empty reads of at most `n` bytes,
the streaming chunker produces exactly the chunks of the in-memory
`chunk_data` on the concatenated input. -/
theorem chunkStream_eq_chunkData (table : Nat → Nat) (d : Bytes) (n : Nat)
    (bufs : List Bytes) (hjoin : bufs.flatten = d)
    (hbufs : ∀ b ∈ bufs, b ≠ [] ∧ b.length ≤ n) :
    chunkStream table bufs = chunkData table d := by
  have hinit : StreamRel d 0 streamInit chunkerInit := by
    refine ⟨rfl, rfl, rfl, rfl, rfl, le_refl _, by omega⟩
  have hrel := stream_chunk_rel table d d 0 streamInit chunkerInit (by simp) (by omega) hinit
  have hloop : chunkStreamLoop table streamInit bufs = d.foldl (streamStep table) streamInit := by
    rw [chunkStreamLoop_eq_foldl table bufs streamInit (fun b hb => (hbufs b hb).1), hjoin]
  have hcloop : chunkerLoop table d = (List.enumFrom 0 d).foldl (chunkStep table d) chunkerInit := rfl
  obtain ⟨r1, r2, r3, r4, r5, r6, r7⟩ := hrel
  unfold chunkStream
  rw [hloop]
  rw [List.take_length] at r5
  by_cases hlen : d.length = 0
  · have hd : d = [] := List.length_eq_zero.mp hlen
    subst hd
    simp only [List.foldl_nil, chunkData]
    rw [if_neg (by simp [streamInit])]
    rfl
  · unfold chunkData
    rw [if_neg hlen]
    dsimp only
    rw [← hcloop] at r5 r6
    by_cases hlt : (chunkerLoop table d).startOffset < d.length
    · have hne : (d.foldl (streamStep table) streamInit).currentChunk ≠ [] := by
        rw [r5]
        intro hc
        have := congrArg List.length hc
        simp [List.length_drop] at this
        omega
      rw [if_pos hne, if_pos hlt, r2, r5, r3]
      have hdl : (d.drop (chunkerLoop table d).startOffset).length =
          d.length - (chunkerLoop table d).startOffset := by
        rw [List.length_drop]
      rw [hdl, hcloop]
    · have hso : (chunkerLoop table d).startOffset = d.length := by omega
      have hemp : ¬ (d.foldl (streamStep table) streamInit).currentChunk ≠ [] := by
        rw [r5, hso]
        simp
      rw [if_neg hemp, if_neg hlt, r2, hcloop]

theorem chunkStream_eq_chunkData_witness :
    ([[1], [2]] : List Bytes).flatten = ([1, 2] : Bytes) ∧
    chunkStream (fun _ => 0) [[1], [2]] = chunkData (fun _ => 0) [1, 2] :=
  ⟨by decide,
    chunkStream_eq_chunkData (fun _ => 0) [1, 2] 1 [[1], [2]] (by decide)
      (by intro b hb; fin_cases hb <;> exact ⟨by decide, by decide⟩)⟩

/-! ## Compression codec (xorb.py)

`lz4.frame.compress` / `lz4.frame.decompress` are the external LZ4 library;
they appear as parameters `lz4c`, `lz4d` with the library's round-trip
contract as a hypothesis. -/

/-- One step of the `for i in range(n): groups[i % 4].append(data[i])`
loop of `byte_group_4` (the four bytearrays as a 4-tuple). -/
def bg4Step (s : Bytes × Bytes × Bytes × Bytes) (p : Nat × Nat) :
    Bytes × Bytes × Bytes × Bytes :=
  if p.1 % 4 = 0 then (s.1 ++ [p.2], s.2.1, s.2.2.1, s.2.2.2)
  else if p.1 % 4 = 1 then (s.1, s.2.1 ++ [p.2], s.2.2.1, s.2.2.2)
  else if p.1 % 4 = 2 then (s.1, s.2.1, s.2.2.1 ++ [p.2], s.2.2.2)
  else (s.1, s.2.1, s.2.2.1, s.2.2.2 ++ [p.2])

/-- `byte_group_4` from xorb.py (`groups[0] + groups[1] + groups[2] + groups[3]`). -/
def byteGroup4 (data : Bytes) : Bytes :=
  (data.enum.foldl bg4Step ([], [], [], [])).1 ++
    (data.enum.foldl bg4Step ([], [], [], [])).2.1 ++
    (data.enum.foldl bg4Step ([], [], [], [])).2.2.1 ++
    (data.enum.foldl bg4Step ([], [], [], [])).2.2.2

/-- Size of group `j` for input length `n` (`n // 4` plus one for the first
`n % 4` groups). -/
def grpSize (n j : Nat) : Nat := n / 4 + if j < n % 4 then 1 else 0

/-- The bytes of input `d` at positions congruent to `j` mod 4, in order. -/
def grp (d : Bytes) (j : Nat) : Bytes :=
  (List.range (grpSize d.length j)).map (fun m => d.getD (4 * m + j) 0)

/-- `byte_ungroup_4` from xorb.py: recompute the four group sizes, slice the
grouped buffer into the groups, and interleave them back. -/
def byteUngroup4 (grouped : Bytes) (n : Nat) : Bytes :=
  let baseSize := n / 4
  let remainder := n % 4
  let sizes := (List.range 4).map (fun i => baseSize + if i < remainder then 1 else 0)
  let groups := (sizes.foldl
    (fun (acc : List Bytes × Nat) size =>
      (acc.1 ++ [(grouped.drop acc.2).take size], acc.2 + size)) ([], 0)).1
  (List.range n).map (fun i => (groups.getD (i % 4) []).getD (i / 4) 0)

theorem grpSize_append (n j : Nat) (hj : j < 4) :
    grpSize (n + 1) j = grpSize n j + (if j = n % 4 then 1 else 0) := by
  unfold grpSize
  rcases (by omega : j = 0 ∨ j = 1 ∨ j = 2 ∨ j = 3) with h | h | h | h <;> subst h <;>
    split <;> split <;> split <;> omega

theorem grp_length (d : Bytes) (j : Nat) : (grp d j).length = grpSize d.length j := by
  unfold grp
  rw [List.length_map, List.length_range]

theorem grp_append (d : Bytes) (x : Nat) (j : Nat) (hj : j < 4) :
    grp (d ++ [x]) j = grp d j ++ (if j = d.length % 4 then [x] else []) := by
  have hidx : ∀ m, m < grpSize d.length j → 4 * m + j < d.length := by
    intro m hm
    unfold grpSize at hm
    have h1 : d.length % 4 < 4 := Nat.mod_lt _ (by omega)
    have h2 : 4 * (d.length / 4) + d.length % 4 = d.length := by omega
    by_cases hc : j < d.length % 4 <;> simp [hc] at hm <;> omega
  have hcongr : ∀ (s : Nat), (∀ m, m < s → 4 * m + j < d.length) →
      (List.range s).map (fun m => (d ++ [x]).getD (4 * m + j) 0) =
      (List.range s).map (fun m => d.getD (4 * m + j) 0) := by
    intro s hs
    apply List.map_congr_left
    intro m hm
    rw [List.mem_range] at hm
    rw [List.getD_append _ _ _ _ (hs m hm)]
  unfold grp
  rw [List.length_append]
  simp only [List.length_cons, List.length_nil]
  rw [grpSize_append _ _ hj]
  by_cases hcase : j = d.length % 4
  · rw [if_pos hcase, if_pos hcase]
    rw [List.range_succ, List.map_append, hcongr _ hidx]
    congr 1
    simp only [List.map_cons, List.map_nil]
    congr 1
    have hsz : grpSize d.length j = d.length / 4 := by
      unfold grpSize
      rw [if_neg (by omega)]
      omega
    rw [hsz]
    have hn : 4 * (d.length / 4) + j = d.length := by
      have := Nat.div_add_mod d.length 4
      omega
    rw [hn, List.getD_append_right _ _ _ _ (le_refl _)]
    simp
  · rw [if_neg hcase, if_neg hcase]
    rw [Nat.add_zero, hcongr _ hidx, List.append_nil]

theorem bg4_fold_char (d : Bytes) :
    d.enum.foldl bg4Step ([], [], [], []) = (grp d 0, grp d 1, grp d 2, grp d 3) := by
  induction d using List.reverseRecOn with
  | nil => rfl
  | append_singleton d x ih =>
    rw [List.enum_append, List.foldl_append, ih]
    have henum : List.enumFrom d.length [x] = [(d.length, x)] := rfl
    rw [henum, List.foldl_cons, List.foldl_nil]
    unfold bg4Step
    dsimp only
    rw [grp_append d x 0 (by omega), grp_append d x 1 (by omega),
      grp_append d x 2 (by omega), grp_append d x 3 (by omega)]
    rcases (by omega : d.length % 4 = 0 ∨ d.length % 4 = 1 ∨ d.length % 4 = 2 ∨
        d.length % 4 = 3) with h | h | h | h <;> rw [h] <;> simp

theorem byteGroup4_char (d : Bytes) :
    byteGroup4 d = grp d 0 ++ (grp d 1 ++ (grp d 2 ++ grp d 3)) := by
  unfold byteGroup4
  rw [bg4_fold_char]
  dsimp only
  simp [List.append_assoc]

theorem getD_map_range {f : Nat → Nat} {s m : Nat} (hm : m < s) :
    ((List.range s).map f).getD m 0 = f m := by
  rw [List.getD_eq_getElem?_getD, List.getElem?_map, List.getElem?_range hm]
  rfl

/-- `byte_ungroup_4` inverts `byte_group_4` given the original length. -/
theorem byteUngroup4_byteGroup4 (d : Bytes) :
    byteUngroup4 (byteGroup4 d) d.length = d := by
  unfold byteUngroup4
  have hrange4 : List.range 4 = [0, 1, 2, 3] := rfl
  rw [hrange4]
  simp only [List.map_cons, List.map_nil, List.foldl_cons, List.foldl_nil]
  rw [byteGroup4_char]
  have hlen0 : (grp d 0).length = grpSize d.length 0 := grp_length d 0
  have hlen1 : (grp d 1).length = grpSize d.length 1 := grp_length d 1
  have hlen2 : (grp d 2).length = grpSize d.length 2 := grp_length d 2
  have hlen3 : (grp d 3).length = grpSize d.length 3 := grp_length d 3
  have hsz : ∀ j, j < 4 → d.length / 4 + (if j < d.length % 4 then 1 else 0) = grpSize d.length j := by
    intro j _
    rfl
  -- the four extracted slices are exactly the four groups
  have hdrop0 : (grp d 0 ++ (grp d 1 ++ (grp d 2 ++ grp d 3))).drop 0 =
      grp d 0 ++ (grp d 1 ++ (grp d 2 ++ grp d 3)) := List.drop_zero _
  have hs0 : ((grp d 0 ++ (grp d 1 ++ (grp d 2 ++ grp d 3))).drop 0).take
      (d.length / 4 + if 0 < d.length % 4 then 1 else 0) = grp d 0 := by
    rw [hdrop0, hsz 0 (by omega), ← hlen0, List.take_left]
  have hs1 : ((grp d 0 ++ (grp d 1 ++ (grp d 2 ++ grp d 3))).drop
        (0 + (d.length / 4 + if 0 < d.length % 4 then 1 else 0))).take
      (d.length / 4 + if 1 < d.length % 4 then 1 else 0) = grp d 1 := by
    rw [Nat.zero_add, hsz 0 (by omega), ← hlen0, List.drop_left, hsz 1 (by omega), ← hlen1,
      List.take_left]
  have hs2 : ((grp d 0 ++ (grp d 1 ++ (grp d 2 ++ grp d 3))).drop
        (0 + (d.length / 4 + if 0 < d.length % 4 then 1 else 0) +
          (d.length / 4 + if 1 < d.length % 4 then 1 else 0))).take
      (d.length / 4 + if 2 < d.length % 4 then 1 else 0) = grp d 2 := by
    rw [Nat.zero_add, hsz 0 (by omega), hsz 1 (by omega), ← hlen0, ← hlen1]
    rw [List.drop_append_eq_append_drop]
    rw [List.drop_eq_nil_of_le (by omega), List.nil_append]
    have : (grp d 0).length + (grp d 1).length - (grp d 0).length = (grp d 1).length := by omega
    rw [this, List.drop_left, hsz 2 (by omega), ← hlen2, List.take_left]
  have hs3 : ((grp d 0 ++ (grp d 1 ++ (grp d 2 ++ grp d 3))).drop
        (0 + (d.length / 4 + if 0 < d.length % 4 then 1 else 0) +
          (d.length / 4 + if 1 < d.length % 4 then 1 else 0) +
          (d.length / 4 + if 2 < d.length % 4 then 1 else 0))).take
      (d.length / 4 + if 3 < d.length % 4 then 1 else 0) = grp d 3 := by
    rw [Nat.zero_add, hsz 0 (by omega), hsz 1 (by omega), hsz 2 (by omega),
      ← hlen0, ← hlen1, ← hlen2]
    rw [List.drop_append_eq_append_drop]
    rw [List.drop_eq_nil_of_le (by omega), List.nil_append]
    rw [List.drop_append_eq_append_drop]
    rw [List.drop_eq_nil_of_le (by omega), List.nil_append]
    have h9 : (grp d 0).length + (grp d 1).length + (grp d 2).length - (grp d 0).length -
        (grp d 1).length = (grp d 2).length := by omega
    rw [h9, List.drop_left, hsz 3 (by omega), ← hlen3, List.take_length]
  rw [hs0, hs1, hs2, hs3]
  -- interleaving the four groups reproduces the input
  have hmain : ∀ i ∈ List.range d.length,
      ([grp d 0, grp d 1, grp d 2, grp d 3].getD (i % 4) []).getD (i / 4) 0 = d.getD i 0 := by
    intro i hi
    rw [List.mem_range] at hi
    have h4 : i % 4 < 4 := Nat.mod_lt _ (by omega)
    have hdivmod : 4 * (i / 4) + i % 4 = i := by omega
    have hlt : i / 4 < grpSize d.length (i % 4) := by
      unfold grpSize
      have hd := Nat.div_add_mod d.length 4
      have hi2 := Nat.div_add_mod i 4
      have hmod : d.length % 4 < 4 := Nat.mod_lt _ (by omega)
      by_cases hc : i % 4 < d.length % 4 <;> simp [hc] <;> omega
    rcases (by omega : i % 4 = 0 ∨ i % 4 = 1 ∨ i % 4 = 2 ∨ i % 4 = 3) with h | h | h | h
    · rw [h]
      show (grp d 0).getD (i / 4) 0 = d.getD i 0
      unfold grp
      rw [getD_map_range (by rw [← h]; exact hlt)]
      congr 1
      omega
    · rw [h]
      show (grp d 1).getD (i / 4) 0 = d.getD i 0
      unfold grp
      rw [getD_map_range (by rw [← h]; exact hlt)]
      congr 1
      omega
    · rw [h]
      show (grp d 2).getD (i / 4) 0 = d.getD i 0
      unfold grp
      rw [getD_map_range (by rw [← h]; exact hlt)]
      congr 1
      omega
    · rw [h]
      show (grp d 3).getD (i / 4) 0 = d.getD i 0
      unfold grp
      rw [getD_map_range (by rw [← h]; exact hlt)]
      congr 1
      omega
  simp only [List.cons_append, List.nil_append]
  rw [List.map_congr_left hmain]
  -- map (getD d) over range (length d) is d itself
  refine List.ext_getElem (by simp) ?_
  intro i h1 h2
  simp only [List.getElem_map, List.getElem_range]
  exact List.getD_eq_getElem _ _ (by simpa using h2)

/-- `compress_chunk` from xorb.py (the unknown-mode `ValueError` is the
`Except.error` case). -/
def compressChunk (lz4c : Bytes → Bytes) (data : Bytes) (compressionType : Nat) :
    Except String (Bytes × Nat) :=
  if compressionType = COMPRESSION_NONE then .ok (data, COMPRESSION_NONE)
  else if compressionType = COMPRESSION_LZ4 then
    let compressed := lz4c data
    if compressed.length ≥ data.length then .ok (data, COMPRESSION_NONE)
    else .ok (compressed, COMPRESSION_LZ4)
  else if compressionType = COMPRESSION_BYTE_GROUPING_4_LZ4 then
    let compressed := lz4c (byteGroup4 data)
    if compressed.length ≥ data.length then .ok (data, COMPRESSION_NONE)
    else .ok (compressed, COMPRESSION_BYTE_GROUPING_4_LZ4)
  else .error "Unknown compression type"

/-- `decompress_chunk` from xorb.py. -/
def decompressChunk (lz4d : Bytes → Bytes) (compressedData : Bytes)
    (compressionType : Nat) (uncompressedSize : Nat) : Except String Bytes :=
  if compressionType = COMPRESSION_NONE then .ok compressedData
  else if compressionType = COMPRESSION_LZ4 then .ok (lz4d compressedData)
  else if compressionType = COMPRESSION_BYTE_GROUPING_4_LZ4 then
    .ok (byteUngroup4 (lz4d compressedData) uncompressedSize)
  else .error "Unknown compression type"

/-- C8: for modes 1 and 2, `compress_chunk` either keeps the requested mode
or falls back to mode 0 with the raw payload, the fallback happening exactly
when the compressed form is at least as large as the input; in every case
`decompress_chunk` recovers the input (mode 2 by inverting the 4-byte-group
transpose at the original length). -/
theorem compressChunk_roundtrip (lz4c lz4d : Bytes → Bytes)
    (hrt : ∀ x, lz4d (lz4c x) = x) (d : Bytes) (m : Nat)
    (hm : m = COMPRESSION_LZ4 ∨ m = COMPRESSION_BYTE_GROUPING_4_LZ4) :
    ∃ p t, compressChunk lz4c d m = .ok (p, t) ∧
      (t = m ∨ (t = COMPRESSION_NONE ∧ p = d)) ∧
      ((t = COMPRESSION_NONE ∧ p = d) ↔
        d.length ≤ (lz4c (if m = COMPRESSION_BYTE_GROUPING_4_LZ4 then byteGroup4 d else d)).length) ∧
      decompressChunk lz4d p t d.length = .ok d := by
  rcases hm with hm | hm
  · subst hm
    unfold compressChunk
    rw [if_neg (by decide), if_pos rfl]
    dsimp only
    by_cases hc : (lz4c d).length ≥ d.length
    · rw [if_pos hc]
      refine ⟨d, COMPRESSION_NONE, rfl, Or.inr ⟨rfl, rfl⟩, ?_, ?_⟩
      · rw [if_neg (by decide)]
        constructor
        · intro _; exact hc
        · intro _; exact ⟨rfl, rfl⟩
      · unfold decompressChunk
        rw [if_pos rfl]
    · rw [if_neg hc]
      refine ⟨lz4c d, COMPRESSION_LZ4, rfl, Or.inl rfl, ?_, ?_⟩
      · rw [if_neg (by decide)]
        constructor
        · intro ⟨h1, _⟩; exact absurd h1 (by decide)
        · intro h1; exact absurd h1 (by omega)
      · unfold decompressChunk
        rw [if_neg (by decide), if_pos rfl, hrt]
  · subst hm
    unfold compressChunk
    rw [if_neg (by decide), if_neg (by decide), if_pos rfl]
    dsimp only
    by_cases hc : (lz4c (byteGroup4 d)).length ≥ d.length
    · rw [if_pos hc]
      refine ⟨d, COMPRESSION_NONE, rfl, Or.inr ⟨rfl, rfl⟩, ?_, ?_⟩
      · rw [if_pos rfl]
        constructor
        · intro _; exact hc
        · intro _; exact ⟨rfl, rfl⟩
      · unfold decompressChunk
        rw [if_pos rfl]
    · rw [if_neg hc]
      refine ⟨lz4c (byteGroup4 d), COMPRESSION_BYTE_GROUPING_4_LZ4, rfl, Or.inl rfl, ?_, ?_⟩
      · rw [if_pos rfl]
        constructor
        · intro ⟨h1, _⟩; exact absurd h1 (by decide)
        · intro h1; exact absurd h1 (by omega)
      · unfold decompressChunk
        rw [if_neg (by decide), if_neg (by decide), if_pos rfl, hrt,
          byteUngroup4_byteGroup4]

theorem compressChunk_roundtrip_witness :
    compressChunk (fun x => x ++ [0]) [1, 2, 3] COMPRESSION_LZ4 =
      Except.ok ([1, 2, 3], COMPRESSION_NONE) ∧
    decompressChunk (fun x => x.dropLast) [1, 2, 3] COMPRESSION_NONE 3 =
      Except.ok [1, 2, 3] := by
  have h := compressChunk_roundtrip (fun x => x ++ [0]) (fun x => x.dropLast)
    (by intro x; simp) [1, 2, 3] COMPRESSION_LZ4 (Or.inl rfl)
  obtain ⟨p, t, h1, _h2, _h3, h4⟩ := h
  have hc : compressChunk (fun x => x ++ [0]) [1, 2, 3] COMPRESSION_LZ4 =
      Except.ok ([1, 2, 3], COMPRESSION_NONE) := rfl
  rw [hc] at h1
  have hpt : ([1, 2, 3], COMPRESSION_NONE) = (p, t) := by
    exact Except.ok.inj h1
  obtain ⟨hp, ht⟩ := Prod.mk.injEq _ _ _ _ ▸ hpt
  rw [← hp, ← ht] at h4
  exact ⟨hc, by simpa using h4⟩

/-! ## Xorb container (xorb.py) -/

/-- `ChunkEntry` from xorb.py. -/
structure ChunkEntry where
  data : Bytes
  chunk_hash : Bytes
  compressed_data : Option Bytes
  compression_type : Nat
deriving DecidableEq, Repr

/-- `_encode_u24_le` (`struct.pack("<I", v)[:3]`; `pack` itself needs
`v < 2^32`, which holds at every call site reached in the theorems). -/
def encodeU24 (v : Nat) : Bytes := [v % 256, v / 256 % 256, v / 65536 % 256]

/-- `_decode_u24_le` (`struct.unpack("<I", data + b"\x00")`). -/
def decodeU24 (b : Bytes) : Nat := leVal (b ++ [0])

/-- Serialize one chunk record of a xorb: 8-byte header then the compressed
payload, compressing first when the entry holds no cached compression. -/
def serializeChunkEntry (lz4c : Bytes → Bytes) (defaultType : Nat) (c : ChunkEntry) :
    Except String Bytes :=
  match c.compressed_data with
  | none =>
    match compressChunk lz4c c.data defaultType with
    | .error e => .error e
    | .ok (compressed, actualType) =>
      .ok ([0] ++ encodeU24 compressed.length ++ [actualType] ++
        encodeU24 c.data.length ++ compressed)
  | some compressed =>
    .ok ([0] ++ encodeU24 compressed.length ++ [c.compression_type] ++
      encodeU24 c.data.length ++ compressed)

/-- The chunk loop of `serialize_xorb`, concatenating the records. -/
def serializeXorbChunks (lz4c : Bytes → Bytes) (defaultType : Nat) :
    List ChunkEntry → Except String Bytes
  | [] => .ok []
  | c :: rest =>
    match serializeChunkEntry lz4c defaultType c with
    | .error e => .error e
    | .ok piece =>
      match serializeXorbChunks lz4c defaultType rest with
      | .error e => .error e
      | .ok restBytes => .ok (piece ++ restBytes)

/-- `serialize_xorb` from xorb.py (`ValueError`s become `Except.error`). -/
def serializeXorb (lz4c : Bytes → Bytes) (defaultType : Nat) (chunks : List ChunkEntry) :
    Except String Bytes :=
  if chunks.length > MAX_XORB_CHUNKS then .error "too many chunks"
  else
    match serializeXorbChunks lz4c defaultType chunks with
    | .error e => .error e
    | .ok result =>
      if result.length > MAX_XORB_SIZE then .error "serialized xorb too large"
      else .ok result

/-- The `while offset < len(data)` loop of `deserialize_xorb`, consuming
from the front of the remaining bytes. -/
def deserializeXorbLoop (lz4d : Bytes → Bytes) (kh : Bytes → Bytes → Bytes)
    (dataKey : Bytes) (rem : Bytes) : Except String (List ChunkEntry) :=
  if _h0 : rem.length = 0 then .ok []
  else if _h1 : rem.length < 8 then .error "Truncated header"
  else
    if rem.getD 0 0 ≠ 0 then .error "Unknown chunk version"
    else
      let csize := decodeU24 ((rem.drop 1).take 3)
      let ctype := rem.getD 4 0
      let usize := decodeU24 ((rem.drop 5).take 3)
      if csize > (rem.drop 8).length then .error "Truncated chunk data"
      else
        match decompressChunk lz4d ((rem.drop 8).take csize) ctype usize with
        | .error e => .error e
        | .ok cdata =>
          match deserializeXorbLoop lz4d kh dataKey ((rem.drop 8).drop csize) with
          | .error e => .error e
          | .ok tail =>
            .ok ({ data := cdata, chunk_hash := kh dataKey cdata,
                   compressed_data := some ((rem.drop 8).take csize),
                   compression_type := ctype } :: tail)
termination_by rem.length
decreasing_by
  simp only [List.length_drop]
  omega

/-- `deserialize_xorb` from xorb.py (the resulting `Xorb`'s chunk list;
chunk hashes are recomputed with `compute_chunk_hash`). -/
def deserializeXorb (lz4d : Bytes → Bytes) (kh : Bytes → Bytes → Bytes)
    (dataKey : Bytes) (data : Bytes) : Except String (List ChunkEntry) :=
  deserializeXorbLoop lz4d kh dataKey data

/-- The `while offset < len(data) and chunk_index < end_index` loop of
`extract_chunk_range`. -/
def extractChunkRangeLoop (lz4d : Bytes → Bytes) (startIndex endIndex : Nat)
    (rem : Bytes) (chunkIndex : Nat) : Except String (List Bytes) :=
  if _h0 : rem.length = 0 ∨ ¬ chunkIndex < endIndex then .ok []
  else if _h1 : rem.length < 8 then .error "Truncated header"
  else
    if rem.getD 0 0 ≠ 0 then .error "Unknown chunk version"
    else
      let csize := decodeU24 ((rem.drop 1).take 3)
      let ctype := rem.getD 4 0
      let usize := decodeU24 ((rem.drop 5).take 3)
      if startIndex ≤ chunkIndex then
        match decompressChunk lz4d ((rem.drop 8).take csize) ctype usize with
        | .error e => .error e
        | .ok cdata =>
          match extractChunkRangeLoop lz4d startIndex endIndex ((rem.drop 8).drop csize)
              (chunkIndex + 1) with
          | .error e => .error e
          | .ok tail => .ok (cdata :: tail)
      else
        extractChunkRangeLoop lz4d startIndex endIndex ((rem.drop 8).drop csize)
          (chunkIndex + 1)
termination_by rem.length
decreasing_by
  all_goals simp only [List.length_drop]
  all_goals omega

/-- `extract_chunk_range` from xorb.py. -/
def extractChunkRange (lz4d : Bytes → Bytes) (data : Bytes)
    (startIndex endIndex : Nat) : Except String (List Bytes) :=
  extractChunkRangeLoop lz4d startIndex endIndex data 0

/-- `XorbBuilder` state from xorb.py. -/
structure XorbBuilderState where
  max_size : Nat
  max_chunks : Nat
  compression_type : Nat
  chunks : List ChunkEntry
  current_size : Nat
deriving DecidableEq, Repr

def xorbBuilderInit : XorbBuilderState :=
  { max_size := MAX_XORB_SIZE, max_chunks := MAX_XORB_CHUNKS,
    compression_type := COMPRESSION_LZ4, chunks := [], current_size := 0 }

/-- `XorbBuilder.can_add`. -/
def XorbBuilderState.canAdd (b : XorbBuilderState) (chunkData0 : Bytes) : Bool :=
  if b.chunks.length ≥ b.max_chunks then false
  else decide (b.current_size + (8 + chunkData0.length) ≤ b.max_size)

/-- `XorbBuilder.add` (hash computed with `compute_chunk_hash` when absent). -/
def xorbBuilderAdd (lz4c : Bytes → Bytes) (kh : Bytes → Bytes → Bytes) (dataKey : Bytes)
    (b : XorbBuilderState) (chunkData0 : Bytes) (chunkHash : Option Bytes) :
    Except String (XorbBuilderState × Bool) :=
  if ¬ b.canAdd chunkData0 then .ok (b, false)
  else
    match compressChunk lz4c chunkData0 b.compression_type with
    | .error e => .error e
    | .ok (compressed, actualType) =>
      .ok ({ b with
              chunks := b.chunks ++
                [{ data := chunkData0,
                   chunk_hash := chunkHash.getD (kh dataKey chunkData0),
                   compressed_data := some compressed,
                   compression_type := actualType }],
              current_size := b.current_size + (8 + compressed.length) }, true)

/-- A builder fed a sequence of (data, hash) chunks via `add`. -/
def buildXorbGo (lz4c : Bytes → Bytes) (kh : Bytes → Bytes → Bytes) (dataKey : Bytes) :
    XorbBuilderState → List (Bytes × Bytes) → Except String XorbBuilderState
  | b, [] => .ok b
  | b, p :: rest =>
    match xorbBuilderAdd lz4c kh dataKey b p.1 (some p.2) with
    | .error e => .error e
    | .ok (b2, _) => buildXorbGo lz4c kh dataKey b2 rest

def buildXorb (lz4c : Bytes → Bytes) (kh : Bytes → Bytes → Bytes) (dataKey : Bytes)
    (inputs : List (Bytes × Bytes)) : Except String XorbBuilderState :=
  buildXorbGo lz4c kh dataKey xorbBuilderInit inputs

theorem decodeU24_encodeU24 (v : Nat) (hv : v < 2 ^ 24) :
    decodeU24 (encodeU24 v) = v := by
  unfold decodeU24 encodeU24 leVal
  simp only [List.cons_append, List.nil_append, List.foldr_cons, List.foldr_nil]
  omega

theorem compressChunk_LZ4_eq (lz4c : Bytes → Bytes) (d : Bytes) :
    compressChunk lz4c d COMPRESSION_LZ4 =
      .ok (if d.length ≤ (lz4c d).length then (d, COMPRESSION_NONE)
           else (lz4c d, COMPRESSION_LZ4)) := by
  unfold compressChunk
  rw [if_neg (by decide), if_pos rfl]
  dsimp only
  by_cases hc : (lz4c d).length ≥ d.length
  · rw [if_pos hc, if_pos hc]
  · rw [if_neg hc, if_neg hc]

/-- A chunk entry as the builder produces it: cached compression output of
its own data, with the data small enough for the u24 header fields. -/
def GoodChunk (lz4c : Bytes → Bytes) (c : ChunkEntry) : Prop :=
  ∃ cd, c.compressed_data = some cd ∧ cd.length ≤ c.data.length ∧
    compressChunk lz4c c.data COMPRESSION_LZ4 = .ok (cd, c.compression_type) ∧
    c.data.length < 2 ^ 24

/-- Invariant of the default `XorbBuilder`. -/
def BuilderWF (lz4c : Bytes → Bytes) (b : XorbBuilderState) : Prop :=
  b.max_size = MAX_XORB_SIZE ∧ b.max_chunks = MAX_XORB_CHUNKS ∧
  b.compression_type = COMPRESSION_LZ4 ∧
  b.chunks.length ≤ MAX_XORB_CHUNKS ∧
  b.current_size = (b.chunks.map (fun c => 8 + (c.compressed_data.getD []).length)).sum ∧
  b.current_size ≤ MAX_XORB_SIZE ∧
  (∀ c ∈ b.chunks, GoodChunk lz4c c)

theorem xorbBuilderAdd_wf (lz4c : Bytes → Bytes) (kh : Bytes → Bytes → Bytes)
    (dataKey : Bytes) (b : XorbBuilderState) (d h0 : Bytes)
    (hwf : BuilderWF lz4c b) (hd : d.length < 2 ^ 24) :
    ∃ b2 ok2, xorbBuilderAdd lz4c kh dataKey b d (some h0) = .ok (b2, ok2) ∧
      BuilderWF lz4c b2 := by
  obtain ⟨w1, w2, w3, w4, w5, w6, w7⟩ := hwf
  unfold xorbBuilderAdd
  by_cases hca : b.canAdd d
  · rw [if_neg (by simpa using hca), w3, compressChunk_LZ4_eq]
    unfold XorbBuilderState.canAdd at hca
    have hcount : ¬ b.chunks.length ≥ b.max_chunks := by
      by_contra hc
      rw [if_pos hc] at hca
      exact Bool.false_ne_true hca
    rw [if_neg hcount] at hca
    have hsize : b.current_size + (8 + d.length) ≤ b.max_size := of_decide_eq_true hca
    by_cases hfall : d.length ≤ (lz4c d).length
    · rw [if_pos hfall]
      refine ⟨_, true, rfl, w1, w2, rfl, ?_, ?_, ?_, ?_⟩
      · dsimp only
        rw [List.length_append]
        simp only [List.length_cons, List.length_nil]
        omega
      · dsimp only
        rw [List.map_append, List.sum_append, ← w5]
        simp
      · dsimp only
        omega
      · dsimp only
        intro c hc
        rcases List.mem_append.mp hc with hm | hm
        · exact w7 c hm
        · simp at hm
          subst hm
          exact ⟨d, rfl, le_refl _, by rw [compressChunk_LZ4_eq, if_pos hfall], hd⟩
    · rw [if_neg hfall]
      refine ⟨_, true, rfl, w1, w2, rfl, ?_, ?_, ?_, ?_⟩
      · dsimp only
        rw [List.length_append]
        simp only [List.length_cons, List.length_nil]
        omega
      · dsimp only
        rw [List.map_append, List.sum_append, ← w5]
        simp
      · dsimp only
        omega
      · dsimp only
        intro c hc
        rcases List.mem_append.mp hc with hm | hm
        · exact w7 c hm
        · simp at hm
          subst hm
          exact ⟨lz4c d, rfl, by dsimp only; omega, by rw [compressChunk_LZ4_eq, if_neg hfall], hd⟩
  · rw [if_pos (by simpa using hca)]
    exact ⟨b, false, rfl, w1, w2, w3, w4, w5, w6, w7⟩

theorem buildXorbGo_wf (lz4c : Bytes → Bytes) (kh : Bytes → Bytes → Bytes) (dataKey : Bytes) :
    ∀ (inputs : List (Bytes × Bytes)) (b : XorbBuilderState),
      BuilderWF lz4c b → (∀ p ∈ inputs, p.1.length < 2 ^ 24) →
      ∃ b2, buildXorbGo lz4c kh dataKey b inputs = .ok b2 ∧ BuilderWF lz4c b2 := by
  intro inputs
  induction inputs with
  | nil => intro b hwf _; exact ⟨b, rfl, hwf⟩
  | cons p rest ih =>
    intro b hwf hsz
    obtain ⟨b2, ok2, hadd, hwf2⟩ :=
      xorbBuilderAdd_wf lz4c kh dataKey b p.1 p.2 hwf (hsz p (by simp))
    unfold buildXorbGo
    rw [hadd]
    exact ih b2 hwf2 (fun q hq => hsz q (by simp [hq]))

theorem buildXorb_wf (lz4c : Bytes → Bytes) (kh : Bytes → Bytes → Bytes) (dataKey : Bytes)
    (inputs : List (Bytes × Bytes)) (hsz : ∀ p ∈ inputs, p.1.length < 2 ^ 24) :
    ∃ b, buildXorb lz4c kh dataKey inputs = .ok b ∧ BuilderWF lz4c b := by
  have hinit : BuilderWF lz4c xorbBuilderInit := by
    refine ⟨rfl, rfl, rfl, ?_, ?_, ?_, ?_⟩
    · simp [xorbBuilderInit, MAX_XORB_CHUNKS]
    · simp [xorbBuilderInit]
    · simp [xorbBuilderInit, MAX_XORB_SIZE]
    · intro c hc
      simp [xorbBuilderInit] at hc
  exact buildXorbGo_wf lz4c kh dataKey inputs xorbBuilderInit hinit hsz

theorem serializeXorbChunks_ok (lz4c : Bytes → Bytes) :
    ∀ (chunks : List ChunkEntry), (∀ c ∈ chunks, GoodChunk lz4c c) →
      ∃ s, serializeXorbChunks lz4c COMPRESSION_LZ4 chunks = .ok s ∧
        s.length = (chunks.map (fun c => 8 + (c.compressed_data.getD []).length)).sum := by
  intro chunks
  induction chunks with
  | nil => intro _; exact ⟨[], rfl, by simp⟩
  | cons c rest ih =>
    intro hgood
    obtain ⟨s', hs', hlen'⟩ := ih (fun c2 hc2 => hgood c2 (by simp [hc2]))
    obtain ⟨cd, hcd, _hle, _hcomp, _hsz⟩ := hgood c (by simp)
    unfold serializeXorbChunks serializeChunkEntry
    rw [hcd]
    dsimp only
    rw [hs']
    refine ⟨_, rfl, ?_⟩
    simp only [List.map_cons, List.sum_cons, List.length_append, hlen', hcd]
    simp [encodeU24]

/-- The canonical reparse of a chunk entry: same data and compression, hash
recomputed. -/
def reparseEntry (kh : Bytes → Bytes → Bytes) (dataKey : Bytes) (c : ChunkEntry) : ChunkEntry :=
  { data := c.data, chunk_hash := kh dataKey c.data,
    compressed_data := c.compressed_data, compression_type := c.compression_type }

theorem goodChunk_decompress (lz4c lz4d : Bytes → Bytes) (hrt : ∀ x, lz4d (lz4c x) = x)
    (c : ChunkEntry) (cd : Bytes)
    (hcomp : compressChunk lz4c c.data COMPRESSION_LZ4 = .ok (cd, c.compression_type)) :
    decompressChunk lz4d cd c.compression_type c.data.length = .ok c.data := by
  rw [compressChunk_LZ4_eq] at hcomp
  by_cases hfall : c.data.length ≤ (lz4c c.data).length
  · rw [if_pos hfall] at hcomp
    have hpair := Except.ok.inj hcomp
    have hcd : c.data = cd := congrArg Prod.fst hpair
    have ht : COMPRESSION_NONE = c.compression_type := congrArg Prod.snd hpair
    rw [← ht, ← hcd]
    unfold decompressChunk
    rw [if_pos rfl]
  · rw [if_neg hfall] at hcomp
    have hpair := Except.ok.inj hcomp
    have hcd : lz4c c.data = cd := congrArg Prod.fst hpair
    have ht : COMPRESSION_LZ4 = c.compression_type := congrArg Prod.snd hpair
    rw [← ht, ← hcd]
    unfold decompressChunk
    rw [if_neg (by decide), if_pos rfl, hrt]

theorem deserialize_serialized (lz4c lz4d : Bytes → Bytes) (kh : Bytes → Bytes → Bytes)
    (dataKey : Bytes) (hrt : ∀ x, lz4d (lz4c x) = x) :
    ∀ (chunks : List ChunkEntry) (s : Bytes),
      (∀ c ∈ chunks, GoodChunk lz4c c) →
      serializeXorbChunks lz4c COMPRESSION_LZ4 chunks = .ok s →
      ∀ (rest : Bytes),
        deserializeXorbLoop lz4d kh dataKey (s ++ rest) =
          match deserializeXorbLoop lz4d kh dataKey rest with
          | .error e => .error e
          | .ok tail => .ok (chunks.map (reparseEntry kh dataKey) ++ tail) := by
  intro chunks
  induction chunks with
  | nil =>
    intro s _ hs rest
    have hs0 : s = [] := (Except.ok.inj hs).symm
    subst hs0
    rw [List.nil_append]
    cases h2 : deserializeXorbLoop lz4d kh dataKey rest <;> simp
  | cons c cs ih =>
    intro s hgood hs rest
    obtain ⟨cd, hcd, hle, hcomp, hsz⟩ := hgood c (by simp)
    unfold serializeXorbChunks serializeChunkEntry at hs
    rw [hcd] at hs
    dsimp only at hs
    cases hrest : serializeXorbChunks lz4c COMPRESSION_LZ4 cs with
    | error e =>
      rw [hrest] at hs
      exact absurd hs (by simp)
    | ok s2 =>
      rw [hrest] at hs
      dsimp only at hs
      have hs2 : s = ([0] ++ encodeU24 cd.length ++ [c.compression_type] ++
          encodeU24 c.data.length ++ cd) ++ s2 := (Except.ok.inj hs).symm
      subst hs2
      have hcdlen : cd.length < 2 ^ 24 := by omega
      have hshape : (([0] ++ encodeU24 cd.length ++ [c.compression_type] ++
            encodeU24 c.data.length ++ cd) ++ s2) ++ rest =
          0 :: (cd.length % 256) :: (cd.length / 256 % 256) :: (cd.length / 65536 % 256) ::
          c.compression_type :: (c.data.length % 256) :: (c.data.length / 256 % 256) ::
          (c.data.length / 65536 % 256) :: (cd ++ (s2 ++ rest)) := by
        simp [encodeU24, List.append_assoc]
      rw [hshape]
      rw [deserializeXorbLoop.eq_def]
      simp only [List.length_cons, List.drop_succ_cons, List.drop_zero, List.take_succ_cons,
        List.take_zero, List.getD_cons_zero, List.getD_cons_succ]
      rw [dif_neg (by omega), dif_neg (by omega), if_neg (by simp)]
      have hdec1 : decodeU24 [cd.length % 256, cd.length / 256 % 256, cd.length / 65536 % 256] =
          cd.length := decodeU24_encodeU24 _ hcdlen
      have hdec2 : decodeU24 [c.data.length % 256, c.data.length / 256 % 256,
          c.data.length / 65536 % 256] = c.data.length := decodeU24_encodeU24 _ hsz
      rw [hdec1, hdec2]
      rw [if_neg (by rw [List.length_append]; omega)]
      rw [List.take_left, List.drop_left]
      rw [goodChunk_decompress lz4c lz4d hrt c cd hcomp]
      rw [ih s2 (fun c2 hc2 => hgood c2 (by simp [hc2])) hrest rest]
      cases h2 : deserializeXorbLoop lz4d kh dataKey rest with
      | error e => rfl
      | ok tail =>
        dsimp only
        rw [List.map_cons]
        congr 2
        unfold reparseEntry
        rw [hcd]

/-- `serialize_xorb` succeeds on every builder-produced chunk list. -/
theorem serializeXorb_ok (lz4c : Bytes → Bytes) (b : XorbBuilderState)
    (hwf : BuilderWF lz4c b) :
    ∃ s, serializeXorb lz4c COMPRESSION_LZ4 b.chunks = .ok s ∧
      serializeXorbChunks lz4c COMPRESSION_LZ4 b.chunks = .ok s := by
  obtain ⟨w1, w2, w3, w4, w5, w6, w7⟩ := hwf
  obtain ⟨s, hs, hlen⟩ := serializeXorbChunks_ok lz4c b.chunks w7
  refine ⟨s, ?_, hs⟩
  unfold serializeXorb
  rw [if_neg (by omega), hs]
  dsimp only
  rw [if_neg (by omega)]

theorem extract_serialized (lz4c lz4d : Bytes → Bytes) (hrt : ∀ x, lz4d (lz4c x) = x)
    (a bnd : Nat) :
    ∀ (chunks : List ChunkEntry) (s : Bytes) (idx : Nat),
      (∀ c ∈ chunks, GoodChunk lz4c c) →
      serializeXorbChunks lz4c COMPRESSION_LZ4 chunks = .ok s →
      extractChunkRangeLoop lz4d a bnd s idx =
        .ok (((chunks.map ChunkEntry.data).take (bnd - idx)).drop (a - idx)) := by
  intro chunks
  induction chunks with
  | nil =>
    intro s idx _ hs
    have hs0 : s = [] := (Except.ok.inj hs).symm
    subst hs0
    rw [extractChunkRangeLoop.eq_def]
    rw [dif_pos (show ([] : Bytes).length = 0 ∨ ¬ idx < bnd from Or.inl rfl)]
    simp
  | cons c cs ih =>
    intro s idx hgood hs
    obtain ⟨cd, hcd, hle, hcomp, hsz⟩ := hgood c (by simp)
    unfold serializeXorbChunks serializeChunkEntry at hs
    rw [hcd] at hs
    dsimp only at hs
    cases hrest : serializeXorbChunks lz4c COMPRESSION_LZ4 cs with
    | error e =>
      rw [hrest] at hs
      exact absurd hs (by simp)
    | ok s2 =>
      rw [hrest] at hs
      dsimp only at hs
      have hs2 : s = ([0] ++ encodeU24 cd.length ++ [c.compression_type] ++
          encodeU24 c.data.length ++ cd) ++ s2 := (Except.ok.inj hs).symm
      subst hs2
      have hcdlen : cd.length < 2 ^ 24 := by omega
      have hshape : ([0] ++ encodeU24 cd.length ++ [c.compression_type] ++
            encodeU24 c.data.length ++ cd) ++ s2 =
          0 :: (cd.length % 256) :: (cd.length / 256 % 256) :: (cd.length / 65536 % 256) ::
          c.compression_type :: (c.data.length % 256) :: (c.data.length / 256 % 256) ::
          (c.data.length / 65536 % 256) :: (cd ++ s2) := by
        simp [encodeU24, List.append_assoc]
      rw [hshape]
      by_cases hidx : idx < bnd
      · rw [extractChunkRangeLoop.eq_def]
        simp only [List.length_cons, List.drop_succ_cons, List.drop_zero, List.take_succ_cons,
          List.take_zero, List.getD_cons_zero, List.getD_cons_succ]
        rw [dif_neg (by omega)]
        rw [dif_neg (by omega)]
        rw [if_neg (by simp)]
        have hdec1 : decodeU24 [cd.length % 256, cd.length / 256 % 256,
            cd.length / 65536 % 256] = cd.length := decodeU24_encodeU24 _ hcdlen
        have hdec2 : decodeU24 [c.data.length % 256, c.data.length / 256 % 256,
            c.data.length / 65536 % 256] = c.data.length := decodeU24_encodeU24 _ hsz
        rw [hdec1, hdec2, List.take_left, List.drop_left]
        by_cases ha : a ≤ idx
        · rw [if_pos ha]
          rw [goodChunk_decompress lz4c lz4d hrt c cd hcomp]
          rw [ih s2 (idx + 1) (fun c2 hc2 => hgood c2 (by simp [hc2])) hrest]
          dsimp only
          rw [List.map_cons]
          have h1 : bnd - idx = (bnd - (idx + 1)) + 1 := by omega
          rw [h1, List.take_succ_cons]
          have h2 : a - idx = 0 := by omega
          have h3 : a - (idx + 1) = 0 := by omega
          rw [h2, h3, List.drop_zero, List.drop_zero]
        · rw [if_neg ha]
          rw [ih s2 (idx + 1) (fun c2 hc2 => hgood c2 (by simp [hc2])) hrest]
          rw [List.map_cons]
          have h1 : bnd - idx = (bnd - (idx + 1)) + 1 := by omega
          rw [h1, List.take_succ_cons]
          have h2 : a - idx = (a - (idx + 1)) + 1 := by omega
          rw [h2, List.drop_succ_cons]
      · rw [extractChunkRangeLoop.eq_def]
        rw [dif_pos (Or.inr hidx)]
        have h1 : bnd - idx = 0 := by omega
        rw [h1, List.take_zero, List.drop_nil]

/-- C3 (amended): a xorb built via `XorbBuilder` from chunks each smaller
than 2^24 bytes serializes successfully, deserializes to content-equal
chunks (same data, same compression, hashes recomputed), and
`extract_chunk_range` of any index range `[a, b)` returns exactly the data
of chunks `[a, b)`. -/
theorem xorbBuilder_roundtrip (lz4c lz4d : Bytes → Bytes) (kh : Bytes → Bytes → Bytes)
    (dataKey : Bytes) (hrt : ∀ x, lz4d (lz4c x) = x)
    (inputs : List (Bytes × Bytes)) (hsz : ∀ p ∈ inputs, p.1.length < 2 ^ 24) :
    ∃ b s, buildXorb lz4c kh dataKey inputs = .ok b ∧
      serializeXorb lz4c COMPRESSION_LZ4 b.chunks = .ok s ∧
      deserializeXorb lz4d kh dataKey s = .ok (b.chunks.map (reparseEntry kh dataKey)) ∧
      (b.chunks.map (reparseEntry kh dataKey)).map ChunkEntry.data =
        b.chunks.map ChunkEntry.data ∧
      ∀ a bnd, extractChunkRange lz4d s a bnd =
        .ok (((b.chunks.map ChunkEntry.data).take bnd).drop a) := by
  obtain ⟨b, hb, hwf⟩ := buildXorb_wf lz4c kh dataKey inputs hsz
  obtain ⟨s, hser, hserchunks⟩ := serializeXorb_ok lz4c b hwf
  have hgood : ∀ c ∈ b.chunks, GoodChunk lz4c c := hwf.2.2.2.2.2.2
  refine ⟨b, s, hb, hser, ?_, ?_, ?_⟩
  · unfold deserializeXorb
    have hnil : deserializeXorbLoop lz4d kh dataKey [] = .ok [] := by
      rw [deserializeXorbLoop.eq_def]
      rfl
    have := deserialize_serialized lz4c lz4d kh dataKey hrt b.chunks s hgood hserchunks []
    rw [List.append_nil, hnil] at this
    rw [this]
    simp
  · rw [List.map_map]
    apply List.map_congr_left
    intro c _
    rfl
  · intro a bnd
    unfold extractChunkRange
    rw [extract_serialized lz4c lz4d hrt a bnd b.chunks s 0 hgood hserchunks]
    simp

theorem xorbBuilder_roundtrip_witness :
    buildXorb (fun x => x ++ [0]) (fun _ _ => ([] : Bytes)) [] [([1, 2, 3], [7])] =
      .ok { max_size := MAX_XORB_SIZE, max_chunks := MAX_XORB_CHUNKS,
            compression_type := COMPRESSION_LZ4,
            chunks := [{ data := [1, 2, 3], chunk_hash := [7],
                         compressed_data := some [1, 2, 3],
                         compression_type := COMPRESSION_NONE }],
            current_size := 11 } ∧
    (deserializeXorb (fun x => x.dropLast) (fun _ _ => ([] : Bytes)) []
        [0, 3, 0, 0, 0, 3, 0, 0, 1, 2, 3]).map (List.map ChunkEntry.data) =
      Except.ok [[1, 2, 3]] ∧
    extractChunkRange (fun x => x.dropLast) [0, 3, 0, 0, 0, 3, 0, 0, 1, 2, 3] 0 1 =
      Except.ok [[1, 2, 3]] := by
  obtain ⟨b, s, h1, h2, h3, h4, h5⟩ := xorbBuilder_roundtrip (fun x => x ++ [0])
    (fun x => x.dropLast) (fun _ _ => []) [] (by intro x; simp) [([1, 2, 3], [7])]
    (by intro p hp; simp at hp; subst hp; decide)
  have hbval : buildXorb (fun x => x ++ [0]) (fun _ _ => ([] : Bytes)) [] [([1, 2, 3], [7])] =
      .ok { max_size := MAX_XORB_SIZE, max_chunks := MAX_XORB_CHUNKS,
            compression_type := COMPRESSION_LZ4,
            chunks := [{ data := [1, 2, 3], chunk_hash := [7],
                         compressed_data := some [1, 2, 3],
                         compression_type := COMPRESSION_NONE }],
            current_size := 11 } := rfl
  rw [hbval] at h1
  have hbeq := Except.ok.inj h1
  subst hbeq
  have hsval : serializeXorb (fun x => x ++ [0]) COMPRESSION_LZ4
      [{ data := [1, 2, 3], chunk_hash := ([7] : Bytes),
         compressed_data := some [1, 2, 3], compression_type := COMPRESSION_NONE }] =
      .ok [0, 3, 0, 0, 0, 3, 0, 0, 1, 2, 3] := rfl
  rw [hsval] at h2
  have hseq := Except.ok.inj h2
  subst hseq
  refine ⟨hbval, ?_, ?_⟩
  · rw [h3]
    rfl
  · have := h5 0 1
    rw [this]
    rfl

/-! C3 counterexample: the builder accepts a single 2^24-byte chunk (its
limits are 8192 chunks and 64 MiB), but the u24 size fields wrap, so the
round trip fails. -/

def xorbCexData : Bytes := List.replicate (2 ^ 24) 0

def xorbCexBuilt : XorbBuilderState :=
  { max_size := MAX_XORB_SIZE, max_chunks := MAX_XORB_CHUNKS,
    compression_type := COMPRESSION_LZ4,
    chunks := [{ data := xorbCexData, chunk_hash := [7],
                 compressed_data := some xorbCexData,
                 compression_type := COMPRESSION_NONE }],
    current_size := 8 + 2 ^ 24 }

theorem deserialize_zeros (lz4d : Bytes → Bytes) (kh : Bytes → Bytes → Bytes)
    (dataKey : Bytes) :
    ∀ k, deserializeXorbLoop lz4d kh dataKey (List.replicate (8 * k) 0) =
      .ok (List.replicate k
        { data := [], chunk_hash := kh dataKey [],
          compressed_data := some [], compression_type := 0 }) := by
  intro k
  induction k with
  | zero =>
    rw [deserializeXorbLoop.eq_def]
    rfl
  | succ n ih =>
    have hsplit : List.replicate (8 * (n + 1)) (0 : Nat) =
        0 :: 0 :: 0 :: 0 :: 0 :: 0 :: 0 :: 0 :: List.replicate (8 * n) 0 := by
      have h1 : 8 * (n + 1) = 8 + 8 * n := by omega
      rw [h1, List.replicate_add]
      rfl
    rw [hsplit]
    rw [deserializeXorbLoop.eq_def]
    simp only [List.length_cons, List.drop_succ_cons, List.drop_zero, List.take_succ_cons,
      List.take_zero, List.getD_cons_zero, List.getD_cons_succ]
    rw [dif_neg (by omega), dif_neg (by omega), if_neg (by simp)]
    have hdec : decodeU24 [0, 0, 0] = 0 := rfl
    rw [hdec]
    rw [if_neg (by omega)]
    rw [List.take_zero, List.drop_zero]
    have hdecomp : decompressChunk lz4d [] 0 0 = .ok [] := rfl
    rw [hdecomp, ih]
    rw [List.replicate_succ]

theorem xorbCex_build_gen (d : Bytes) (hlen : d.length = 2 ^ 24) :
    buildXorb (fun x => x ++ [0]) (fun _ _ => ([] : Bytes)) [] [(d, [7])] =
      .ok { max_size := MAX_XORB_SIZE, max_chunks := MAX_XORB_CHUNKS,
            compression_type := COMPRESSION_LZ4,
            chunks := [{ data := d, chunk_hash := [7],
                         compressed_data := some d,
                         compression_type := COMPRESSION_NONE }],
            current_size := 8 + 2 ^ 24 } := by
  have hca : xorbBuilderInit.canAdd d = true := by
    unfold XorbBuilderState.canAdd xorbBuilderInit
    dsimp only
    rw [if_neg (by simp [MAX_XORB_CHUNKS])]
    rw [decide_eq_true_eq]
    rw [hlen]
    unfold MAX_XORB_SIZE
    norm_num
  have hfall : d.length ≤ ((d ++ [0])).length := by
    rw [List.length_append]
    omega
  unfold buildXorb buildXorbGo xorbBuilderAdd
  rw [if_neg (by rw [hca]; simp)]
  have hct : xorbBuilderInit.compression_type = COMPRESSION_LZ4 := rfl
  rw [hct, compressChunk_LZ4_eq]
  rw [if_pos hfall]
  dsimp only
  unfold buildXorbGo
  simp only [Option.getD_some, List.nil_append, Nat.zero_add]
  rw [hlen]
  unfold xorbBuilderInit
  rfl

theorem xorbCex_build :
    buildXorb (fun d => d ++ [0]) (fun _ _ => ([] : Bytes)) [] [(xorbCexData, [7])] =
      .ok xorbCexBuilt := by
  have hlen : xorbCexData.length = 2 ^ 24 := by
    unfold xorbCexData
    rw [List.length_replicate]
  unfold xorbCexBuilt
  exact xorbCex_build_gen xorbCexData hlen

theorem xorbCex_serialize_gen (d : Bytes) (hlen : d.length = 2 ^ 24) :
    serializeXorb (fun x => x ++ [0]) COMPRESSION_LZ4
      [{ data := d, chunk_hash := [7], compressed_data := some d,
         compression_type := COMPRESSION_NONE }] =
      .ok (([0, 0, 0, 0, 0, 0, 0, 0] : Bytes) ++ d) := by
  have henc : encodeU24 d.length = [0, 0, 0] := by
    rw [hlen]
    rfl
  have hchunks : serializeXorbChunks (fun x => x ++ [0]) COMPRESSION_LZ4
      [{ data := d, chunk_hash := [7], compressed_data := some d,
         compression_type := COMPRESSION_NONE }] =
      .ok (([0, 0, 0, 0, 0, 0, 0, 0] : Bytes) ++ d) := by
    unfold serializeXorbChunks serializeChunkEntry
    dsimp only
    unfold serializeXorbChunks
    dsimp only
    rw [henc, List.append_nil]
    rfl
  unfold serializeXorb
  rw [if_neg (by simp [MAX_XORB_CHUNKS]), hchunks]
  dsimp only
  rw [if_neg (by simp only [List.length_append, List.length_cons, List.length_nil, hlen,
        MAX_XORB_SIZE]; norm_num)]

theorem xorbCex_serialize :
    serializeXorb (fun d => d ++ [0]) COMPRESSION_LZ4 xorbCexBuilt.chunks =
      .ok (List.replicate (2 ^ 24 + 8) 0) := by
  have hlen : xorbCexData.length = 2 ^ 24 := by
    unfold xorbCexData
    rw [List.length_replicate]
  have hform : (([0, 0, 0, 0, 0, 0, 0, 0] : Bytes) ++ xorbCexData) =
      List.replicate (2 ^ 24 + 8) 0 := by
    rw [(by norm_num : (2 : Nat) ^ 24 + 8 = 8 + 2 ^ 24), List.replicate_add]
    unfold xorbCexData
    rfl
  have hchunks : xorbCexBuilt.chunks =
      [{ data := xorbCexData, chunk_hash := [7], compressed_data := some xorbCexData,
         compression_type := COMPRESSION_NONE }] := rfl
  rw [hchunks, xorbCex_serialize_gen xorbCexData hlen, hform]

/-- C3 counterexample: the builder accepts a 2^24-byte chunk, the u24 size
fields of the chunk header wrap to zero, and deserialization returns
2097153 empty chunks instead of the original single chunk. -/
theorem xorbBuilder_roundtrip_cex :
    buildXorb (fun d => d ++ [0]) (fun _ _ => ([] : Bytes)) [] [(xorbCexData, [7])] =
      .ok xorbCexBuilt ∧
    serializeXorb (fun d => d ++ [0]) COMPRESSION_LZ4 xorbCexBuilt.chunks =
      .ok (List.replicate (2 ^ 24 + 8) 0) ∧
    (deserializeXorb (fun x => x.dropLast) (fun _ _ => ([] : Bytes)) []
        (List.replicate (2 ^ 24 + 8) 0)).map (List.map ChunkEntry.data) ≠
      .ok (xorbCexBuilt.chunks.map ChunkEntry.data) := by
  refine ⟨xorbCex_build, xorbCex_serialize, ?_⟩
  have hsplit : List.replicate (2 ^ 24 + 8) (0 : Nat) = List.replicate (8 * (2 ^ 21 + 1)) 0 := by
    rw [(by norm_num : (2 : Nat) ^ 24 + 8 = 8 * (2 ^ 21 + 1))]
  unfold deserializeXorb
  rw [hsplit, deserialize_zeros]
  intro hcontra
  simp only [Except.map] at hcontra
  have hmap := Except.ok.inj hcontra
  have h1 := congrArg List.length hmap
  rw [List.length_map, List.length_replicate] at h1
  have h2 : (xorbCexBuilt.chunks.map ChunkEntry.data).length = 1 := by
    unfold xorbCexBuilt
    rfl
  rw [h2] at h1
  norm_num at h1

/-! ## Shard format (shard.py)

The data structures mirror the dataclasses of shard.py.  `SHARD_HEADER_TAG`
lives in the missing `constants` module, so it is a `tag : Bytes` parameter.
`_write_u32`/`_write_u64` call `struct.pack`, which requires the value to fit
the width; the embeddings write the value mod 2^32 / 2^64 digit-wise and the
theorems carry the fit as hypotheses where it matters. -/

structure FileDataSequenceEntry where
  cas_hash : Bytes
  cas_flags : Nat
  unpacked_segment_bytes : Nat
  chunk_index_start : Nat
  chunk_index_end : Nat
deriving DecidableEq, Repr

structure FileVerificationEntry where
  range_hash : Bytes
deriving DecidableEq, Repr

structure FileMetadataExt where
  sha256_hash : Bytes
deriving DecidableEq, Repr

structure FileBlock where
  file_hash : Bytes
  entries : List FileDataSequenceEntry
  verification_entries : List FileVerificationEntry
  metadata_ext : Option FileMetadataExt
deriving DecidableEq, Repr

structure CASChunkSequenceEntry where
  chunk_hash : Bytes
  chunk_byte_range_start : Nat
  unpacked_segment_bytes : Nat
  flags : Nat
deriving DecidableEq, Repr

structure CASBlock where
  cas_hash : Bytes
  cas_flags : Nat
  entries : List CASChunkSequenceEntry
  num_bytes_in_cas : Nat
  num_bytes_on_disk : Nat
deriving DecidableEq, Repr

structure ShardFooter where
  version : Nat
  file_info_offset : Nat
  cas_info_offset : Nat
  file_lookup_offset : Nat
  file_lookup_num_entries : Nat
  cas_lookup_offset : Nat
  cas_lookup_num_entries : Nat
  chunk_lookup_offset : Nat
  chunk_lookup_num_entries : Nat
  chunk_hash_key : Bytes
  shard_creation_timestamp : Nat
  shard_key_expiry : Nat
  stored_bytes_on_disk : Nat
  materialized_bytes : Nat
  stored_bytes : Nat
  footer_offset : Nat
deriving DecidableEq, Repr

structure Shard where
  file_blocks : List FileBlock
  cas_blocks : List CASBlock
  footer : Option ShardFooter
deriving DecidableEq, Repr

/-- `BOOKEND_HASH`: 32 bytes of 0xFF. -/
def BOOKEND_HASH : Bytes := List.replicate 32 0xFF

/-- `_write_u32` (little endian). -/
def writeU32 (v : Nat) : Bytes :=
  [v % 256, v / 2 ^ 8 % 256, v / 2 ^ 16 % 256, v / 2 ^ 24 % 256]

/-- `_write_u64` (little endian). -/
def writeU64 (v : Nat) : Bytes :=
  [v % 256, v / 2 ^ 8 % 256, v / 2 ^ 16 % 256, v / 2 ^ 24 % 256,
   v / 2 ^ 32 % 256, v / 2 ^ 40 % 256, v / 2 ^ 48 % 256, v / 2 ^ 56 % 256]

/-- `_read_u32` (callers keep the 4 bytes in range). -/
def readU32 (data : Bytes) (off : Nat) : Nat := leVal ((data.drop off).take 4)

/-- `_read_u64` (callers keep the 8 bytes in range). -/
def readU64 (data : Bytes) (off : Nat) : Nat := leVal ((data.drop off).take 8)

/-- `serialize_shard_header`. -/
def serializeShardHeader (tag : Bytes) (version footerSize : Nat) : Bytes :=
  tag ++ writeU64 version ++ writeU64 footerSize

/-- `serialize_file_data_sequence_header`. -/
def serializeFileDataSequenceHeader (file_hash : Bytes) (numEntries : Nat)
    (withVerification withMetadataExt : Bool) : Bytes :=
  file_hash ++
    writeU32 ((if withVerification then FILE_FLAG_WITH_VERIFICATION else 0) |||
              (if withMetadataExt then FILE_FLAG_WITH_METADATA_EXT else 0)) ++
    writeU32 numEntries ++ List.replicate 8 0

/-- `serialize_file_data_sequence_entry`. -/
def serializeFileDataSequenceEntry (e : FileDataSequenceEntry) : Bytes :=
  e.cas_hash ++ writeU32 e.cas_flags ++ writeU32 e.unpacked_segment_bytes ++
    writeU32 e.chunk_index_start ++ writeU32 e.chunk_index_end

/-- `serialize_file_verification_entry`. -/
def serializeFileVerificationEntry (e : FileVerificationEntry) : Bytes :=
  e.range_hash ++ List.replicate 16 0

/-- `serialize_file_metadata_ext`. -/
def serializeFileMetadataExt (m : FileMetadataExt) : Bytes :=
  m.sha256_hash ++ List.replicate 16 0

/-- `serialize_bookend`. -/
def serializeBookend : Bytes := BOOKEND_HASH ++ List.replicate 16 0

/-- `serialize_cas_chunk_sequence_header`. -/
def serializeCasChunkSequenceHeader (cas_hash : Bytes)
    (numEntries numBytesInCas numBytesOnDisk : Nat) : Bytes :=
  cas_hash ++ writeU32 0 ++ writeU32 numEntries ++ writeU32 numBytesInCas ++
    writeU32 numBytesOnDisk

/-- `serialize_cas_chunk_sequence_entry`. -/
def serializeCasChunkSequenceEntry (e : CASChunkSequenceEntry) : Bytes :=
  e.chunk_hash ++ writeU32 e.chunk_byte_range_start ++
    writeU32 e.unpacked_segment_bytes ++ writeU32 e.flags ++ writeU32 0

/-- The body of the file-info loop of `serialize_shard_for_upload` for one
file block (header, entries, verification entries when present, metadata
extension when present). -/
def serializeFileBlock (fb : FileBlock) : Bytes :=
  serializeFileDataSequenceHeader fb.file_hash fb.entries.length
    (decide (fb.verification_entries.length > 0)) fb.metadata_ext.isSome ++
  (fb.entries.map serializeFileDataSequenceEntry).flatten ++
  (if fb.verification_entries.length > 0 then
    (fb.verification_entries.map serializeFileVerificationEntry).flatten
   else []) ++
  (match fb.metadata_ext with
   | some m => serializeFileMetadataExt m
   | none => [])

/-- The body of the CAS-info loop of `serialize_shard_for_upload` for one CAS
block (`num_bytes_in_cas` recomputed as the sum of the entries' sizes). -/
def serializeCasBlock (cb : CASBlock) : Bytes :=
  serializeCasChunkSequenceHeader cb.cas_hash cb.entries.length
    ((cb.entries.map CASChunkSequenceEntry.unpacked_segment_bytes).sum)
    cb.num_bytes_on_disk ++
  (cb.entries.map serializeCasChunkSequenceEntry).flatten

/-- `serialize_shard_for_upload` from shard.py. -/
def serializeShardForUpload (tag : Bytes) (s : Shard) : Bytes :=
  serializeShardHeader tag 2 0 ++
  (s.file_blocks.map serializeFileBlock).flatten ++
  serializeBookend ++
  (s.cas_blocks.map serializeCasBlock).flatten ++
  serializeBookend

/-- Error kinds of `deserialize_shard`: the `ValueError`s (data too short /
truncated records map to `truncated`, the magic-tag and version checks to
`badMagic` / `unsupportedVersion`) and `struct.error` from the footer reads
(`structError`). -/
inductive ShardErr where
  | truncated
  | badMagic
  | unsupportedVersion
  | structError
deriving DecidableEq, Repr

/-- Python slicing `data[a:b]` (step 1) with negative-index and clamping
semantics. -/
def pySlice (data : Bytes) (a b : Int) : Bytes :=
  let n : Int := data.length
  let a2 : Int := if a < 0 then max (n + a) 0 else min a n
  let b2 : Int := if b < 0 then max (n + b) 0 else min b n
  (data.take b2.toNat).drop a2.toNat

/-- `_read_u64` at a possibly negative offset, as used on the footer:
`struct.unpack` demands exactly 8 bytes, else `struct.error`. -/
def readU64E (data : Bytes) (off : Int) : Except ShardErr Nat :=
  if (pySlice data off (off + 8)).length = 8 then .ok (leVal (pySlice data off (off + 8)))
  else .error .structError

/-- The `num_entries`-bounded file-entry loop of `deserialize_shard`. -/
def parseFileEntriesN (data : Bytes) (offset : Nat) :
    Nat → Except ShardErr (List FileDataSequenceEntry)
  | 0 => .ok []
  | n + 1 =>
    if offset + 48 > data.length then .error .truncated
    else
      match parseFileEntriesN data (offset + 48) n with
      | .error e => .error e
      | .ok rest =>
        .ok (({ cas_hash := (data.drop offset).take 32,
                cas_flags := readU32 data (offset + 32),
                unpacked_segment_bytes := readU32 data (offset + 36),
                chunk_index_start := readU32 data (offset + 40),
                chunk_index_end := readU32 data (offset + 44) } :
              FileDataSequenceEntry) :: rest)

/-- The verification-entry loop of `deserialize_shard`. -/
def parseVerifEntriesN (data : Bytes) (offset : Nat) :
    Nat → Except ShardErr (List FileVerificationEntry)
  | 0 => .ok []
  | n + 1 =>
    if offset + 48 > data.length then .error .truncated
    else
      match parseVerifEntriesN data (offset + 48) n with
      | .error e => .error e
      | .ok rest =>
        .ok (({ range_hash := (data.drop offset).take 32 } : FileVerificationEntry) :: rest)

/-- The CAS-entry loop of `deserialize_shard`. -/
def parseCasEntriesN (data : Bytes) (offset : Nat) :
    Nat → Except ShardErr (List CASChunkSequenceEntry)
  | 0 => .ok []
  | n + 1 =>
    if offset + 48 > data.length then .error .truncated
    else
      match parseCasEntriesN data (offset + 48) n with
      | .error e => .error e
      | .ok rest =>
        .ok (({ chunk_hash := (data.drop offset).take 32,
                chunk_byte_range_start := readU32 data (offset + 32),
                unpacked_segment_bytes := readU32 data (offset + 36),
                flags := readU32 data (offset + 40) } :
              CASChunkSequenceEntry) :: rest)

/-- Offset of the metadata extension inside one file block (after the
entries and, when flagged, the verification entries). -/
def fbMetaOff (data : Bytes) (offset : Nat) : Nat :=
  offset + 48 + 48 * readU32 data (offset + 36) +
    (if readU32 data (offset + 32) &&& FILE_FLAG_WITH_VERIFICATION ≠ 0 then
      48 * readU32 data (offset + 36)
     else 0)

/-- Offset of the next file block (after the optional metadata extension). -/
def fbNextOff (data : Bytes) (offset : Nat) : Nat :=
  fbMetaOff data offset +
    (if readU32 data (offset + 32) &&& FILE_FLAG_WITH_METADATA_EXT ≠ 0 then 48 else 0)

/-- The file-info `while offset < len(data)` loop of `deserialize_shard`:
parsed file blocks plus the offset after the section bookend. -/
def parseFileBlocks (data : Bytes) (offset : Nat) :
    Except ShardErr (List FileBlock × Nat) :=
  if _h0 : offset < data.length then
    if offset + 48 > data.length then .error .truncated
    else if (data.drop offset).take 32 = BOOKEND_HASH then .ok ([], offset + 48)
    else
      match parseFileEntriesN data (offset + 48) (readU32 data (offset + 36)) with
      | .error e => .error e
      | .ok entries =>
        match (if readU32 data (offset + 32) &&& FILE_FLAG_WITH_VERIFICATION ≠ 0 then
                parseVerifEntriesN data (offset + 48 + 48 * readU32 data (offset + 36))
                  (readU32 data (offset + 36))
               else .ok []) with
        | .error e => .error e
        | .ok ves =>
          match (if readU32 data (offset + 32) &&& FILE_FLAG_WITH_METADATA_EXT ≠ 0 then
                  (if fbMetaOff data offset + 48 > data.length then
                    (.error .truncated : Except ShardErr (Option FileMetadataExt))
                   else .ok (some ({ sha256_hash := (data.drop (fbMetaOff data offset)).take 32 } :
                     FileMetadataExt)))
                 else .ok none) with
          | .error e => .error e
          | .ok me =>
            match parseFileBlocks data (fbNextOff data offset) with
            | .error e => .error e
            | .ok (blocks, off2) =>
              .ok (({ file_hash := (data.drop offset).take 32, entries := entries,
                      verification_entries := ves, metadata_ext := me } : FileBlock) :: blocks,
                   off2)
  else .ok ([], offset)
termination_by data.length - offset
decreasing_by
  have h1 : offset + 48 ≤ fbNextOff data offset := by
    unfold fbNextOff fbMetaOff
    split <;> split <;> omega
  omega

/-- The CAS-info `while offset < len(data)` loop of `deserialize_shard`
(the footer bound compares Python ints, hence the `Int` cast). -/
def parseCasBlocks (data : Bytes) (footerSize : Nat) (offset : Nat) :
    Except ShardErr (List CASBlock × Nat) :=
  if _h0 : offset < data.length then
    if footerSize > 0 ∧ (offset : Int) ≥ (data.length : Int) - (footerSize : Int) then
      .ok ([], offset)
    else if offset + 48 > data.length then .error .truncated
    else if (data.drop offset).take 32 = BOOKEND_HASH then .ok ([], offset + 48)
    else
      match parseCasEntriesN data (offset + 48) (readU32 data (offset + 36)) with
      | .error e => .error e
      | .ok entries =>
        match parseCasBlocks data footerSize (offset + 48 + 48 * readU32 data (offset + 36)) with
        | .error e => .error e
        | .ok (blocks, off2) =>
          .ok (({ cas_hash := (data.drop offset).take 32,
                  cas_flags := readU32 data (offset + 32),
                  entries := entries,
                  num_bytes_in_cas := readU32 data (offset + 40),
                  num_bytes_on_disk := readU32 data (offset + 44) } : CASBlock) :: blocks,
               off2)
  else .ok ([], offset)
termination_by data.length - offset
decreasing_by omega

/-- The footer branch of `deserialize_shard` (only entered when
`footer_size > 0`; parsed only when `footer_size >= 200`). -/
def parseFooter (data : Bytes) (footerSize : Nat) : Except ShardErr (Option ShardFooter) :=
  if footerSize = 0 then .ok none
  else if footerSize ≥ 200 then do
    let fo : Int := (data.length : Int) - (footerSize : Int)
    let v0 ← readU64E data fo
    let v1 ← readU64E data (fo + 8)
    let v2 ← readU64E data (fo + 16)
    let v3 ← readU64E data (fo + 24)
    let v4 ← readU64E data (fo + 32)
    let v5 ← readU64E data (fo + 40)
    let v6 ← readU64E data (fo + 48)
    let v7 ← readU64E data (fo + 56)
    let v8 ← readU64E data (fo + 64)
    let v9 ← readU64E data (fo + 104)
    let v10 ← readU64E data (fo + 112)
    let v11 ← readU64E data (fo + 168)
    let v12 ← readU64E data (fo + 176)
    let v13 ← readU64E data (fo + 184)
    let v14 ← readU64E data (fo + 192)
    pure (some { version := v0, file_info_offset := v1, cas_info_offset := v2,
                 file_lookup_offset := v3, file_lookup_num_entries := v4,
                 cas_lookup_offset := v5, cas_lookup_num_entries := v6,
                 chunk_lookup_offset := v7, chunk_lookup_num_entries := v8,
                 chunk_hash_key := pySlice data (fo + 72) (fo + 104),
                 shard_creation_timestamp := v9, shard_key_expiry := v10,
                 stored_bytes_on_disk := v11, materialized_bytes := v12,
                 stored_bytes := v13, footer_offset := v14 })
  else .ok none

/-- `deserialize_shard` from shard.py. -/
def deserializeShard (tag : Bytes) (data : Bytes) : Except ShardErr Shard :=
  if data.length < 48 then .error .truncated
  else if data.take 32 ≠ tag then .error .badMagic
  else if readU64 data 32 ≠ 2 then .error .unsupportedVersion
  else
    match parseFileBlocks data 48 with
    | .error e => .error e
    | .ok (fbs, off1) =>
      match parseCasBlocks data (readU64 data 40) off1 with
      | .error e => .error e
      | .ok (cbs, _) =>
        match parseFooter data (readU64 data 40) with
        | .error e => .error e
        | .ok ft => .ok { file_blocks := fbs, cas_blocks := cbs, footer := ft }

/-! ### ShardBuilder (shard.py) -/

/-- `ShardBuilder` state; the `_cas_hashes` set is carried as the list of its
members. -/
structure ShardBuilderState where
  file_blocks : List FileBlock
  cas_blocks : List CASBlock
  cas_hashes : List Bytes
deriving DecidableEq, Repr

def shardBuilderInit : ShardBuilderState :=
  { file_blocks := [], cas_blocks := [], cas_hashes := [] }

/-- `ShardBuilder.add_file` (`if sha256_hash` is Python truthiness: `None`
and empty bytes both skip the metadata extension). -/
def shardAddFile (b : ShardBuilderState) (file_hash : Bytes)
    (terms : List FileDataSequenceEntry) (verification_hashes : List Bytes)
    (sha256_hash : Option Bytes) : ShardBuilderState :=
  { b with file_blocks := b.file_blocks ++
      [{ file_hash := file_hash, entries := terms,
         verification_entries :=
           verification_hashes.map (fun h => ({ range_hash := h } : FileVerificationEntry)),
         metadata_ext :=
           match sha256_hash with
           | some h => if h = [] then none else some ({ sha256_hash := h } : FileMetadataExt)
           | none => none }] }

/-- The entry loop of `ShardBuilder.add_cas_block` over the zipped
(hash, size) pairs, tracking the enumeration index and running byte offset
(`dedup_eligible[i]` is read with a default, matching the in-range calls the
reference makes). -/
def buildCasEntries (dedup : Option (List Bool)) :
    List (Bytes × Nat) → Nat → Nat → List CASChunkSequenceEntry
  | [], _, _ => []
  | p :: rest, i, byteOffset =>
    { chunk_hash := p.1, chunk_byte_range_start := byteOffset,
      unpacked_segment_bytes := p.2,
      flags := if (match dedup with
                   | none => false
                   | some l => decide (l ≠ []) && l.getD i false) then
          CHUNK_FLAG_GLOBAL_DEDUP_ELIGIBLE
        else 0 } ::
      buildCasEntries dedup rest (i + 1) (byteOffset + p.2)

/-- `ShardBuilder.add_cas_block`. -/
def shardAddCasBlock (b : ShardBuilderState) (cas_hash : Bytes)
    (chunk_hashes : List Bytes) (chunk_sizes : List Nat) (serializedSize : Nat)
    (dedup_eligible : Option (List Bool)) : ShardBuilderState :=
  if cas_hash ∈ b.cas_hashes then b
  else
    { b with
      cas_blocks := b.cas_blocks ++
        [{ cas_hash := cas_hash, cas_flags := 0,
           entries := buildCasEntries dedup_eligible (chunk_hashes.zip chunk_sizes) 0 0,
           num_bytes_in_cas := ((chunk_hashes.zip chunk_sizes).map Prod.snd).sum,
           num_bytes_on_disk := serializedSize }],
      cas_hashes := cas_hash :: b.cas_hashes }

/-- `ShardBuilder.build`. -/
def shardBuilderBuild (b : ShardBuilderState) : Shard :=
  { file_blocks := b.file_blocks, cas_blocks := b.cas_blocks, footer := none }

/-- One `ShardBuilder` method call. -/
inductive ShardOp where
  | file (file_hash : Bytes) (terms : List FileDataSequenceEntry)
      (verification_hashes : List Bytes) (sha256_hash : Option Bytes)
  | cas (cas_hash : Bytes) (chunk_hashes : List Bytes) (chunk_sizes : List Nat)
      (serializedSize : Nat) (dedup_eligible : Option (List Bool))

def applyShardOp (b : ShardBuilderState) : ShardOp → ShardBuilderState
  | .file fh t vh sh => shardAddFile b fh t vh sh
  | .cas ch chs szs ss de => shardAddCasBlock b ch chs szs ss de

/-- A builder fed an arbitrary sequence of method calls. -/
def runShardOps (ops : List ShardOp) : ShardBuilderState :=
  ops.foldl applyShardOp shardBuilderInit

/-! ### Shard round-trip: slicing and field-read lemmas -/

/-- Value bounds under which one reconstruction term serializes faithfully. -/
def GoodFDS (e : FileDataSequenceEntry) : Prop :=
  e.cas_hash.length = 32 ∧ e.cas_flags < 2 ^ 32 ∧ e.unpacked_segment_bytes < 2 ^ 32 ∧
  e.chunk_index_start < 2 ^ 32 ∧ e.chunk_index_end < 2 ^ 32

instance (e : FileDataSequenceEntry) : Decidable (GoodFDS e) := by
  unfold GoodFDS; infer_instance

/-- Value bounds under which one file block serializes faithfully. -/
def GoodFileBlock (fb : FileBlock) : Prop :=
  fb.file_hash.length = 32 ∧ fb.file_hash ≠ BOOKEND_HASH ∧
  fb.entries.length < 2 ^ 32 ∧ (∀ e ∈ fb.entries, GoodFDS e) ∧
  (fb.verification_entries = [] ∨ fb.verification_entries.length = fb.entries.length) ∧
  (∀ v ∈ fb.verification_entries, v.range_hash.length = 32) ∧
  (∀ m, fb.metadata_ext = some m → m.sha256_hash.length = 32)

/-- Value bounds under which one CAS chunk entry serializes faithfully. -/
def GoodCasEntry (e : CASChunkSequenceEntry) : Prop :=
  e.chunk_hash.length = 32 ∧ e.chunk_byte_range_start < 2 ^ 32 ∧
  e.unpacked_segment_bytes < 2 ^ 32 ∧ e.flags < 2 ^ 32

instance (e : CASChunkSequenceEntry) : Decidable (GoodCasEntry e) := by
  unfold GoodCasEntry; infer_instance

/-- Value bounds under which one CAS block serializes faithfully
(`num_bytes_in_cas` must equal the entry-size sum the serializer recomputes,
and `cas_flags` must be the 0 the serializer writes). -/
def GoodCasBlock (cb : CASBlock) : Prop :=
  cb.cas_hash.length = 32 ∧ cb.cas_hash ≠ BOOKEND_HASH ∧ cb.cas_flags = 0 ∧
  cb.entries.length < 2 ^ 32 ∧ (∀ e ∈ cb.entries, GoodCasEntry e) ∧
  cb.num_bytes_in_cas = (cb.entries.map CASChunkSequenceEntry.unpacked_segment_bytes).sum ∧
  cb.num_bytes_in_cas < 2 ^ 32 ∧ cb.num_bytes_on_disk < 2 ^ 32

@[simp] theorem length_writeU32 (v : Nat) : (writeU32 v).length = 4 := rfl

@[simp] theorem length_writeU64 (v : Nat) : (writeU64 v).length = 8 := rfl

theorem leVal_writeU32 (v : Nat) (hv : v < 2 ^ 32) : leVal (writeU32 v) = v := by
  unfold leVal writeU32
  simp only [List.foldr_cons, List.foldr_nil]
  omega

theorem leVal_writeU64 (v : Nat) (hv : v < 2 ^ 64) : leVal (writeU64 v) = v := by
  unfold leVal writeU64
  simp only [List.foldr_cons, List.foldr_nil]
  omega

theorem take_pre (a b : Bytes) (n : Nat) (h : a.length = n) : (a ++ b).take n = a := by
  subst h
  exact List.take_left a b

theorem drop_pre (a b : Bytes) (n : Nat) (h : a.length = n) : (a ++ b).drop n = b := by
  subst h
  exact List.drop_left a b

theorem drop_at (data : Bytes) (offset k : Nat) :
    data.drop (offset + k) = (data.drop offset).drop k := by
  rw [List.drop_drop, Nat.add_comm]

theorem drop_split (data pre rest : Bytes) (offset k j : Nat) (hk : pre.length = k)
    (hj : j = offset + k) (h : data.drop offset = pre ++ rest) : data.drop j = rest := by
  subst hj
  rw [drop_at, h, drop_pre pre rest k hk]

theorem take_split (data pre rest h32 : Bytes) (offset k j n : Nat) (hk : pre.length = k)
    (hj : j = offset + k) (hn : h32.length = n)
    (h : data.drop offset = pre ++ (h32 ++ rest)) : (data.drop j).take n = h32 := by
  rw [drop_split data pre (h32 ++ rest) offset k j hk hj h, take_pre h32 rest n hn]

theorem readU32_at (data rest : Bytes) (offset v : Nat) (hv : v < 2 ^ 32)
    (h : data.drop offset = writeU32 v ++ rest) : readU32 data offset = v := by
  unfold readU32
  rw [h, take_pre (writeU32 v) rest 4 (length_writeU32 v)]
  exact leVal_writeU32 v hv

theorem readU64_at (data rest : Bytes) (offset v : Nat) (hv : v < 2 ^ 64)
    (h : data.drop offset = writeU64 v ++ rest) : readU64 data offset = v := by
  unfold readU64
  rw [h, take_pre (writeU64 v) rest 8 (length_writeU64 v)]
  exact leVal_writeU64 v hv

theorem readU32_split (data pre rest : Bytes) (offset k j v : Nat) (hk : pre.length = k)
    (hj : j = offset + k) (hv : v < 2 ^ 32)
    (h : data.drop offset = pre ++ (writeU32 v ++ rest)) : readU32 data j = v :=
  readU32_at data rest j v hv (drop_split data pre (writeU32 v ++ rest) offset k j hk hj h)

theorem readU64_split (data pre rest : Bytes) (offset k j v : Nat) (hk : pre.length = k)
    (hj : j = offset + k) (hv : v < 2 ^ 64)
    (h : data.drop offset = pre ++ (writeU64 v ++ rest)) : readU64 data j = v :=
  readU64_at data rest j v hv (drop_split data pre (writeU64 v ++ rest) offset k j hk hj h)

theorem drop_len (data l : Bytes) (offset : Nat) (h : data.drop offset = l) :
    data.length - offset = l.length := by
  rw [← h, List.length_drop]

theorem parseFileEntriesN_split (data : Bytes) (entries : List FileDataSequenceEntry) :
    ∀ (offset : Nat) (rest : Bytes), (∀ e ∈ entries, GoodFDS e) →
    data.drop offset = (entries.map serializeFileDataSequenceEntry).flatten ++ rest →
    parseFileEntriesN data offset entries.length = .ok entries := by
  induction entries with
  | nil => intro offset rest _ _; rfl
  | cons e es ih =>
    intro offset rest hgood hsplit
    obtain ⟨hch, hf1, hf2, hf3, hf4⟩ := hgood e (by simp)
    rw [List.map_cons, List.flatten_cons, List.append_assoc] at hsplit
    have hexp : serializeFileDataSequenceEntry e =
        e.cas_hash ++ (writeU32 e.cas_flags ++ (writeU32 e.unpacked_segment_bytes ++
          (writeU32 e.chunk_index_start ++ writeU32 e.chunk_index_end))) := by
      unfold serializeFileDataSequenceEntry
      simp only [List.append_assoc]
    rw [hexp] at hsplit
    simp only [List.append_assoc] at hsplit
    have hlen := drop_len data _ offset hsplit
    simp only [List.length_append, List.length_cons, length_writeU32, hch] at hlen
    have h0 : (data.drop offset).take 32 = e.cas_hash := by
      rw [hsplit, take_pre _ _ 32 hch]
    have d1 := drop_split data e.cas_hash _ offset 32 (offset + 32) hch rfl hsplit
    have h1 := readU32_at data _ (offset + 32) _ hf1 d1
    have d2 := drop_split data (writeU32 e.cas_flags) _ (offset + 32) 4 (offset + 36)
      (length_writeU32 _) (by omega) d1
    have h2 := readU32_at data _ (offset + 36) _ hf2 d2
    have d3 := drop_split data (writeU32 e.unpacked_segment_bytes) _ (offset + 36) 4
      (offset + 40) (length_writeU32 _) (by omega) d2
    have h3 := readU32_at data _ (offset + 40) _ hf3 d3
    have d4 := drop_split data (writeU32 e.chunk_index_start) _ (offset + 40) 4
      (offset + 44) (length_writeU32 _) (by omega) d3
    have h4 := readU32_at data _ (offset + 44) _ hf4 d4
    have hnext := drop_split data (writeU32 e.chunk_index_end) _ (offset + 44) 4
      (offset + 48) (length_writeU32 _) (by omega) d4
    simp only [List.length_cons, parseFileEntriesN]
    rw [if_neg (by omega)]
    rw [ih (offset + 48) rest (fun x hx => hgood x (by simp [hx])) hnext]
    rw [h0, h1, h2, h3, h4]

theorem parseVerifEntriesN_split (data : Bytes) (ves : List FileVerificationEntry) :
    ∀ (offset : Nat) (rest : Bytes), (∀ v ∈ ves, v.range_hash.length = 32) →
    data.drop offset = (ves.map serializeFileVerificationEntry).flatten ++ rest →
    parseVerifEntriesN data offset ves.length = .ok ves := by
  induction ves with
  | nil => intro offset rest _ _; rfl
  | cons v vs ih =>
    intro offset rest hgood hsplit
    have hvh := hgood v (by simp)
    rw [List.map_cons, List.flatten_cons, List.append_assoc] at hsplit
    have hexp : serializeFileVerificationEntry v = v.range_hash ++ List.replicate 16 0 := rfl
    rw [hexp] at hsplit
    simp only [List.append_assoc] at hsplit
    have hlen := drop_len data _ offset hsplit
    simp only [List.length_append, List.length_replicate, hvh] at hlen
    have h0 : (data.drop offset).take 32 = v.range_hash := by
      rw [hsplit, take_pre _ _ 32 hvh]
    have d1 := drop_split data v.range_hash _ offset 32 (offset + 32) hvh rfl hsplit
    have hnext := drop_split data (List.replicate 16 0) _ (offset + 32) 16 (offset + 48)
      (List.length_replicate 16 0) (by omega) d1
    simp only [List.length_cons, parseVerifEntriesN]
    rw [if_neg (by omega)]
    rw [ih (offset + 48) rest (fun x hx => hgood x (by simp [hx])) hnext]
    rw [h0]

theorem parseCasEntriesN_split (data : Bytes) (entries : List CASChunkSequenceEntry) :
    ∀ (offset : Nat) (rest : Bytes), (∀ e ∈ entries, GoodCasEntry e) →
    data.drop offset = (entries.map serializeCasChunkSequenceEntry).flatten ++ rest →
    parseCasEntriesN data offset entries.length = .ok entries := by
  induction entries with
  | nil => intro offset rest _ _; rfl
  | cons e es ih =>
    intro offset rest hgood hsplit
    obtain ⟨hch, hf1, hf2, hf3⟩ := hgood e (by simp)
    rw [List.map_cons, List.flatten_cons, List.append_assoc] at hsplit
    have hexp : serializeCasChunkSequenceEntry e =
        e.chunk_hash ++ (writeU32 e.chunk_byte_range_start ++
          (writeU32 e.unpacked_segment_bytes ++ (writeU32 e.flags ++ writeU32 0))) := by
      unfold serializeCasChunkSequenceEntry
      simp only [List.append_assoc]
    rw [hexp] at hsplit
    simp only [List.append_assoc] at hsplit
    have hlen := drop_len data _ offset hsplit
    simp only [List.length_append, List.length_cons, length_writeU32, hch] at hlen
    have h0 : (data.drop offset).take 32 = e.chunk_hash := by
      rw [hsplit, take_pre _ _ 32 hch]
    have d1 := drop_split data e.chunk_hash _ offset 32 (offset + 32) hch rfl hsplit
    have h1 := readU32_at data _ (offset + 32) _ hf1 d1
    have d2 := drop_split data (writeU32 e.chunk_byte_range_start) _ (offset + 32) 4
      (offset + 36) (length_writeU32 _) (by omega) d1
    have h2 := readU32_at data _ (offset + 36) _ hf2 d2
    have d3 := drop_split data (writeU32 e.unpacked_segment_bytes) _ (offset + 36) 4
      (offset + 40) (length_writeU32 _) (by omega) d2
    have h3 := readU32_at data _ (offset + 40) _ hf3 d3
    have d4 := drop_split data (writeU32 e.flags) _ (offset + 40) 4 (offset + 44)
      (length_writeU32 _) (by omega) d3
    have hnext := drop_split data (writeU32 0) _ (offset + 44) 4 (offset + 48)
      (length_writeU32 _) (by omega) d4
    simp only [List.length_cons, parseCasEntriesN]
    rw [if_neg (by omega)]
    rw [ih (offset + 48) rest (fun x hx => hgood x (by simp [hx])) hnext]
    rw [h0, h1, h2, h3]

theorem length_flatten_serFDS (l : List FileDataSequenceEntry) (h : ∀ e ∈ l, GoodFDS e) :
    ((l.map serializeFileDataSequenceEntry).flatten).length = 48 * l.length := by
  induction l with
  | nil => rfl
  | cons e es ih =>
    have hch := (h e (by simp)).1
    simp only [List.map_cons, List.flatten_cons, List.length_append, List.length_cons,
      ih (fun x hx => h x (by simp [hx]))]
    unfold serializeFileDataSequenceEntry
    simp only [List.length_append, length_writeU32, hch]
    ring

theorem length_flatten_serVE (l : List FileVerificationEntry)
    (h : ∀ v ∈ l, v.range_hash.length = 32) :
    ((l.map serializeFileVerificationEntry).flatten).length = 48 * l.length := by
  induction l with
  | nil => rfl
  | cons v vs ih =>
    have hvh := h v (by simp)
    simp only [List.map_cons, List.flatten_cons, List.length_append, List.length_cons,
      ih (fun x hx => h x (by simp [hx]))]
    unfold serializeFileVerificationEntry
    simp only [List.length_append, List.length_replicate, hvh]
    ring

theorem length_flatten_serCE (l : List CASChunkSequenceEntry) (h : ∀ e ∈ l, GoodCasEntry e) :
    ((l.map serializeCasChunkSequenceEntry).flatten).length = 48 * l.length := by
  induction l with
  | nil => rfl
  | cons e es ih =>
    have hch := (h e (by simp)).1
    simp only [List.map_cons, List.flatten_cons, List.length_append, List.length_cons,
      ih (fun x hx => h x (by simp [hx]))]
    unfold serializeCasChunkSequenceEntry
    simp only [List.length_append, length_writeU32, hch]
    ring

theorem parseFileBlock_head (data : Bytes) (fb : FileBlock) (offset : Nat) (tail : Bytes)
    (blocks : List FileBlock) (off2 : Nat) (hg : GoodFileBlock fb)
    (hsplit : data.drop offset = serializeFileBlock fb ++ tail)
    (hrec : parseFileBlocks data (offset + (serializeFileBlock fb).length) =
      .ok (blocks, off2)) :
    parseFileBlocks data offset = .ok (fb :: blocks, off2) := by
  obtain ⟨hfh, hfhB, hn, hent, hvesOr, hvesh, hmeta⟩ := hg
  have hentlen := length_flatten_serFDS fb.entries hent
  by_cases hvnil : fb.verification_entries = []
  · rcases hmx : fb.metadata_ext with _ | m
    · -- no verification entries, no metadata extension
      have hexp : serializeFileBlock fb = fb.file_hash ++ (writeU32 0 ++
          (writeU32 fb.entries.length ++ (List.replicate 8 0 ++
            (fb.entries.map serializeFileDataSequenceEntry).flatten))) := by
        unfold serializeFileBlock serializeFileDataSequenceHeader
        rw [hvnil, hmx]
        simp [List.append_assoc]
      have hL : (serializeFileBlock fb).length = 48 + 48 * fb.entries.length := by
        rw [hexp]
        simp only [List.length_append, List.length_replicate, length_writeU32, hfh, hentlen]
        omega
      rw [hexp] at hsplit
      simp only [List.append_assoc] at hsplit
      have hlen := drop_len data _ offset hsplit
      simp only [List.length_append, List.length_replicate, length_writeU32, hfh,
        hentlen] at hlen
      have h0 : (data.drop offset).take 32 = fb.file_hash := by
        rw [hsplit, take_pre _ _ 32 hfh]
      have d1 := drop_split data fb.file_hash _ offset 32 (offset + 32) hfh rfl hsplit
      have h32v := readU32_at data _ (offset + 32) _ (by norm_num) d1
      have d2 := drop_split data (writeU32 0) _ (offset + 32) 4 (offset + 36)
        (length_writeU32 _) (by omega) d1
      have h36v := readU32_at data _ (offset + 36) _ hn d2
      have d3 := drop_split data (writeU32 fb.entries.length) _ (offset + 36) 4 (offset + 40)
        (length_writeU32 _) (by omega) d2
      have d4 := drop_split data (List.replicate 8 0) _ (offset + 40) 8 (offset + 48)
        (List.length_replicate 8 0) (by omega) d3
      have hparse := parseFileEntriesN_split data fb.entries (offset + 48) tail hent d4
      have hmo : fbMetaOff data offset = offset + 48 + 48 * fb.entries.length := by
        unfold fbMetaOff
        rw [h32v, h36v]
        rw [if_neg (by decide)]
        omega
      have hno : fbNextOff data offset = offset + (serializeFileBlock fb).length := by
        unfold fbNextOff
        rw [h32v, hmo, hL]
        rw [if_neg (by decide)]
        omega
      have hfb2 : ({ file_hash := fb.file_hash
                     entries := fb.entries
                     verification_entries := []
                     metadata_ext := none } : FileBlock) = fb := by
        rw [← hvnil, ← hmx]
      rw [parseFileBlocks.eq_def]
      rw [dif_pos (show offset < data.length by omega)]
      rw [if_neg (show ¬ (offset + 48 > data.length) by omega)]
      rw [if_neg (show ¬ ((data.drop offset).take 32 = BOOKEND_HASH) by
        rw [h0]; exact hfhB)]
      rw [h36v, h32v, hparse]
      rw [if_neg (show ¬ ((0 : Nat) &&& FILE_FLAG_WITH_VERIFICATION ≠ 0) by decide)]
      rw [if_neg (show ¬ ((0 : Nat) &&& FILE_FLAG_WITH_METADATA_EXT ≠ 0) by decide)]
      rw [hno, hrec, h0]
      conv_rhs => rw [← hfb2]
    · -- no verification entries, metadata extension present
      have hm32 := hmeta m hmx
      have hexp : serializeFileBlock fb = fb.file_hash ++ (writeU32 2 ++
          (writeU32 fb.entries.length ++ (List.replicate 8 0 ++
            ((fb.entries.map serializeFileDataSequenceEntry).flatten ++
              (m.sha256_hash ++ List.replicate 16 0))))) := by
        unfold serializeFileBlock serializeFileDataSequenceHeader
        rw [hvnil, hmx]
        unfold serializeFileMetadataExt
        simp [List.append_assoc, FILE_FLAG_WITH_METADATA_EXT]
      have hL : (serializeFileBlock fb).length = 48 + 48 * fb.entries.length + 48 := by
        rw [hexp]
        simp only [List.length_append, List.length_replicate, length_writeU32, hfh,
          hentlen, hm32]
        omega
      rw [hexp] at hsplit
      simp only [List.append_assoc] at hsplit
      have hlen := drop_len data _ offset hsplit
      simp only [List.length_append, List.length_replicate, length_writeU32, hfh,
        hentlen, hm32] at hlen
      have h0 : (data.drop offset).take 32 = fb.file_hash := by
        rw [hsplit, take_pre _ _ 32 hfh]
      have d1 := drop_split data fb.file_hash _ offset 32 (offset + 32) hfh rfl hsplit
      have h32v := readU32_at data _ (offset + 32) _ (by norm_num) d1
      have d2 := drop_split data (writeU32 2) _ (offset + 32) 4 (offset + 36)
        (length_writeU32 _) (by omega) d1
      have h36v := readU32_at data _ (offset + 36) _ hn d2
      have d3 := drop_split data (writeU32 fb.entries.length) _ (offset + 36) 4 (offset + 40)
        (length_writeU32 _) (by omega) d2
      have d4 := drop_split data (List.replicate 8 0) _ (offset + 40) 8 (offset + 48)
        (List.length_replicate 8 0) (by omega) d3
      have hparse := parseFileEntriesN_split data fb.entries (offset + 48)
        (m.sha256_hash ++ List.replicate 16 0 ++ tail) hent (by
          rw [d4]; simp only [List.append_assoc])
      have d5 := drop_split data ((fb.entries.map serializeFileDataSequenceEntry).flatten) _
        (offset + 48) (48 * fb.entries.length) (offset + 48 + 48 * fb.entries.length)
        hentlen (by omega) d4
      have h6 : (data.drop (offset + 48 + 48 * fb.entries.length)).take 32 = m.sha256_hash := by
        rw [d5, take_pre _ _ 32 hm32]
      have hmo : fbMetaOff data offset = offset + 48 + 48 * fb.entries.length := by
        unfold fbMetaOff
        rw [h32v, h36v]
        rw [if_neg (by decide)]
        omega
      have hno : fbNextOff data offset = offset + (serializeFileBlock fb).length := by
        unfold fbNextOff
        rw [h32v, hmo, hL]
        rw [if_pos (by decide)]
        omega
      have hmm : ({ sha256_hash := m.sha256_hash } : FileMetadataExt) = m := rfl
      have hfb2 : ({ file_hash := fb.file_hash
                     entries := fb.entries
                     verification_entries := []
                     metadata_ext := some ({ sha256_hash := m.sha256_hash } :
                       FileMetadataExt) } : FileBlock) = fb := by
        rw [hmm, ← hvnil, ← hmx]
      rw [parseFileBlocks.eq_def]
      rw [dif_pos (show offset < data.length by omega)]
      rw [if_neg (show ¬ (offset + 48 > data.length) by omega)]
      rw [if_neg (show ¬ ((data.drop offset).take 32 = BOOKEND_HASH) by
        rw [h0]; exact hfhB)]
      rw [h36v, h32v, hparse]
      rw [if_neg (show ¬ ((2 : Nat) &&& FILE_FLAG_WITH_VERIFICATION ≠ 0) by decide)]
      rw [if_pos (show (2 : Nat) &&& FILE_FLAG_WITH_METADATA_EXT ≠ 0 by decide)]
      rw [hmo]
      rw [if_neg (show ¬ (offset + 48 + 48 * fb.entries.length + 48 > data.length) by omega)]
      rw [h6, hno, hrec, h0]
      conv_rhs => rw [← hfb2]
  · have hvlen : fb.verification_entries.length = fb.entries.length :=
      hvesOr.resolve_left hvnil
    have hvpos : 0 < fb.verification_entries.length := List.length_pos.mpr hvnil
    have hveslen := length_flatten_serVE fb.verification_entries hvesh
    rcases hmx : fb.metadata_ext with _ | m
    · -- verification entries, no metadata extension
      have hexp : serializeFileBlock fb = fb.file_hash ++ (writeU32 1 ++
          (writeU32 fb.entries.length ++ (List.replicate 8 0 ++
            ((fb.entries.map serializeFileDataSequenceEntry).flatten ++
              (fb.verification_entries.map serializeFileVerificationEntry).flatten)))) := by
        unfold serializeFileBlock serializeFileDataSequenceHeader
        rw [hmx]
        simp [List.append_assoc, FILE_FLAG_WITH_VERIFICATION, hvpos]
      have hL : (serializeFileBlock fb).length =
          48 + 48 * fb.entries.length + 48 * fb.entries.length := by
        rw [hexp]
        simp only [List.length_append, List.length_replicate, length_writeU32, hfh,
          hentlen, hveslen, hvlen]
        omega
      rw [hexp] at hsplit
      simp only [List.append_assoc] at hsplit
      have hlen := drop_len data _ offset hsplit
      simp only [List.length_append, List.length_replicate, length_writeU32, hfh,
        hentlen, hveslen, hvlen] at hlen
      have h0 : (data.drop offset).take 32 = fb.file_hash := by
        rw [hsplit, take_pre _ _ 32 hfh]
      have d1 := drop_split data fb.file_hash _ offset 32 (offset + 32) hfh rfl hsplit
      have h32v := readU32_at data _ (offset + 32) _ (by norm_num) d1
      have d2 := drop_split data (writeU32 1) _ (offset + 32) 4 (offset + 36)
        (length_writeU32 _) (by omega) d1
      have h36v := readU32_at data _ (offset + 36) _ hn d2
      have d3 := drop_split data (writeU32 fb.entries.length) _ (offset + 36) 4 (offset + 40)
        (length_writeU32 _) (by omega) d2
      have d4 := drop_split data (List.replicate 8 0) _ (offset + 40) 8 (offset + 48)
        (List.length_replicate 8 0) (by omega) d3
      have hparse := parseFileEntriesN_split data fb.entries (offset + 48)
        ((fb.verification_entries.map serializeFileVerificationEntry).flatten ++ tail)
        hent d4
      have d5 := drop_split data ((fb.entries.map serializeFileDataSequenceEntry).flatten) _
        (offset + 48) (48 * fb.entries.length) (offset + 48 + 48 * fb.entries.length)
        hentlen (by omega) d4
      have hvparse : parseVerifEntriesN data (offset + 48 + 48 * fb.entries.length)
          fb.entries.length = .ok fb.verification_entries := by
        have := parseVerifEntriesN_split data fb.verification_entries
          (offset + 48 + 48 * fb.entries.length) tail hvesh d5
        rw [hvlen] at this
        exact this
      have hmo : fbMetaOff data offset =
          offset + 48 + 48 * fb.entries.length + 48 * fb.entries.length := by
        unfold fbMetaOff
        rw [h32v, h36v]
        rw [if_pos (by decide)]
      have hno : fbNextOff data offset = offset + (serializeFileBlock fb).length := by
        unfold fbNextOff
        rw [h32v, hmo, hL]
        rw [if_neg (by decide)]
        omega
      have hfb2 : ({ file_hash := fb.file_hash
                     entries := fb.entries
                     verification_entries := fb.verification_entries
                     metadata_ext := none } : FileBlock) = fb := by
        rw [← hmx]
      rw [parseFileBlocks.eq_def]
      rw [dif_pos (show offset < data.length by omega)]
      rw [if_neg (show ¬ (offset + 48 > data.length) by omega)]
      rw [if_neg (show ¬ ((data.drop offset).take 32 = BOOKEND_HASH) by
        rw [h0]; exact hfhB)]
      rw [h36v, h32v, hparse]
      rw [if_pos (show (1 : Nat) &&& FILE_FLAG_WITH_VERIFICATION ≠ 0 by decide)]
      rw [hvparse]
      rw [if_neg (show ¬ ((1 : Nat) &&& FILE_FLAG_WITH_METADATA_EXT ≠ 0) by decide)]
      rw [hno, hrec, h0]
      conv_rhs => rw [← hfb2]
    · -- verification entries and metadata extension
      have hm32 := hmeta m hmx
      have hexp : serializeFileBlock fb = fb.file_hash ++ (writeU32 3 ++
          (writeU32 fb.entries.length ++ (List.replicate 8 0 ++
            ((fb.entries.map serializeFileDataSequenceEntry).flatten ++
              ((fb.verification_entries.map serializeFileVerificationEntry).flatten ++
                (m.sha256_hash ++ List.replicate 16 0)))))) := by
        unfold serializeFileBlock serializeFileDataSequenceHeader
        rw [hmx]
        unfold serializeFileMetadataExt
        simp [List.append_assoc, FILE_FLAG_WITH_VERIFICATION,
          FILE_FLAG_WITH_METADATA_EXT, hvpos]
      have hL : (serializeFileBlock fb).length =
          48 + 48 * fb.entries.length + 48 * fb.entries.length + 48 := by
        rw [hexp]
        simp only [List.length_append, List.length_replicate, length_writeU32, hfh,
          hentlen, hveslen, hvlen, hm32]
        omega
      rw [hexp] at hsplit
      simp only [List.append_assoc] at hsplit
      have hlen := drop_len data _ offset hsplit
      simp only [List.length_append, List.length_replicate, length_writeU32, hfh,
        hentlen, hveslen, hvlen, hm32] at hlen
      have h0 : (data.drop offset).take 32 = fb.file_hash := by
        rw [hsplit, take_pre _ _ 32 hfh]
      have d1 := drop_split data fb.file_hash _ offset 32 (offset + 32) hfh rfl hsplit
      have h32v := readU32_at data _ (offset + 32) _ (by norm_num) d1
      have d2 := drop_split data (writeU32 3) _ (offset + 32) 4 (offset + 36)
        (length_writeU32 _) (by omega) d1
      have h36v := readU32_at data _ (offset + 36) _ hn d2
      have d3 := drop_split data (writeU32 fb.entries.length) _ (offset + 36) 4 (offset + 40)
        (length_writeU32 _) (by omega) d2
      have d4 := drop_split data (List.replicate 8 0) _ (offset + 40) 8 (offset + 48)
        (List.length_replicate 8 0) (by omega) d3
      have hparse := parseFileEntriesN_split data fb.entries (offset + 48)
        ((fb.verification_entries.map serializeFileVerificationEntry).flatten ++
          (m.sha256_hash ++ List.replicate 16 0 ++ tail))
        hent (by rw [d4]; simp only [List.append_assoc])
      have d5 := drop_split data ((fb.entries.map serializeFileDataSequenceEntry).flatten) _
        (offset + 48) (48 * fb.entries.length) (offset + 48 + 48 * fb.entries.length)
        hentlen (by omega) d4
      have hvparse : parseVerifEntriesN data (offset + 48 + 48 * fb.entries.length)
          fb.entries.length = .ok fb.verification_entries := by
        have := parseVerifEntriesN_split data fb.verification_entries
          (offset + 48 + 48 * fb.entries.length)
          (m.sha256_hash ++ List.replicate 16 0 ++ tail) hvesh (by
            rw [d5]; simp only [List.append_assoc])
        rw [hvlen] at this
        exact this
      have d6 := drop_split data
        ((fb.verification_entries.map serializeFileVerificationEntry).flatten) _
        (offset + 48 + 48 * fb.entries.length) (48 * fb.entries.length)
        (offset + 48 + 48 * fb.entries.length + 48 * fb.entries.length)
        (by rw [hveslen, hvlen]) (by omega) d5
      have h6 : (data.drop
          (offset + 48 + 48 * fb.entries.length + 48 * fb.entries.length)).take 32 =
          m.sha256_hash := by
        rw [d6, take_pre _ _ 32 hm32]
      have hmo : fbMetaOff data offset =
          offset + 48 + 48 * fb.entries.length + 48 * fb.entries.length := by
        unfold fbMetaOff
        rw [h32v, h36v]
        rw [if_pos (by decide)]
      have hno : fbNextOff data offset = offset + (serializeFileBlock fb).length := by
        unfold fbNextOff
        rw [h32v, hmo, hL]
        rw [if_pos (by decide)]
        omega
      have hmm : ({ sha256_hash := m.sha256_hash } : FileMetadataExt) = m := rfl
      have hfb2 : ({ file_hash := fb.file_hash
                     entries := fb.entries
                     verification_entries := fb.verification_entries
                     metadata_ext := some ({ sha256_hash := m.sha256_hash } :
                       FileMetadataExt) } : FileBlock) = fb := by
        rw [hmm, ← hmx]
      rw [parseFileBlocks.eq_def]
      rw [dif_pos (show offset < data.length by omega)]
      rw [if_neg (show ¬ (offset + 48 > data.length) by omega)]
      rw [if_neg (show ¬ ((data.drop offset).take 32 = BOOKEND_HASH) by
        rw [h0]; exact hfhB)]
      rw [h36v, h32v, hparse]
      rw [if_pos (show (3 : Nat) &&& FILE_FLAG_WITH_VERIFICATION ≠ 0 by decide)]
      rw [hvparse]
      rw [if_pos (show (3 : Nat) &&& FILE_FLAG_WITH_METADATA_EXT ≠ 0 by decide)]
      rw [hmo]
      rw [if_neg (show ¬ (offset + 48 + 48 * fb.entries.length + 48 * fb.entries.length + 48 >
        data.length) by omega)]
      rw [h6, hno, hrec, h0]
      conv_rhs => rw [← hfb2]

theorem parseFileBlocks_split (data : Bytes) (fbs : List FileBlock) :
    ∀ (offset : Nat) (rest : Bytes), (∀ fb ∈ fbs, GoodFileBlock fb) →
    data.drop offset = (fbs.map serializeFileBlock).flatten ++ (serializeBookend ++ rest) →
    parseFileBlocks data offset = .ok (fbs, data.length - rest.length) := by
  induction fbs with
  | nil =>
    intro offset rest _ hsplit
    simp only [List.map_nil, List.flatten_nil, List.nil_append] at hsplit
    rw [show serializeBookend = BOOKEND_HASH ++ List.replicate 16 0 from rfl,
      List.append_assoc] at hsplit
    have hlen := drop_len data _ offset hsplit
    simp only [List.length_append, List.length_replicate, BOOKEND_HASH] at hlen
    rw [parseFileBlocks.eq_def]
    rw [dif_pos (show offset < data.length by omega)]
    rw [if_neg (show ¬ (offset + 48 > data.length) by omega)]
    rw [if_pos (show (data.drop offset).take 32 = BOOKEND_HASH by
      rw [hsplit, take_pre _ _ 32 (by simp [BOOKEND_HASH])])]
    rw [show offset + 48 = data.length - rest.length by omega]
  | cons fb fbs ih =>
    intro offset rest hgood hsplit
    rw [List.map_cons, List.flatten_cons, List.append_assoc] at hsplit
    exact parseFileBlock_head data fb offset _ fbs (data.length - rest.length)
      (hgood fb (by simp)) hsplit
      (ih (offset + (serializeFileBlock fb).length) rest
        (fun x hx => hgood x (by simp [hx]))
        (drop_split data (serializeFileBlock fb) _ offset
          (serializeFileBlock fb).length (offset + (serializeFileBlock fb).length)
          rfl rfl hsplit))

theorem parseCasBlock_head (data : Bytes) (cb : CASBlock) (offset : Nat) (tail : Bytes)
    (blocks : List CASBlock) (off2 : Nat) (hg : GoodCasBlock cb)
    (hsplit : data.drop offset = serializeCasBlock cb ++ tail)
    (hrec : parseCasBlocks data 0 (offset + (serializeCasBlock cb).length) =
      .ok (blocks, off2)) :
    parseCasBlocks data 0 offset = .ok (cb :: blocks, off2) := by
  obtain ⟨hch, hchB, hcf, hn, hent, hsum, hnb, hnd⟩ := hg
  have hentlen := length_flatten_serCE cb.entries hent
  have hexp : serializeCasBlock cb = cb.cas_hash ++ (writeU32 0 ++
      (writeU32 cb.entries.length ++ (writeU32 cb.num_bytes_in_cas ++
        (writeU32 cb.num_bytes_on_disk ++
          (cb.entries.map serializeCasChunkSequenceEntry).flatten)))) := by
    unfold serializeCasBlock serializeCasChunkSequenceHeader
    rw [← hsum]
    simp only [List.append_assoc]
  have hL : (serializeCasBlock cb).length = 48 + 48 * cb.entries.length := by
    rw [hexp]
    simp only [List.length_append, length_writeU32, hch, hentlen]
    omega
  rw [hexp] at hsplit
  simp only [List.append_assoc] at hsplit
  have hlen := drop_len data _ offset hsplit
  simp only [List.length_append, length_writeU32, hch, hentlen] at hlen
  have h0 : (data.drop offset).take 32 = cb.cas_hash := by
    rw [hsplit, take_pre _ _ 32 hch]
  have d1 := drop_split data cb.cas_hash _ offset 32 (offset + 32) hch rfl hsplit
  have h32v := readU32_at data _ (offset + 32) _ (by norm_num) d1
  have d2 := drop_split data (writeU32 0) _ (offset + 32) 4 (offset + 36)
    (length_writeU32 _) (by omega) d1
  have h36v := readU32_at data _ (offset + 36) _ hn d2
  have d3 := drop_split data (writeU32 cb.entries.length) _ (offset + 36) 4 (offset + 40)
    (length_writeU32 _) (by omega) d2
  have h40v := readU32_at data _ (offset + 40) _ hnb d3
  have d4 := drop_split data (writeU32 cb.num_bytes_in_cas) _ (offset + 40) 4 (offset + 44)
    (length_writeU32 _) (by omega) d3
  have h44v := readU32_at data _ (offset + 44) _ hnd d4
  have d5 := drop_split data (writeU32 cb.num_bytes_on_disk) _ (offset + 44) 4 (offset + 48)
    (length_writeU32 _) (by omega) d4
  have hparse := parseCasEntriesN_split data cb.entries (offset + 48) tail hent d5
  have harith : offset + 48 + 48 * cb.entries.length =
      offset + (serializeCasBlock cb).length := by
    rw [hL]
    omega
  have hcb2 : ({ cas_hash := cb.cas_hash
                 cas_flags := 0
                 entries := cb.entries
                 num_bytes_in_cas := cb.num_bytes_in_cas
                 num_bytes_on_disk := cb.num_bytes_on_disk } : CASBlock) = cb := by
    rw [← hcf]
  rw [parseCasBlocks.eq_def]
  rw [dif_pos (show offset < data.length by omega)]
  rw [if_neg (show ¬ ((0 : Nat) > 0 ∧
    (offset : Int) ≥ (data.length : Int) - ((0 : Nat) : Int)) by simp)]
  rw [if_neg (show ¬ (offset + 48 > data.length) by omega)]
  rw [if_neg (show ¬ ((data.drop offset).take 32 = BOOKEND_HASH) by
    rw [h0]; exact hchB)]
  rw [h36v, h32v, h40v, h44v, hparse, harith, hrec, h0]
  conv_rhs => rw [← hcb2]

theorem parseCasBlocks_split (data : Bytes) (cbs : List CASBlock) :
    ∀ (offset : Nat) (rest : Bytes), (∀ cb ∈ cbs, GoodCasBlock cb) →
    data.drop offset = (cbs.map serializeCasBlock).flatten ++ (serializeBookend ++ rest) →
    parseCasBlocks data 0 offset = .ok (cbs, data.length - rest.length) := by
  induction cbs with
  | nil =>
    intro offset rest _ hsplit
    simp only [List.map_nil, List.flatten_nil, List.nil_append] at hsplit
    rw [show serializeBookend = BOOKEND_HASH ++ List.replicate 16 0 from rfl,
      List.append_assoc] at hsplit
    have hlen := drop_len data _ offset hsplit
    simp only [List.length_append, List.length_replicate, BOOKEND_HASH] at hlen
    rw [parseCasBlocks.eq_def]
    rw [dif_pos (show offset < data.length by omega)]
    rw [if_neg (show ¬ ((0 : Nat) > 0 ∧
      (offset : Int) ≥ (data.length : Int) - ((0 : Nat) : Int)) by simp)]
    rw [if_neg (show ¬ (offset + 48 > data.length) by omega)]
    rw [if_pos (show (data.drop offset).take 32 = BOOKEND_HASH by
      rw [hsplit, take_pre _ _ 32 (by simp [BOOKEND_HASH])])]
    rw [show offset + 48 = data.length - rest.length by omega]
  | cons cb cbs ih =>
    intro offset rest hgood hsplit
    rw [List.map_cons, List.flatten_cons, List.append_assoc] at hsplit
    exact parseCasBlock_head data cb offset _ cbs (data.length - rest.length)
      (hgood cb (by simp)) hsplit
      (ih (offset + (serializeCasBlock cb).length) rest
        (fun x hx => hgood x (by simp [hx]))
        (drop_split data (serializeCasBlock cb) _ offset
          (serializeCasBlock cb).length (offset + (serializeCasBlock cb).length)
          rfl rfl hsplit))

/-- Core shard round trip: a serialized upload shard (with any trailing
junk) deserializes back to the shard, for any 32-byte header tag. -/
theorem deserializeShard_roundtrip (tag : Bytes) (htag : tag.length = 32) (s : Shard)
    (hfb : ∀ fb ∈ s.file_blocks, GoodFileBlock fb)
    (hcb : ∀ cb ∈ s.cas_blocks, GoodCasBlock cb) (hft : s.footer = none) (junk : Bytes) :
    deserializeShard tag (serializeShardForUpload tag s ++ junk) = .ok s := by
  have hdata : serializeShardForUpload tag s ++ junk =
      tag ++ (writeU64 2 ++ (writeU64 0 ++
        ((s.file_blocks.map serializeFileBlock).flatten ++ (serializeBookend ++
          ((s.cas_blocks.map serializeCasBlock).flatten ++
            (serializeBookend ++ junk)))))) := by
    unfold serializeShardForUpload serializeShardHeader
    simp only [List.append_assoc]
  have h00 : (serializeShardForUpload tag s ++ junk).drop 0 =
      tag ++ (writeU64 2 ++ (writeU64 0 ++
        ((s.file_blocks.map serializeFileBlock).flatten ++ (serializeBookend ++
          ((s.cas_blocks.map serializeCasBlock).flatten ++
            (serializeBookend ++ junk)))))) := by
    rw [List.drop_zero, hdata]
  have hlen0 := drop_len _ _ 0 h00
  simp only [List.length_append, length_writeU64, List.length_replicate, htag,
    show serializeBookend.length = 48 from rfl, Nat.sub_zero] at hlen0
  have d1 := drop_split _ tag _ 0 32 32 htag (by omega) h00
  have hv := readU64_at _ _ 32 2 (by norm_num) d1
  have d2 := drop_split _ (writeU64 2) _ 32 8 40 (length_writeU64 2) (by omega) d1
  have hfs := readU64_at _ _ 40 0 (by norm_num) d2
  have d3 := drop_split _ (writeU64 0) _ 40 8 48 (length_writeU64 0) (by omega) d2
  have hfileParse := parseFileBlocks_split (serializeShardForUpload tag s ++ junk)
    s.file_blocks 48
    ((s.cas_blocks.map serializeCasBlock).flatten ++ (serializeBookend ++ junk))
    hfb d3
  have d4 := drop_split _ ((s.file_blocks.map serializeFileBlock).flatten) _ 48
    ((s.file_blocks.map serializeFileBlock).flatten).length
    (48 + ((s.file_blocks.map serializeFileBlock).flatten).length) rfl (by omega) d3
  have d5 := drop_split _ serializeBookend _
    (48 + ((s.file_blocks.map serializeFileBlock).flatten).length) 48
    (48 + ((s.file_blocks.map serializeFileBlock).flatten).length + 48)
    rfl (by omega) d4
  have hcasParse := parseCasBlocks_split (serializeShardForUpload tag s ++ junk)
    s.cas_blocks (48 + ((s.file_blocks.map serializeFileBlock).flatten).length + 48)
    junk hcb d5
  have hoff1 : (serializeShardForUpload tag s ++ junk).length -
      ((s.cas_blocks.map serializeCasBlock).flatten ++ (serializeBookend ++ junk)).length =
      48 + ((s.file_blocks.map serializeFileBlock).flatten).length + 48 := by
    simp only [List.length_append, show serializeBookend.length = 48 from rfl]
    omega
  rw [hoff1] at hfileParse
  have htake : (serializeShardForUpload tag s ++ junk).take 32 = tag := by
    rw [hdata, take_pre _ _ 32 htag]
  have hs2 : ({ file_blocks := s.file_blocks
                cas_blocks := s.cas_blocks
                footer := none } : Shard) = s := by
    rw [← hft]
  have hfooter : parseFooter (serializeShardForUpload tag s ++ junk) 0 = .ok none := by
    unfold parseFooter
    rw [if_pos rfl]
  unfold deserializeShard
  rw [if_neg (show ¬ ((serializeShardForUpload tag s ++ junk).length < 48) by omega)]
  rw [if_neg (show ¬ ((serializeShardForUpload tag s ++ junk).take 32 ≠ tag) by
    rw [htake]; simp)]
  rw [hv]
  rw [if_neg (show ¬ ((2 : Nat) ≠ 2) by simp)]
  simp only [hfileParse, hfs, hcasParse, hfooter, hs2]

/-! ### ShardBuilder invariants -/

/-- Per-call value bounds matching the documented `ShardBuilder` API
(32-byte hashes, u32-range counts and sizes, one verification hash per term
or none). -/
def GoodShardOp : ShardOp → Prop
  | .file fh terms vhs sha =>
      fh.length = 32 ∧ fh ≠ BOOKEND_HASH ∧ terms.length < 2 ^ 32 ∧
      (∀ e ∈ terms, GoodFDS e) ∧ (vhs = [] ∨ vhs.length = terms.length) ∧
      (∀ h ∈ vhs, h.length = 32) ∧
      sha.elim True (fun h0 => h0 ≠ [] → h0.length = 32)
  | .cas ch chs szs ss _ =>
      ch.length = 32 ∧ ch ≠ BOOKEND_HASH ∧ (chs.zip szs).length < 2 ^ 32 ∧
      (∀ h ∈ chs, h.length = 32) ∧ szs.sum < 2 ^ 32 ∧ ss < 2 ^ 32

instance : (sha : Option Bytes) →
    Decidable (sha.elim True (fun h0 => h0 ≠ [] → h0.length = 32))
  | none => .isTrue trivial
  | some h0 => inferInstanceAs (Decidable (h0 ≠ [] → h0.length = 32))

instance : (op : ShardOp) → Decidable (GoodShardOp op)
  | .file fh terms vhs sha =>
    inferInstanceAs (Decidable (_ ∧ _ ∧ _ ∧ _ ∧ _ ∧ _ ∧ _))
  | .cas ch chs szs ss de =>
    inferInstanceAs (Decidable (_ ∧ _ ∧ _ ∧ _ ∧ _ ∧ _))

theorem buildCasEntries_unpacked (de : Option (List Bool)) :
    ∀ (pairs : List (Bytes × Nat)) (i off : Nat),
    (buildCasEntries de pairs i off).map CASChunkSequenceEntry.unpacked_segment_bytes =
      pairs.map Prod.snd := by
  intro pairs
  induction pairs with
  | nil => intro i off; rfl
  | cons p rest ih =>
    intro i off
    unfold buildCasEntries
    simp only [List.map_cons, ih]

theorem buildCasEntries_length (de : Option (List Bool)) (pairs : List (Bytes × Nat))
    (i off : Nat) : (buildCasEntries de pairs i off).length = pairs.length := by
  have := congrArg List.length (buildCasEntries_unpacked de pairs i off)
  simpa using this

theorem buildCasEntries_mem (de : Option (List Bool)) :
    ∀ (pairs : List (Bytes × Nat)) (i off : Nat) (e : CASChunkSequenceEntry),
    e ∈ buildCasEntries de pairs i off →
    (∃ p ∈ pairs, e.chunk_hash = p.1 ∧ e.unpacked_segment_bytes = p.2) ∧
    off ≤ e.chunk_byte_range_start ∧
    e.chunk_byte_range_start + e.unpacked_segment_bytes ≤ off + (pairs.map Prod.snd).sum ∧
    (e.flags = 0 ∨ e.flags = CHUNK_FLAG_GLOBAL_DEDUP_ELIGIBLE) := by
  intro pairs
  induction pairs with
  | nil => intro i off e he; cases he
  | cons p rest ih =>
    intro i off e he
    unfold buildCasEntries at he
    rcases List.mem_cons.mp he with h | h
    · subst h
      refine ⟨⟨p, by simp, rfl, rfl⟩, le_refl _, ?_, ?_⟩
      · simp only [List.map_cons, List.sum_cons]
        omega
      · dsimp only
        split
        · right; rfl
        · left; rfl
    · obtain ⟨⟨q, hq, hq1, hq2⟩, hoff, hbound, hflags⟩ := ih (i + 1) (off + p.2) e h
      refine ⟨⟨q, by simp [hq], hq1, hq2⟩, by omega, ?_, hflags⟩
      simp only [List.map_cons, List.sum_cons]
      omega

theorem zip_snd_sum_le (l1 : List Bytes) : ∀ (l2 : List Nat),
    ((l1.zip l2).map Prod.snd).sum ≤ l2.sum := by
  induction l1 with
  | nil => intro l2; simp
  | cons x xs ih =>
    intro l2
    cases l2 with
    | nil => simp
    | cons y ys =>
      simp only [List.zip_cons_cons, List.map_cons, List.sum_cons]
      have := ih ys
      omega

theorem applyShardOp_good (b : ShardBuilderState) (op : ShardOp)
    (hb : (∀ fb ∈ b.file_blocks, GoodFileBlock fb) ∧
          (∀ cb ∈ b.cas_blocks, GoodCasBlock cb))
    (hop : GoodShardOp op) :
    (∀ fb ∈ (applyShardOp b op).file_blocks, GoodFileBlock fb) ∧
    (∀ cb ∈ (applyShardOp b op).cas_blocks, GoodCasBlock cb) := by
  cases op with
  | file fh terms vhs sha =>
    obtain ⟨h1, h2, h3, h4, h5, h6, h7⟩ := hop
    constructor
    · intro fb hfb
      unfold applyShardOp shardAddFile at hfb
      dsimp only at hfb
      rcases List.mem_append.mp hfb with h | h
      · exact hb.1 fb h
      · have hfb2 : fb = _ := List.mem_singleton.mp h
        subst hfb2
        refine ⟨h1, h2, h3, h4, ?_, ?_, ?_⟩
        · rcases h5 with h5 | h5
          · left; rw [h5]; rfl
          · right
            dsimp only
            rw [List.length_map, h5]
        · intro v hv
          dsimp only at hv
          obtain ⟨h0, hh0, hveq⟩ := List.mem_map.mp hv
          rw [← hveq]
          exact h6 h0 hh0
        · intro m hm
          dsimp only at hm
          rcases hsha : sha with _ | h0
          · rw [hsha] at hm
            have hm2 : (none : Option FileMetadataExt) = some m := hm
            cases hm2
          · rw [hsha] at hm
            rw [hsha] at h7
            have h7b : h0 ≠ [] → h0.length = 32 := h7
            have hm2 : (if h0 = [] then none
                else some ({ sha256_hash := h0 } : FileMetadataExt)) = some m := hm
            by_cases hnil : h0 = []
            · rw [if_pos hnil] at hm2; cases hm2
            · rw [if_neg hnil] at hm2
              have := Option.some.inj hm2
              rw [← this]
              exact h7b hnil
    · intro cb hcb
      unfold applyShardOp shardAddFile at hcb
      exact hb.2 cb hcb
  | cas ch chs szs ss de =>
    obtain ⟨h1, h2, h3, h4, h5, h6⟩ := hop
    constructor
    · intro fb hfb
      unfold applyShardOp shardAddCasBlock at hfb
      dsimp only at hfb
      by_cases hmem : ch ∈ b.cas_hashes
      · rw [if_pos hmem] at hfb
        exact hb.1 fb hfb
      · rw [if_neg hmem] at hfb
        exact hb.1 fb hfb
    · intro cb hcb
      unfold applyShardOp shardAddCasBlock at hcb
      dsimp only at hcb
      by_cases hmem : ch ∈ b.cas_hashes
      · rw [if_pos hmem] at hcb
        exact hb.2 cb hcb
      · rw [if_neg hmem] at hcb
        dsimp only at hcb
        rcases List.mem_append.mp hcb with h | h
        · exact hb.2 cb h
        · have hcb2 : cb = _ := List.mem_singleton.mp h
          subst hcb2
          have hsum := zip_snd_sum_le chs szs
          refine ⟨h1, h2, rfl, ?_, ?_, ?_, ?_, h6⟩
          · dsimp only
            rw [buildCasEntries_length]
            exact h3
          · intro e he
            dsimp only at he
            obtain ⟨⟨p, hp, hp1, hp2⟩, hoff, hbound, hflags⟩ :=
              buildCasEntries_mem de (chs.zip szs) 0 0 e he
            have hfst : p.1 ∈ chs := (List.of_mem_zip hp).1
            refine ⟨by rw [hp1]; exact h4 p.1 hfst, by omega, by omega, ?_⟩
            rcases hflags with h | h <;> rw [h]
            · omega
            · unfold CHUNK_FLAG_GLOBAL_DEDUP_ELIGIBLE
              norm_num
          · dsimp only
            rw [buildCasEntries_unpacked]
          · dsimp only
            omega

theorem runShardOps_good (ops : List ShardOp) (hops : ∀ op ∈ ops, GoodShardOp op) :
    (∀ fb ∈ (runShardOps ops).file_blocks, GoodFileBlock fb) ∧
    (∀ cb ∈ (runShardOps ops).cas_blocks, GoodCasBlock cb) := by
  unfold runShardOps
  have hgen : ∀ (l : List ShardOp) (b : ShardBuilderState),
      (∀ op ∈ l, GoodShardOp op) →
      (∀ fb ∈ b.file_blocks, GoodFileBlock fb) →
      (∀ cb ∈ b.cas_blocks, GoodCasBlock cb) →
      (∀ fb ∈ (l.foldl applyShardOp b).file_blocks, GoodFileBlock fb) ∧
      (∀ cb ∈ (l.foldl applyShardOp b).cas_blocks, GoodCasBlock cb) := by
    intro l
    induction l with
    | nil => intro b _ hf hc; exact ⟨hf, hc⟩
    | cons op rest ih =>
      intro b hl hf hc
      rw [List.foldl_cons]
      have := applyShardOp_good b op ⟨hf, hc⟩ (hl op (by simp))
      exact ih (applyShardOp b op) (fun x hx => hl x (by simp [hx])) this.1 this.2
  exact hgen ops shardBuilderInit hops (by intro fb h; cases h) (by intro cb h; cases h)

theorem applyShardOp_nodup (b : ShardBuilderState) (op : ShardOp)
    (h1 : (b.cas_blocks.map CASBlock.cas_hash).Nodup)
    (h2 : ∀ h ∈ b.cas_blocks.map CASBlock.cas_hash, h ∈ b.cas_hashes) :
    ((applyShardOp b op).cas_blocks.map CASBlock.cas_hash).Nodup ∧
    (∀ h ∈ (applyShardOp b op).cas_blocks.map CASBlock.cas_hash,
      h ∈ (applyShardOp b op).cas_hashes) := by
  cases op with
  | file fh t vh sh => exact ⟨h1, h2⟩
  | cas ch chs szs ss de =>
    by_cases hmem : ch ∈ b.cas_hashes
    · have heq : applyShardOp b (ShardOp.cas ch chs szs ss de) = b := by
        unfold applyShardOp shardAddCasBlock
        dsimp only
        rw [if_pos hmem]
      rw [heq]
      exact ⟨h1, h2⟩
    · have heq : applyShardOp b (ShardOp.cas ch chs szs ss de) =
        { file_blocks := b.file_blocks
          cas_blocks := b.cas_blocks ++
            [{ cas_hash := ch
               cas_flags := 0
               entries := buildCasEntries de (chs.zip szs) 0 0
               num_bytes_in_cas := ((chs.zip szs).map Prod.snd).sum
               num_bytes_on_disk := ss }]
          cas_hashes := ch :: b.cas_hashes } := by
        unfold applyShardOp shardAddCasBlock
        dsimp only
        rw [if_neg hmem]
      rw [heq]
      constructor
      · dsimp only
        rw [List.map_append]
        rw [List.nodup_append]
        refine ⟨h1, by simp, ?_⟩
        intro a ha hb
        simp only [List.map_cons, List.map_nil, List.mem_singleton] at hb
        subst hb
        exact hmem (h2 a ha)
      · intro h hmem2
        dsimp only at hmem2 ⊢
        rw [List.map_append] at hmem2
        rcases List.mem_append.mp hmem2 with h' | h'
        · exact List.mem_cons_of_mem ch (h2 h h')
        · simp only [List.map_cons, List.map_nil, List.mem_singleton] at h'
          subst h'
          exact List.mem_cons_self _ _

theorem runShardOps_nodup (ops : List ShardOp) :
    ((runShardOps ops).cas_blocks.map CASBlock.cas_hash).Nodup := by
  unfold runShardOps
  have hgen : ∀ (l : List ShardOp) (b : ShardBuilderState),
      (b.cas_blocks.map CASBlock.cas_hash).Nodup →
      (∀ h ∈ b.cas_blocks.map CASBlock.cas_hash, h ∈ b.cas_hashes) →
      ((l.foldl applyShardOp b).cas_blocks.map CASBlock.cas_hash).Nodup := by
    intro l
    induction l with
    | nil => intro b hx _; exact hx
    | cons op rest ih =>
      intro b hx hy
      rw [List.foldl_cons]
      have hstep := applyShardOp_nodup b op hx hy
      exact ih _ hstep.1 hstep.2
  exact hgen ops shardBuilderInit (by simp [shardBuilderInit]) (by simp [shardBuilderInit])

/-! ### Claim theorems for the shard format -/

def c4Tag : Bytes := List.replicate 32 1

def c4Ops : List ShardOp :=
  [ShardOp.file (List.replicate 32 2)
      [{ cas_hash := List.replicate 32 3, cas_flags := 0, unpacked_segment_bytes := 5,
         chunk_index_start := 0, chunk_index_end := 1 }]
      [List.replicate 32 4] (some (List.replicate 32 5)),
   ShardOp.cas (List.replicate 32 3) [List.replicate 32 6] [5] 13 (some [true])]

/-- C4: for every shard built by `ShardBuilder` from calls within the
documented API bounds (32-byte hashes distinct from the bookend marker,
u32-range counts/sizes, one verification hash per term or none), and any
32-byte header tag, `deserialize_shard (serialize_shard_for_upload s)`
returns exactly the built shard: same file blocks (hash, reconstruction
entries, verification entries, metadata extension) and same CAS blocks
(hash, per-chunk entries with byte offsets, sizes and flags), in order. -/
theorem shardBuilder_roundtrip (tag : Bytes) (htag : tag.length = 32)
    (ops : List ShardOp) (hops : ∀ op ∈ ops, GoodShardOp op) :
    deserializeShard tag
        (serializeShardForUpload tag (shardBuilderBuild (runShardOps ops))) =
      .ok (shardBuilderBuild (runShardOps ops)) := by
  have hg := runShardOps_good ops hops
  have h := deserializeShard_roundtrip tag htag (shardBuilderBuild (runShardOps ops))
    hg.1 hg.2 rfl []
  rwa [List.append_nil] at h

theorem shardBuilder_roundtrip_witness :
    c4Tag.length = 32 ∧ (∀ op ∈ c4Ops, GoodShardOp op) ∧
    deserializeShard c4Tag
        (serializeShardForUpload c4Tag (shardBuilderBuild (runShardOps c4Ops))) =
      .ok (shardBuilderBuild (runShardOps c4Ops)) :=
  ⟨by decide, by decide, shardBuilder_roundtrip c4Tag (by decide) c4Ops (by decide)⟩

theorem parseFileEntriesN_truncated (data : Bytes) :
    ∀ (n offset : Nat), 0 < n → offset + 48 * n > data.length →
    parseFileEntriesN data offset n = .error .truncated := by
  intro n
  induction n with
  | zero => intro offset h _; exact absurd h (by omega)
  | succ m ih =>
    intro offset _ hgt
    simp only [parseFileEntriesN]
    by_cases hg : offset + 48 > data.length
    · rw [if_pos hg]
    · rw [if_neg hg]
      rw [ih (offset + 48) (by omega) (by omega)]

theorem parseFileEntriesN_ok (data : Bytes) :
    ∀ (n offset : Nat), offset + 48 * n ≤ data.length →
    ∃ l, parseFileEntriesN data offset n = .ok l := by
  intro n
  induction n with
  | zero => intro offset _; exact ⟨[], rfl⟩
  | succ m ih =>
    intro offset hle
    obtain ⟨l, hl⟩ := ih (offset + 48) (by omega)
    have hstep : parseFileEntriesN data offset (m + 1) =
        .ok ({ cas_hash := (data.drop offset).take 32
               cas_flags := readU32 data (offset + 32)
               unpacked_segment_bytes := readU32 data (offset + 36)
               chunk_index_start := readU32 data (offset + 40)
               chunk_index_end := readU32 data (offset + 44) } :: l) := by
      simp only [parseFileEntriesN]
      rw [if_neg (by omega), hl]
    exact ⟨_, hstep⟩

theorem parseVerifEntriesN_truncated (data : Bytes) :
    ∀ (n offset : Nat), 0 < n → offset + 48 * n > data.length →
    parseVerifEntriesN data offset n = .error .truncated := by
  intro n
  induction n with
  | zero => intro offset h _; exact absurd h (by omega)
  | succ m ih =>
    intro offset _ hgt
    simp only [parseVerifEntriesN]
    by_cases hg : offset + 48 > data.length
    · rw [if_pos hg]
    · rw [if_neg hg]
      rw [ih (offset + 48) (by omega) (by omega)]

theorem parseVerifEntriesN_ok (data : Bytes) :
    ∀ (n offset : Nat), offset + 48 * n ≤ data.length →
    ∃ l, parseVerifEntriesN data offset n = .ok l := by
  intro n
  induction n with
  | zero => intro offset _; exact ⟨[], rfl⟩
  | succ m ih =>
    intro offset hle
    obtain ⟨l, hl⟩ := ih (offset + 48) (by omega)
    have hstep : parseVerifEntriesN data offset (m + 1) =
        .ok ({ range_hash := (data.drop offset).take 32 } :: l) := by
      simp only [parseVerifEntriesN]
      rw [if_neg (by omega), hl]
    exact ⟨_, hstep⟩

theorem parseCasEntriesN_truncated (data : Bytes) :
    ∀ (n offset : Nat), 0 < n → offset + 48 * n > data.length →
    parseCasEntriesN data offset n = .error .truncated := by
  intro n
  induction n with
  | zero => intro offset h _; exact absurd h (by omega)
  | succ m ih =>
    intro offset _ hgt
    simp only [parseCasEntriesN]
    by_cases hg : offset + 48 > data.length
    · rw [if_pos hg]
    · rw [if_neg hg]
      rw [ih (offset + 48) (by omega) (by omega)]

/-- C5 (amended): `deserialize_shard` is total with the stated error kinds:
it fails with `truncated` on inputs shorter than the 48-byte header and
whenever any 48-byte record the parse reaches would read past the end of
the buffer — a file-block header or bookend, a reconstruction entry, a
verification entry, the metadata extension, a CAS-block header or bookend,
or a CAS chunk entry (each stage's truncation error becoming the result of
`deserialize_shard`) — with `badMagic` when the first 32 bytes differ from
the tag, with `unsupportedVersion` when the header version is not 2, and
every successfully parsed input passes all three header checks.  (The
original claim's "no other malformed shape is accepted" is refuted
separately: trailing bytes after the CAS-section bookend are ignored.) -/
theorem deserializeShard_errors (tag data : Bytes) :
    (data.length < 48 → deserializeShard tag data = .error .truncated) ∧
    (data.length ≥ 48 → data.take 32 ≠ tag →
      deserializeShard tag data = .error .badMagic) ∧
    (data.length ≥ 48 → data.take 32 = tag → readU64 data 32 ≠ 2 →
      deserializeShard tag data = .error .unsupportedVersion) ∧
    (∀ s, deserializeShard tag data = .ok s →
      48 ≤ data.length ∧ data.take 32 = tag ∧ readU64 data 32 = 2) ∧
    (∀ offset, offset < data.length → offset + 48 > data.length →
      parseFileBlocks data offset = .error .truncated) ∧
    (∀ offset, offset + 48 ≤ data.length →
      (data.drop offset).take 32 ≠ BOOKEND_HASH →
      0 < readU32 data (offset + 36) →
      offset + 48 + 48 * readU32 data (offset + 36) > data.length →
      parseFileBlocks data offset = .error .truncated) ∧
    (∀ offset, offset + 48 ≤ data.length →
      (data.drop offset).take 32 ≠ BOOKEND_HASH →
      readU32 data (offset + 32) &&& FILE_FLAG_WITH_VERIFICATION ≠ 0 →
      0 < readU32 data (offset + 36) →
      offset + 48 + 48 * readU32 data (offset + 36) ≤ data.length →
      offset + 48 + 48 * readU32 data (offset + 36) +
        48 * readU32 data (offset + 36) > data.length →
      parseFileBlocks data offset = .error .truncated) ∧
    (∀ offset, offset + 48 ≤ data.length →
      (data.drop offset).take 32 ≠ BOOKEND_HASH →
      readU32 data (offset + 32) &&& FILE_FLAG_WITH_METADATA_EXT ≠ 0 →
      offset + 48 + 48 * readU32 data (offset + 36) ≤ data.length →
      (readU32 data (offset + 32) &&& FILE_FLAG_WITH_VERIFICATION ≠ 0 →
        offset + 48 + 48 * readU32 data (offset + 36) +
          48 * readU32 data (offset + 36) ≤ data.length) →
      fbMetaOff data offset + 48 > data.length →
      parseFileBlocks data offset = .error .truncated) ∧
    (∀ (fs offset : Nat), offset < data.length →
      ¬ (fs > 0 ∧ (offset : Int) ≥ (data.length : Int) - (fs : Int)) →
      offset + 48 > data.length →
      parseCasBlocks data fs offset = .error .truncated) ∧
    (∀ (fs offset : Nat), offset + 48 ≤ data.length →
      ¬ (fs > 0 ∧ (offset : Int) ≥ (data.length : Int) - (fs : Int)) →
      (data.drop offset).take 32 ≠ BOOKEND_HASH →
      0 < readU32 data (offset + 36) →
      offset + 48 + 48 * readU32 data (offset + 36) > data.length →
      parseCasBlocks data fs offset = .error .truncated) ∧
    (∀ e, 48 ≤ data.length → data.take 32 = tag → readU64 data 32 = 2 →
      parseFileBlocks data 48 = .error e → deserializeShard tag data = .error e) ∧
    (∀ e fbs off1, 48 ≤ data.length → data.take 32 = tag → readU64 data 32 = 2 →
      parseFileBlocks data 48 = .ok (fbs, off1) →
      parseCasBlocks data (readU64 data 40) off1 = .error e →
      deserializeShard tag data = .error e) := by
  refine ⟨?_, ?_, ?_, ?_, ?_, ?_, ?_, ?_, ?_, ?_, ?_, ?_⟩
  · intro h
    unfold deserializeShard
    rw [if_pos h]
  · intro h1 h2
    unfold deserializeShard
    rw [if_neg (by omega), if_pos h2]
  · intro h1 h2 h3
    unfold deserializeShard
    rw [if_neg (by omega), if_neg (by simp [h2]), if_pos h3]
  · intro s hs
    unfold deserializeShard at hs
    by_cases h1 : data.length < 48
    · rw [if_pos h1] at hs
      exact (Except.noConfusion hs)
    rw [if_neg h1] at hs
    by_cases h2 : data.take 32 ≠ tag
    · rw [if_pos h2] at hs
      exact (Except.noConfusion hs)
    rw [if_neg h2] at hs
    by_cases h3 : readU64 data 32 ≠ 2
    · rw [if_pos h3] at hs
      exact (Except.noConfusion hs)
    exact ⟨by omega, not_not.mp h2, not_not.mp h3⟩
  · intro offset h1 h2
    rw [parseFileBlocks.eq_def]
    rw [dif_pos h1, if_pos h2]
  · intro offset h1 h2 h3 h4
    rw [parseFileBlocks.eq_def]
    rw [dif_pos (by omega), if_neg (by omega), if_neg h2]
    rw [parseFileEntriesN_truncated data (readU32 data (offset + 36)) (offset + 48)
      h3 (by omega)]
  · intro offset h1 h2 hflag h3 h4 h5
    rw [parseFileBlocks.eq_def]
    rw [dif_pos (by omega), if_neg (by omega), if_neg h2]
    obtain ⟨l, hl⟩ := parseFileEntriesN_ok data (readU32 data (offset + 36))
      (offset + 48) (by omega)
    rw [hl, if_pos hflag]
    rw [parseVerifEntriesN_truncated data (readU32 data (offset + 36))
      (offset + 48 + 48 * readU32 data (offset + 36)) h3 (by omega)]
  · intro offset h1 h2 hmflag h3 hverif h4
    rw [parseFileBlocks.eq_def]
    rw [dif_pos (by omega), if_neg (by omega), if_neg h2]
    obtain ⟨l, hl⟩ := parseFileEntriesN_ok data (readU32 data (offset + 36))
      (offset + 48) (by omega)
    rw [hl]
    by_cases hvf : readU32 data (offset + 32) &&& FILE_FLAG_WITH_VERIFICATION ≠ 0
    · obtain ⟨lv, hlv⟩ := parseVerifEntriesN_ok data (readU32 data (offset + 36))
        (offset + 48 + 48 * readU32 data (offset + 36)) (by
          have := hverif hvf
          omega)
      rw [if_pos hvf, hlv, if_pos hmflag, if_pos h4]
    · rw [if_neg hvf, if_pos hmflag, if_pos h4]
  · intro fs offset h1 h2 h3
    rw [parseCasBlocks.eq_def]
    rw [dif_pos h1, if_neg h2, if_pos h3]
  · intro fs offset h1 h2 h3 h4 h5
    rw [parseCasBlocks.eq_def]
    rw [dif_pos (by omega), if_neg h2, if_neg (by omega), if_neg h3]
    rw [parseCasEntriesN_truncated data (readU32 data (offset + 36)) (offset + 48)
      h4 (by omega)]
  · intro e h1 h2 h3 h4
    unfold deserializeShard
    rw [if_neg (by omega), if_neg (by simp [h2]), if_neg (by simp [h3]), h4]
  · intro e fbs off1 h1 h2 h3 h4 h5
    unfold deserializeShard
    rw [if_neg (by omega), if_neg (by simp [h2]), if_neg (by simp [h3])]
    simp only [h4, h5]

/-- Witness data: a valid 48-byte header followed by a single stray byte —
the file-section loop runs but its first 48-byte record crosses the end. -/
def c5ShortRecord : Bytes :=
  List.replicate 32 1 ++ writeU64 2 ++ writeU64 0 ++ [0]

/-- Witness data: a valid header and a file-block header declaring one
reconstruction entry, with no bytes behind it. -/
def c5ShortEntries : Bytes :=
  List.replicate 32 1 ++ writeU64 2 ++ writeU64 0 ++
    (List.replicate 32 9 ++ writeU32 0 ++ writeU32 1 ++ List.replicate 8 0)

theorem deserializeShard_errors_witness :
    deserializeShard (List.replicate 32 1) [] = .error .truncated ∧
    deserializeShard (List.replicate 32 1) (List.replicate 48 0) = .error .badMagic ∧
    deserializeShard (List.replicate 32 1)
        (List.replicate 32 1 ++ List.replicate 16 0) = .error .unsupportedVersion ∧
    deserializeShard (List.replicate 32 1) c5ShortRecord = .error .truncated ∧
    deserializeShard (List.replicate 32 1) c5ShortEntries = .error .truncated :=
  ⟨(deserializeShard_errors (List.replicate 32 1) []).1 (by decide),
   (deserializeShard_errors (List.replicate 32 1) (List.replicate 48 0)).2.1
     (by decide) (by decide),
   (deserializeShard_errors (List.replicate 32 1)
       (List.replicate 32 1 ++ List.replicate 16 0)).2.2.1
     (by decide) (by decide) (by decide),
   (deserializeShard_errors (List.replicate 32 1) c5ShortRecord).2.2.2.2.2.2.2.2.2.2.1
     ShardErr.truncated (by decide) (by decide) (by decide)
     ((deserializeShard_errors (List.replicate 32 1) c5ShortRecord).2.2.2.2.1
       48 (by decide) (by decide)),
   (deserializeShard_errors (List.replicate 32 1) c5ShortEntries).2.2.2.2.2.2.2.2.2.2.1
     ShardErr.truncated (by decide) (by decide) (by decide)
     ((deserializeShard_errors (List.replicate 32 1) c5ShortEntries).2.2.2.2.2.1
       48 (by decide) (by decide) (by decide) (by decide))⟩

def shardCexTag : Bytes := List.replicate 32 1

/-- C5 counterexample: a well-formed serialized upload shard with one junk
byte appended (145 bytes, not a multiple of the 48-byte record size, hence
not the serialization of any shard) is accepted and parsed as if the junk
were absent: the parser never rejects bytes after the CAS-section
bookend. -/
theorem deserializeShard_errors_cex :
    deserializeShard shardCexTag
        (serializeShardForUpload shardCexTag
          { file_blocks := [], cas_blocks := [], footer := none } ++ [0]) =
      .ok { file_blocks := [], cas_blocks := [], footer := none } ∧
    (serializeShardForUpload shardCexTag
        { file_blocks := [], cas_blocks := [], footer := none } ++ [0]).length % 48 ≠ 0 := by
  constructor
  · exact deserializeShard_roundtrip shardCexTag (by decide)
      { file_blocks := [], cas_blocks := [], footer := none }
      (by intro fb h; cases h) (by intro cb h; cases h) rfl [0]
  · decide

/-- C10: `ShardBuilder.add_cas_block` with an already-recorded `cas_hash` is
a no-op on the builder state, and consequently every built shard carries at
most one CAS block per distinct xorb hash (the hash list of the built CAS
blocks has no duplicates, for every call sequence). -/
theorem shardBuilder_addCasBlock_dedup :
    (∀ (b : ShardBuilderState) (ch : Bytes) (chs : List Bytes) (szs : List Nat)
        (ss : Nat) (de : Option (List Bool)), ch ∈ b.cas_hashes →
        shardAddCasBlock b ch chs szs ss de = b) ∧
    (∀ ops : List ShardOp,
        ((shardBuilderBuild (runShardOps ops)).cas_blocks.map CASBlock.cas_hash).Nodup) := by
  constructor
  · intro b ch chs szs ss de hmem
    unfold shardAddCasBlock
    rw [if_pos hmem]
  · intro ops
    exact runShardOps_nodup ops

theorem shardBuilder_addCasBlock_dedup_witness :
    shardAddCasBlock { file_blocks := [], cas_blocks := [], cas_hashes := [[7]] }
        [7] [[1]] [2] 3 none =
      { file_blocks := [], cas_blocks := [], cas_hashes := [[7]] } ∧
    ((shardBuilderBuild (runShardOps [ShardOp.cas [7] [] [] 0 none,
        ShardOp.cas [7] [] [] 0 none])).cas_blocks.map CASBlock.cas_hash).Nodup :=
  ⟨shardBuilder_addCasBlock_dedup.1
      { file_blocks := [], cas_blocks := [], cas_hashes := [[7]] }
      [7] [[1]] [2] 3 none (by decide),
   shardBuilder_addCasBlock_dedup.2
      [ShardOp.cas [7] [] [] 0 none, ShardOp.cas [7] [] [] 0 none]⟩

/-! ## Upload session verification hashes (protocol.py)

`_build_file_terms` and `_compute_verification_hashes` read the session
state left by `_form_xorbs`: the chunk-location dict (modelled as a total
function `locs`, defined on every file chunk once deduplication has
located them all) and the session xorb list (pairs of xorb hash and chunk
hash list, from which the `xorb_chunks` dict is rebuilt, later entries
overwriting earlier ones exactly as Python dict assignment does).  A file
is its ordered list of chunk hashes. -/

/-- `ChunkLocation` from protocol.py. -/
structure ChunkLocation where
  xorb_hash : Bytes
  chunk_index : Nat
  size : Nat
  is_new : Bool
deriving DecidableEq, Repr

/-- The loop of `_build_file_terms`: state is `None` or the open term
(current xorb, start, end, accumulated size). -/
def buildFileTermsGo (locs : Bytes → ChunkLocation) :
    List Bytes → Option (Bytes × Nat × Nat × Nat) → List FileDataSequenceEntry
  | [], none => []
  | [], some (x, st, en, sz) =>
    [{ cas_hash := x, cas_flags := 0, unpacked_segment_bytes := sz,
       chunk_index_start := st, chunk_index_end := en }]
  | h :: rest, none =>
    buildFileTermsGo locs rest
      (some ((locs h).xorb_hash, (locs h).chunk_index, (locs h).chunk_index + 1,
        (locs h).size))
  | h :: rest, some (x, st, en, sz) =>
    if (locs h).xorb_hash = x ∧ (locs h).chunk_index = en then
      buildFileTermsGo locs rest (some (x, st, (locs h).chunk_index + 1, sz + (locs h).size))
    else
      { cas_hash := x, cas_flags := 0, unpacked_segment_bytes := sz,
        chunk_index_start := st, chunk_index_end := en } ::
        buildFileTermsGo locs rest
          (some ((locs h).xorb_hash, (locs h).chunk_index, (locs h).chunk_index + 1,
            (locs h).size))

/-- `UploadSession._build_file_terms`. -/
def buildFileTerms (locs : Bytes → ChunkLocation) (chunks : List Bytes) :
    List FileDataSequenceEntry :=
  buildFileTermsGo locs chunks none

/-- The `xorb_chunks` dict of `_compute_verification_hashes`: built by
iterating the session xorbs in order, later assignments overwriting. -/
def xorbChunksOf (xorbs : List (Bytes × List Bytes)) : Bytes → Option (List Bytes) :=
  fun h => xorbs.foldl (fun acc p => if p.1 = h then some p.2 else acc) none

/-- The `file_chunk_map` dict of `_compute_verification_hashes`: keyed by
(xorb hash, chunk index) of each file chunk's location, later file chunks
overwriting. -/
def fileChunkMapOf (locs : Bytes → ChunkLocation) (chunks : List Bytes) :
    Bytes × Nat → Option Bytes :=
  fun key => chunks.foldl
    (fun acc h => if ((locs h).xorb_hash, (locs h).chunk_index) = key then some h else acc)
    none

/-- `compute_verification_hash` from hashing.py: keyed hash (under
`VERIFICATION_KEY`, a parameter) of the concatenated chunk hashes of the
index range. -/
def computeVerificationHash (kh : Bytes → Bytes → Bytes) (vkey : Bytes)
    (chunkHashes : List Bytes) (startIndex endIndex : Nat) : Bytes :=
  kh vkey (((chunkHashes.take endIndex).drop startIndex).flatten)

/-- `UploadSession._compute_verification_hashes` (the dict lookup with a
default models the in-range accesses the reference performs). -/
def computeVerificationHashes (kh : Bytes → Bytes → Bytes) (vkey : Bytes)
    (xorbChunks : Bytes → Option (List Bytes)) (fileChunkMap : Bytes × Nat → Option Bytes)
    (terms : List FileDataSequenceEntry) : List Bytes :=
  terms.map (fun term =>
    let chunkHashes :=
      match xorbChunks term.cas_hash with
      | some lst => (lst.take term.chunk_index_end).drop term.chunk_index_start
      | none =>
        (List.range' term.chunk_index_start
          (term.chunk_index_end - term.chunk_index_start)).map
          (fun idx => (fileChunkMap (term.cas_hash, idx)).getD [])
    computeVerificationHash kh vkey chunkHashes 0 chunkHashes.length)

/-- Spec-side partition of a file's chunk hashes into the maximal
consecutive runs covered by the reconstruction terms: a run extends while
the next chunk sits in the same xorb at the next index. -/
def termRunsGo (locs : Bytes → ChunkLocation) :
    List Bytes → Option (Bytes × Nat × List Bytes) → List (List Bytes)
  | [], none => []
  | [], some (_, _, run) => [run]
  | h :: rest, none =>
    termRunsGo locs rest (some ((locs h).xorb_hash, (locs h).chunk_index + 1, [h]))
  | h :: rest, some (x, en, run) =>
    if (locs h).xorb_hash = x ∧ (locs h).chunk_index = en then
      termRunsGo locs rest (some (x, (locs h).chunk_index + 1, run ++ [h]))
    else
      run :: termRunsGo locs rest
        (some ((locs h).xorb_hash, (locs h).chunk_index + 1, [h]))

/-- Spec-side chunk runs of a file. -/
def termRuns (locs : Bytes → ChunkLocation) (chunks : List Bytes) : List (List Bytes) :=
  termRunsGo locs chunks none

theorem termRunsGo_flatten (locs : Bytes → ChunkLocation) :
    ∀ (rem : List Bytes) (x : Bytes) (en : Nat) (run : List Bytes),
    (termRunsGo locs rem (some (x, en, run))).flatten = run ++ rem := by
  intro rem
  induction rem with
  | nil =>
    intro x en run
    unfold termRunsGo
    simp
  | cons h rest ih =>
    intro x en run
    unfold termRunsGo
    by_cases hc : (locs h).xorb_hash = x ∧ (locs h).chunk_index = en
    · rw [if_pos hc, ih]
      simp
    · rw [if_neg hc]
      simp only [List.flatten_cons, ih]
      simp

theorem fcm_nomatch (locs : Bytes → ChunkLocation) :
    ∀ (l : List Bytes) (acc : Option Bytes) (key : Bytes × Nat),
    (∀ h ∈ l, ((locs h).xorb_hash, (locs h).chunk_index) ≠ key) →
    l.foldl (fun acc h => if ((locs h).xorb_hash, (locs h).chunk_index) = key
      then some h else acc) acc = acc := by
  intro l
  induction l with
  | nil => intro acc key _; rfl
  | cons h0 rest ih =>
    intro acc key hno
    rw [List.foldl_cons, if_neg (hno h0 (by simp))]
    exact ih acc key (fun y hy => hno y (by simp [hy]))

theorem fcm_lookup (locs : Bytes → ChunkLocation) (chunks : List Bytes) (h : Bytes)
    (hmem : h ∈ chunks)
    (huniq : ∀ h2 ∈ chunks, (locs h2).xorb_hash = (locs h).xorb_hash →
      (locs h2).chunk_index = (locs h).chunk_index → h2 = h) :
    fileChunkMapOf locs chunks ((locs h).xorb_hash, (locs h).chunk_index) = some h := by
  unfold fileChunkMapOf
  have hgen : ∀ (rem : List Bytes) (acc : Option Bytes), h ∈ rem →
      (∀ h2 ∈ rem, (locs h2).xorb_hash = (locs h).xorb_hash →
        (locs h2).chunk_index = (locs h).chunk_index → h2 = h) →
      rem.foldl (fun acc h2 => if ((locs h2).xorb_hash, (locs h2).chunk_index) =
          ((locs h).xorb_hash, (locs h).chunk_index) then some h2 else acc) acc = some h := by
    intro rem
    induction rem with
    | nil => intro acc hmem2 _; cases hmem2
    | cons h0 rest ih =>
      intro acc hmem2 huniq2
      rw [List.foldl_cons]
      by_cases hmem3 : h ∈ rest
      · exact ih _ hmem3 (fun y hy => huniq2 y (by simp [hy]))
      · have h0h : h0 = h := by
          rcases List.mem_cons.mp hmem2 with he | he
          · exact he.symm
          · exact absurd he hmem3
        have hno : ∀ h2 ∈ rest,
            ((locs h2).xorb_hash, (locs h2).chunk_index) ≠
              ((locs h).xorb_hash, (locs h).chunk_index) := by
          intro h2 hh2 hk
          have hk2 := Prod.mk.injEq _ _ _ _ ▸ hk
          have heq := huniq2 h2 (by simp [hh2]) (by
            have := congrArg Prod.fst hk
            exact this) (by
            have := congrArg Prod.snd hk
            exact this)
          subst heq
          exact hmem3 hh2
        rw [if_pos (by rw [h0h])]
        rw [fcm_nomatch locs rest (some h0) _ hno, h0h]
  exact hgen chunks none hmem huniq

theorem run_slice_eq (xorbs : List (Bytes × List Bytes)) (locs : Bytes → ChunkLocation)
    (chunks : List Bytes) (x : Bytes) (st en : Nat) (run : List Bytes) (lst : List Bytes)
    (hlst : xorbChunksOf xorbs x = some lst)
    (hrun : ∀ h ∈ run, h ∈ chunks)
    (hloc : ∀ i (hi : i < run.length), (locs run[i]).xorb_hash = x ∧
      (locs run[i]).chunk_index = st + i)
    (hen : en = st + run.length) (hne : run ≠ [])
    (H1 : ∀ h ∈ chunks, ∀ lst2, xorbChunksOf xorbs (locs h).xorb_hash = some lst2 →
      (locs h).chunk_index < lst2.length ∧ lst2.getD (locs h).chunk_index [] = h) :
    (lst.take en).drop st = run := by
  have hpos : 0 < run.length := List.length_pos.mpr hne
  have hbound : st + run.length ≤ lst.length := by
    have hb2 : run.length - 1 < run.length := by omega
    have hlast := hloc (run.length - 1) hb2
    have hmem := hrun run[run.length - 1] (List.getElem_mem _)
    have hH := H1 _ hmem lst (by rw [hlast.1, hlst])
    rw [hlast.2] at hH
    omega
  refine List.ext_getElem ?_ ?_
  · simp only [List.length_drop, List.length_take]
    omega
  · intro i h1 h2
    have hi := hloc i h2
    have hmem := hrun run[i] (List.getElem_mem _)
    have hH := H1 _ hmem lst (by rw [hi.1, hlst])
    rw [hi.2] at hH
    rw [List.getElem_drop, List.getElem_take]
    rw [← hH.2, List.getD_eq_getElem lst [] hH.1]

theorem run_map_eq (xorbs : List (Bytes × List Bytes)) (locs : Bytes → ChunkLocation)
    (chunks : List Bytes) (x : Bytes) (st en : Nat) (run : List Bytes)
    (hrun : ∀ h ∈ run, h ∈ chunks)
    (hloc : ∀ i (hi : i < run.length), (locs run[i]).xorb_hash = x ∧
      (locs run[i]).chunk_index = st + i)
    (hen : en = st + run.length)
    (H2 : ∀ h1 ∈ chunks, ∀ h2 ∈ chunks, (locs h1).xorb_hash = (locs h2).xorb_hash →
      (locs h1).chunk_index = (locs h2).chunk_index → h1 = h2) :
    (List.range' st (en - st)).map
      (fun idx => (fileChunkMapOf locs chunks (x, idx)).getD []) = run := by
  rw [show en - st = run.length by omega]
  refine List.ext_getElem (by simp) ?_
  · intro i h1 h2
    simp only [List.getElem_map, List.getElem_range', one_mul]
    have hi := hloc i h2
    have hmem := hrun run[i] (List.getElem_mem _)
    have hlook := fcm_lookup locs chunks run[i] hmem (by
      intro h2x hh2 hxx hcx
      exact H2 h2x hh2 run[i] hmem hxx hcx)
    rw [hi.1, hi.2] at hlook
    rw [hlook]
    rfl

theorem cvh_cons (kh : Bytes → Bytes → Bytes) (vkey : Bytes)
    (xorbChunks : Bytes → Option (List Bytes)) (fileChunkMap : Bytes × Nat → Option Bytes)
    (t : FileDataSequenceEntry) (ts : List FileDataSequenceEntry) :
    computeVerificationHashes kh vkey xorbChunks fileChunkMap (t :: ts) =
      computeVerificationHashes kh vkey xorbChunks fileChunkMap [t] ++
        computeVerificationHashes kh vkey xorbChunks fileChunkMap ts := by
  unfold computeVerificationHashes
  simp

theorem term_hash_core (kh : Bytes → Bytes → Bytes) (vkey : Bytes)
    (xorbs : List (Bytes × List Bytes)) (locs : Bytes → ChunkLocation)
    (chunks : List Bytes) (x : Bytes) (st en sz : Nat) (run : List Bytes)
    (hrun : ∀ h ∈ run, h ∈ chunks)
    (hloc : ∀ i (hi : i < run.length), (locs run[i]).xorb_hash = x ∧
      (locs run[i]).chunk_index = st + i)
    (hen : en = st + run.length) (hne : run ≠ [])
    (H1 : ∀ h ∈ chunks, ∀ lst2, xorbChunksOf xorbs (locs h).xorb_hash = some lst2 →
      (locs h).chunk_index < lst2.length ∧ lst2.getD (locs h).chunk_index [] = h)
    (H2 : ∀ h1 ∈ chunks, ∀ h2 ∈ chunks, (locs h1).xorb_hash = (locs h2).xorb_hash →
      (locs h1).chunk_index = (locs h2).chunk_index → h1 = h2) :
    computeVerificationHashes kh vkey (xorbChunksOf xorbs) (fileChunkMapOf locs chunks)
        [{ cas_hash := x, cas_flags := 0, unpacked_segment_bytes := sz,
           chunk_index_start := st, chunk_index_end := en }] = [kh vkey run.flatten] := by
  unfold computeVerificationHashes
  simp only [List.map_cons, List.map_nil]
  rcases hxc : xorbChunksOf xorbs x with _ | lst
  · dsimp only
    rw [run_map_eq xorbs locs chunks x st en run hrun hloc hen H2]
    unfold computeVerificationHash
    rw [List.take_length, List.drop_zero]
  · dsimp only
    rw [run_slice_eq xorbs locs chunks x st en run lst hxc hrun hloc hen hne H1]
    unfold computeVerificationHash
    rw [List.take_length, List.drop_zero]

theorem buildTerms_verification_go (kh : Bytes → Bytes → Bytes) (vkey : Bytes)
    (xorbs : List (Bytes × List Bytes)) (locs : Bytes → ChunkLocation)
    (chunks : List Bytes)
    (H1 : ∀ h ∈ chunks, ∀ lst2, xorbChunksOf xorbs (locs h).xorb_hash = some lst2 →
      (locs h).chunk_index < lst2.length ∧ lst2.getD (locs h).chunk_index [] = h)
    (H2 : ∀ h1 ∈ chunks, ∀ h2 ∈ chunks, (locs h1).xorb_hash = (locs h2).xorb_hash →
      (locs h1).chunk_index = (locs h2).chunk_index → h1 = h2) :
    ∀ (rem : List Bytes) (x : Bytes) (st en sz : Nat) (run : List Bytes),
    (∀ h ∈ rem, h ∈ chunks) → (∀ h ∈ run, h ∈ chunks) →
    (∀ i (hi : i < run.length), (locs run[i]).xorb_hash = x ∧
      (locs run[i]).chunk_index = st + i) →
    en = st + run.length → run ≠ [] →
    computeVerificationHashes kh vkey (xorbChunksOf xorbs) (fileChunkMapOf locs chunks)
        (buildFileTermsGo locs rem (some (x, st, en, sz))) =
      (termRunsGo locs rem (some (x, en, run))).map (fun r => kh vkey r.flatten) := by
  intro rem
  induction rem with
  | nil =>
    intro x st en sz run hrem hrun hloc hen hne
    unfold buildFileTermsGo termRunsGo
    rw [term_hash_core kh vkey xorbs locs chunks x st en sz run hrun hloc hen hne H1 H2]
    simp
  | cons h rest ih =>
    intro x st en sz run hrem hrun hloc hen hne
    unfold buildFileTermsGo termRunsGo
    by_cases hc : (locs h).xorb_hash = x ∧ (locs h).chunk_index = en
    · rw [if_pos hc, if_pos hc]
      have hrun2 : ∀ h2 ∈ run ++ [h], h2 ∈ chunks := by
        intro h2 hh2
        rcases List.mem_append.mp hh2 with hx2 | hx2
        · exact hrun h2 hx2
        · rw [List.mem_singleton.mp hx2]
          exact hrem h (by simp)
      have hloc2 : ∀ i (hi : i < (run ++ [h]).length),
          (locs (run ++ [h])[i]).xorb_hash = x ∧
          (locs (run ++ [h])[i]).chunk_index = st + i := by
        intro i hi
        simp only [List.length_append, List.length_cons, List.length_nil] at hi
        by_cases hilt : i < run.length
        · rw [List.getElem_append_left hilt]
          exact hloc i hilt
        · have hieq : i = run.length := by omega
          subst hieq
          rw [List.getElem_concat_length]
          · exact ⟨hc.1, by rw [hc.2]; omega⟩
          · rfl
      have hen2 : (locs h).chunk_index + 1 = st + (run ++ [h]).length := by
        simp only [List.length_append, List.length_cons, List.length_nil]
        omega
      exact ih x st ((locs h).chunk_index + 1) (sz + (locs h).size) (run ++ [h])
        (fun y hy => hrem y (by simp [hy])) hrun2 hloc2 hen2 (by simp)
    · rw [if_neg hc, if_neg hc]
      rw [cvh_cons]
      rw [term_hash_core kh vkey xorbs locs chunks x st en sz run hrun hloc hen hne H1 H2]
      rw [List.map_cons]
      rw [List.singleton_append]
      have hloc2 : ∀ i (hi : i < ([h] : List Bytes).length),
          (locs ([h] : List Bytes)[i]).xorb_hash = (locs h).xorb_hash ∧
          (locs ([h] : List Bytes)[i]).chunk_index = (locs h).chunk_index + i := by
        intro i hi
        simp only [List.length_cons, List.length_nil] at hi
        have hieq : i = 0 := by omega
        subst hieq
        exact ⟨rfl, by simp⟩
      rw [ih (locs h).xorb_hash (locs h).chunk_index ((locs h).chunk_index + 1)
        (locs h).size [h] (fun y hy => hrem y (by simp [hy]))
        (by intro y hy; rw [List.mem_singleton.mp hy]; exact hrem h (by simp))
        hloc2 (by simp) (by simp)]

/-- C6: for every file in an upload session whose state satisfies the
`_form_xorbs` consistency invariants — (H1) every session xorb listed in
`self.xorbs` holds, at each located chunk's recorded index, exactly that
chunk's hash, and (H2) distinct chunk hashes never share a (xorb, index)
location — the verification hashes computed for the file's reconstruction
terms are exactly `keyed_hash(VERIFICATION_KEY, concatenation of the
file's own chunk hashes covered, in file order, by the k-th term)`, for
both session-built and deduplicated xorbs; moreover the term runs
partition the file's chunk hashes in order. -/
theorem uploadVerificationHashes_spec (kh : Bytes → Bytes → Bytes) (vkey : Bytes)
    (xorbs : List (Bytes × List Bytes)) (locs : Bytes → ChunkLocation)
    (chunks : List Bytes)
    (H1 : ∀ h ∈ chunks, ∀ lst2, xorbChunksOf xorbs (locs h).xorb_hash = some lst2 →
      (locs h).chunk_index < lst2.length ∧ lst2.getD (locs h).chunk_index [] = h)
    (H2 : ∀ h1 ∈ chunks, ∀ h2 ∈ chunks, (locs h1).xorb_hash = (locs h2).xorb_hash →
      (locs h1).chunk_index = (locs h2).chunk_index → h1 = h2) :
    computeVerificationHashes kh vkey (xorbChunksOf xorbs) (fileChunkMapOf locs chunks)
        (buildFileTerms locs chunks) =
      (termRuns locs chunks).map (fun run => kh vkey run.flatten) ∧
    (termRuns locs chunks).flatten = chunks := by
  constructor
  · cases chunks with
    | nil => rfl
    | cons h rest =>
      unfold buildFileTerms termRuns buildFileTermsGo termRunsGo
      exact buildTerms_verification_go kh vkey xorbs locs (h :: rest) H1 H2 rest
        (locs h).xorb_hash (locs h).chunk_index ((locs h).chunk_index + 1) (locs h).size
        [h] (fun y hy => by simp [hy])
        (by intro y hy; rw [List.mem_singleton.mp hy]; simp)
        (by
          intro i hi
          simp only [List.length_cons, List.length_nil] at hi
          have hieq : i = 0 := by omega
          subst hieq
          exact ⟨rfl, by simp⟩)
        (by simp) (by simp)
  · cases chunks with
    | nil => rfl
    | cons h rest =>
      unfold termRuns termRunsGo
      rw [termRunsGo_flatten]
      rfl

def c6Locs : Bytes → ChunkLocation :=
  fun h => if h = [1] then { xorb_hash := [9], chunk_index := 0, size := 3, is_new := true }
           else { xorb_hash := [9], chunk_index := 1, size := 4, is_new := true }

theorem uploadVerificationHashes_spec_witness :
    computeVerificationHashes (fun k d => k ++ d) [5]
        (xorbChunksOf [([9], [[1], [2]])]) (fileChunkMapOf c6Locs [[1], [2]])
        (buildFileTerms c6Locs [[1], [2]]) =
      (termRuns c6Locs [[1], [2]]).map (fun run => ([5] : Bytes) ++ run.flatten) ∧
    (termRuns c6Locs [[1], [2]]).flatten = [[1], [2]] :=
  uploadVerificationHashes_spec (fun k d => k ++ d) [5] [([9], [[1], [2]])] c6Locs
    [[1], [2]]
    (by
      intro h hmem lst2 hl
      fin_cases hmem
      · have he : some ([[1], [2]] : List Bytes) = some lst2 := hl
        injection he with he2
        subst he2
        exact ⟨by decide, by decide⟩
      · have he : some ([[1], [2]] : List Bytes) = some lst2 := hl
        injection he with he2
        subst he2
        exact ⟨by decide, by decide⟩)
    (by
      intro h1 hm1 h2 hm2 hx hc
      fin_cases hm1 <;> fin_cases hm2 <;> first | rfl | exact absurd hc (by decide))

end Xet
